import Mathlib

/-!
Verification development for the `phits_map_edit` repository.

The development shallowly embeds the algorithmic core of the repository:
  * `utils.get_physical_coords` (grid-cell to physical coordinates),
  * `route_calculator.run_astar` / `find_optimal_route` (A* path search),
  * `route_calculator.resample_path_by_width` (arc-length resampling),
  * `phits_handler.AdvancedPhitsMerger` (section parser and renumbering merger).

Python floats are modelled as exact numbers: rationals where only ring
operations and comparisons occur (costs, coordinates of the mapper), reals
where `math.sqrt` is involved (the resampler).  The configuration constants
imported from `app_config` (which is not part of the sources) are passed as
explicit parameters.
-/

namespace PhitsMapEdit

/-! ### utils.get_physical_coords

Embedding of `utils.get_physical_coords`.  The constants `MAP_ROWS`,
`CELL_SIZE_X`, `CELL_SIZE_Y`, `CELL_HEIGHT_Z` are imported by `utils.py`
from `app_config`; they appear here as parameters.  The Python function
performs no list indexing and has no failure path: it returns the tuple
`(x_min, x_max, y_min, y_max, z_min, z_max)` computed by ring arithmetic.
-/

def get_physical_coords (MAP_ROWS : ℤ) (CELL_SIZE_X CELL_SIZE_Y CELL_HEIGHT_Z : ℚ)
    (r c : ℤ) : ℚ × ℚ × ℚ × ℚ × ℚ × ℚ :=
  let x_min : ℚ := (c : ℚ) * CELL_SIZE_X
  let x_max : ℚ := ((c : ℚ) + 1) * CELL_SIZE_X
  let y_max : ℚ := ((MAP_ROWS : ℚ) - (r : ℚ)) * CELL_SIZE_Y
  let y_min : ℚ := ((MAP_ROWS : ℚ) - (r : ℚ) - 1) * CELL_SIZE_Y
  (x_min, x_max, y_min, y_max, 0, CELL_HEIGHT_Z)

/-! ### route_calculator: path resampler

Embedding of `_distance`, `_interpolate_point` and `resample_path_by_width`
from `route_calculator.py`.  Physical points are triples of reals (Python
floats in exact-real idealisation; `math.sqrt` becomes `Real.sqrt`).
-/

/-- A physical point `(x, y, z)`. -/
abbrev Point : Type := ℝ × ℝ × ℝ

open Classical

/-- Embedding of `_distance(p1, p2)`: Euclidean distance
`sqrt(sum((b - a) ** 2 for a, b in zip(p1, p2)))`. -/
noncomputable def _distance (p1 p2 : Point) : ℝ :=
  Real.sqrt ((p2.1 - p1.1) ^ 2 + (p2.2.1 - p1.2.1) ^ 2 + (p2.2.2 - p1.2.2) ^ 2)

/-- Embedding of `_interpolate_point(p1, p2, ratio)`:
`tuple(p1[i] + ratio * (p2[i] - p1[i]) for i in range(3))`. -/
def _interpolate_point (p1 p2 : Point) (ratio : ℝ) : Point :=
  (p1.1 + ratio * (p2.1 - p1.1),
   p1.2.1 + ratio * (p2.2.1 - p1.2.1),
   p1.2.2 + ratio * (p2.2.2 - p1.2.2))

/-- The `total_distance` computed by `resample_path_by_width`: the sum of
`_distance(path[i], path[i+1])` over consecutive pairs. -/
noncomputable def totalDistance : List Point → ℝ
  | p1 :: p2 :: rest => _distance p1 p2 + totalDistance (p2 :: rest)
  | _ => 0

/-- Number of samples produced by the loop
`d = step_width; while d < total_distance: distances_to_sample.append(d);
d += step_width` of `resample_path_by_width`.  In exact arithmetic the
appended values are `step, 2*step, ...`, so the loop appends one value for
each `k ≥ 1` with `k * step < total`; for `step > 0` that count is
`⌈total / step⌉₊ - 1` (see `mem_distances_to_sample` below). -/
noncomputable def sampleCount (total step : ℝ) : ℕ :=
  ⌈total / step⌉₊ - 1

/-- The list `distances_to_sample` built by the loop of
`resample_path_by_width`: `[step, 2*step, ...]`, all values below `total`. -/
noncomputable def distances_to_sample (total step : ℝ) : List ℝ :=
  (List.range (sampleCount total step)).map (fun k : ℕ => ((k : ℝ) + 1) * step)

/-- The inner `while` of the resampler: starting from the sample distances
not yet consumed, take every sample `d` with
`segment_start_dist <= d < segment_end_dist`, interpolate it on the current
segment, and return the interpolated points together with the samples left
over for later segments. -/
noncomputable def consumeSamples (p1 p2 : Point) (segLen startDist endDist : ℝ) :
    List ℝ → List Point × List ℝ
  | [] => ([], [])
  | d :: ds =>
    if startDist ≤ d ∧ d < endDist then
      let res := consumeSamples p1 p2 segLen startDist endDist ds
      (_interpolate_point p1 p2 ((d - startDist) / segLen) :: res.1, res.2)
    else ([], d :: ds)

/-- The outer `for i in range(len(physical_path) - 1)` of the resampler,
walking consecutive segments while tracking `segment_start_dist` and the
remaining sample distances.  Zero-length segments are skipped
(`if segment_len == 0: continue`), which also avoids the division by zero
in the ratio. -/
noncomputable def segmentLoop : List (Point × Point) → ℝ → List ℝ → List Point
  | [], _, _ => []
  | (p1, p2) :: rest, startDist, samples =>
    let segLen := _distance p1 p2
    let endDist := startDist + segLen
    if segLen = 0 then segmentLoop rest startDist samples
    else
      let r := consumeSamples p1 p2 segLen startDist endDist samples
      r.1 ++ segmentLoop rest endDist r.2

/-- Python `l[0]` on a (guaranteed non-empty) list. -/
def pyHead {α : Type} [Inhabited α] : List α → α
  | [] => default
  | x :: _ => x

/-- Python `l[-1]` on a (guaranteed non-empty) list. -/
def pyLast {α : Type} [Inhabited α] : List α → α
  | [] => default
  | [x] => x
  | _ :: x :: xs => pyLast (x :: xs)

/-- The `new_path` list built by `resample_path_by_width` before the final
`list(dict.fromkeys(new_path))` dedupe, in the non-trivial case
(`len(path) ≥ 2`, `step_width > 0`).  When no sample distances exist the
code appends the final point only if the total length is positive. -/
noncomputable def resamplePre (path : List Point) (step_width : ℝ) : List Point :=
  let total := totalDistance path
  let ds := distances_to_sample total step_width
  if ds = [] then
    pyHead path :: (if 0 < total then [pyLast path] else [])
  else
    pyHead path :: (segmentLoop (path.zip path.tail) 0 ds ++ [pyLast path])

/-- Order-preserving first-occurrence dedupe: the semantics of Python's
`list(dict.fromkeys(l))`.  `seen` accumulates the keys already emitted. -/
def dedupeGo {α : Type} [DecidableEq α] : List α → List α → List α
  | _, [] => []
  | seen, x :: xs =>
    if x ∈ seen then dedupeGo seen xs else x :: dedupeGo (x :: seen) xs

/-- `list(dict.fromkeys(l))`: keep the first occurrence of each element,
preserving order. -/
def dedupeKeepFirst {α : Type} [DecidableEq α] (l : List α) : List α :=
  dedupeGo [] l

/-- Embedding of `resample_path_by_width(physical_path, step_width)`. -/
noncomputable def resample_path_by_width (path : List Point) (step_width : ℝ) :
    List Point :=
  if path = [] ∨ path.length < 2 ∨ step_width ≤ 0 then path
  else dedupeKeepFirst (resamplePre path step_width)

/-! ### phits_handler: section parser and renumbering merger

Embedding of `AdvancedPhitsMerger` from `phits_handler.py`.  Lines of text
are `List Char` (a document is its list of lines, i.e. the result of
Python's `text.splitlines()`), and the ordered `dict` of sections is an
association list whose keys are unique by construction.  The regular
expressions of the source are embedded as explicit character-level matchers
with the same (leftmost, greedy-with-backtracking) semantics.
-/

/-- The characters of a string literal. -/
def chars (s : String) : List Char := s.data

/-- Python's `\s` class (ASCII): space, tab, newline, carriage return,
vertical tab, form feed. -/
def pyIsSpace (c : Char) : Bool :=
  c = ' ' || c = '\t' || c = '\n' || c = '\r' || c.toNat = 11 || c.toNat = 12

/-- Python's `\d` class (ASCII). -/
def pyIsDigit (c : Char) : Bool := '0' ≤ c && c ≤ '9'

/-- The class `[a-zA-Z0-9]` used by `_parse` to normalise section keys. -/
def pyIsWordChar (c : Char) : Bool :=
  ('a' ≤ c && c ≤ 'z') || ('A' ≤ c && c ≤ 'Z') || ('0' ≤ c && c ≤ '9')

/-- ASCII `str.lower()` on one character. -/
def pyToLower (c : Char) : Char :=
  if 'A' ≤ c && c ≤ 'Z' then Char.ofNat (c.toNat + 32) else c

/-- Numeric value of a digit string (`int()` on a digit run). -/
def digitsVal (ds : List Char) : ℕ :=
  ds.foldl (fun a c => 10 * a + (c.toNat - 48)) 0

/-- The decimal digit characters. -/
def digitChar (d : ℕ) : Char :=
  match d with
  | 0 => '0' | 1 => '1' | 2 => '2' | 3 => '3' | 4 => '4'
  | 5 => '5' | 6 => '6' | 7 => '7' | 8 => '8' | _ => '9'

/-- Python `str(n)` for a natural number, with explicit fuel (the fuel
`n` always suffices because the argument shrinks at least tenfold per
step). -/
def natStrAux : ℕ → ℕ → List Char
  | 0, n => [digitChar (n % 10)]
  | fuel + 1, n =>
    if n < 10 then [digitChar n]
    else natStrAux fuel (n / 10) ++ [digitChar (n % 10)]

/-- Python `str(n)` for a natural number. -/
def natStr (n : ℕ) : List Char := natStrAux n n

/-- An ordered mapping `section_key -> (header_text, lines)`: the insertion
order of Python's `dict` is the list order, keys are unique. -/
abbrev Sections : Type := List (List Char × List Char × List (List Char))

/-- Key lookup in a sections mapping. -/
def getSection : Sections → List Char → Option (List Char × List (List Char))
  | [], _ => none
  | (k', h, ls) :: rest, k => if k' = k then some (h, ls) else getSection rest k

/-- `key in sections`. -/
def hasKey (secs : Sections) (k : List Char) : Bool :=
  secs.any (fun e => e.1 = k)

/-- `sections[key] = value`: updates the entry in place if the key exists
(preserving its position, as Python dicts do), else appends it. -/
def setSection (secs : Sections) (k : List Char) (v : List Char × List (List Char)) :
    Sections :=
  if hasKey secs k then secs.map (fun e => if e.1 = k then (k, v.1, v.2) else e)
  else secs ++ [(k, v.1, v.2)]

/-- `sections[key][1].append(line)`. -/
def appendToSection (secs : Sections) (k : List Char) (line : List Char) : Sections :=
  secs.map (fun e => if e.1 = k then (e.1, e.2.1, e.2.2 ++ [line]) else e)

/-- The header regular expression `^\s*\[\s*([^\]]+?)\s*\]` of `_parse`:
a line matches iff after optional leading whitespace it has `[`, then at
least one non-`]` character, then `]`.  The result is
`(group(0).strip(), raw bracket content)`: `group(0).strip()` is the text
from the first non-whitespace character through the first `]`, and the raw
content feeds the key normalisation (surrounding whitespace of the lazy
group is irrelevant there because all non-alphanumerics are deleted). -/
def headerMatch (line : List Char) : Option (List Char × List Char) :=
  match line.dropWhile (fun c => pyIsSpace c) with
  | c :: rest =>
    if c = '[' then
      let content := rest.takeWhile (fun c => c ≠ ']')
      if content.length < rest.length ∧ content ≠ [] then
        some ('[' :: (content ++ [']']), content)
      else none
    else none
  | [] => none

/-- Key derivation of `_parse`: `re.sub(r'[^a-zA-Z0-9]', '', label).lower()`. -/
def normKey (content : List Char) : List Char :=
  (content.filter (fun c => pyIsWordChar c)).map pyToLower

/-- `self.append_only_keys = ['source', 'tend']`. -/
def append_only_keys : List (List Char) := [chars "source", chars "tend"]

/-- `self.overwrite_keys = ['title', 'parameters', 'tdeposit']`. -/
def overwrite_keys : List (List Char) := [chars "title", chars "parameters", chars "tdeposit"]

/-- `self.merge_keys = ['material', 'surface', 'cell', 'volume', 'transform']`. -/
def merge_keys : List (List Char) :=
  [chars "material", chars "surface", chars "cell", chars "volume", chars "transform"]

/-- The loop body of `_parse` over `enumerate(text.splitlines())`, carrying
the running line index, the currently open section key and the sections
accumulated so far. -/
def parseGo : ℕ → List (List Char) → Option (List Char) → Sections → Sections
  | _, [], _, secs => secs
  | i, line :: rest, cur, secs =>
    match headerMatch line with
    | some (header, content) =>
      let key0 := normKey content
      let key := if key0 ∈ append_only_keys then key0 ++ '_' :: natStr i else key0
      let secs' := if hasKey secs key then secs else secs ++ [(key, header, [])]
      parseGo (i + 1) rest (some key) secs'
    | none =>
      match cur with
      | some k => parseGo (i + 1) rest cur (appendToSection secs k line)
      | none => parseGo (i + 1) rest none secs

/-- Embedding of `AdvancedPhitsMerger._parse` (the document is given as its
list of lines). -/
def _parse (textLines : List (List Char)) : Sections :=
  parseGo 0 textLines none []

/-- The pattern `^\s*mat\s*\[\s*(\d+)\s*\]` (IGNORECASE) of
`_renumber_and_map_ids`: returns the numeric group and the characters after
the matched span. -/
def matMatch (l : List Char) : Option (ℕ × List Char) :=
  match l.dropWhile (fun c => pyIsSpace c) with
  | c1 :: c2 :: c3 :: r2 =>
    if pyToLower c1 = 'm' ∧ pyToLower c2 = 'a' ∧ pyToLower c3 = 't' then
      match r2.dropWhile (fun c => pyIsSpace c) with
      | '[' :: r4 =>
        let r5 := r4.dropWhile (fun c => pyIsSpace c)
        let ds := r5.takeWhile (fun c => pyIsDigit c)
        if ds = [] then none
        else
          match (r5.drop ds.length).dropWhile (fun c => pyIsSpace c) with
          | ']' :: r7 => some (digitsVal ds, r7)
          | _ => none
      | _ => none
    else none
  | _ => none

/-- The pattern `^\s*(\d+)\s+` of `_renumber_and_map_ids` (cell and surface
identifiers) and of the detector-cell scan: leading integer token followed
by at least one whitespace character; returns the value and the characters
after the matched span (the greedy `\s+` consumes the whole whitespace
run). -/
def leadIntMatch (l : List Char) : Option (ℕ × List Char) :=
  let r1 := l.dropWhile (fun c => pyIsSpace c)
  let ds := r1.takeWhile (fun c => pyIsDigit c)
  if ds = [] then none
  else
    let r2 := r1.drop ds.length
    let ws := r2.takeWhile (fun c => pyIsSpace c)
    if ws = [] then none else some (digitsVal ds, r2.drop ws.length)

/-- The pattern `^\s*\*?Tr(\d+)` (IGNORECASE) of `_renumber_and_map_ids`
(transform identifiers). -/
def transMatch (l : List Char) : Option (ℕ × List Char) :=
  let r1 := l.dropWhile (fun c => pyIsSpace c)
  let r2 := match r1 with | '*' :: t => t | _ => r1
  match r2 with
  | c1 :: c2 :: r3 =>
    if pyToLower c1 = 't' ∧ pyToLower c2 = 'r' then
      let ds := r3.takeWhile (fun c => pyIsDigit c)
      if ds = [] then none else some (digitsVal ds, r3.drop ds.length)
    else none
  | _ => none

/-- `pattern.sub(f"mat[{new_id}]", line, 1)`: the matched span (which starts
at the beginning of the line) is replaced by `mat[<id>]`. -/
def matRebuild (newId : ℕ) (suffix : List Char) : List Char :=
  chars "mat[" ++ natStr newId ++ ']' :: suffix

/-- `pattern.sub(f"{new_id} ", line, 1)` for cell/surface lines. -/
def leadIntRebuild (newId : ℕ) (suffix : List Char) : List Char :=
  natStr newId ++ ' ' :: suffix

/-- `pattern.sub(f"*Tr{new_id}", line, 1)` for transform lines (note the
star is always added back, and the original capitalisation is lost). -/
def transRebuild (newId : ℕ) (suffix : List Char) : List Char :=
  chars "*Tr" ++ natStr newId ++ suffix

/-- The base-identifier collection of `_renumber_and_map_ids`: all pattern
matches over the lines of every base section whose key starts with the
namespace's section key.  (Python builds a set; only membership and maximum
are consumed, so a list with possible repetitions is an equivalent
model.) -/
def collectIds (pat : List Char → Option (ℕ × List Char)) (nsKey : List Char)
    (secs : Sections) : List ℕ :=
  (secs.filter (fun e => nsKey.isPrefixOf e.1)).flatMap
    (fun e => e.2.2.filterMap (fun line => (pat line).map (fun x => x.1)))

/-- The per-line loop of `_renumber_and_map_ids` over the overlay section:
threading the namespace's `id_map` and `next_id` through the lines in
order.  A line whose identifier collides with a base identifier receives
`next_id` (and `next_id` is incremented); otherwise the identifier is kept;
either way the mapping records `old_id -> new_id` (later lines with the
same `old_id` overwrite the record) and the defining token is rewritten. -/
def renumberGo (pat : List Char → Option (ℕ × List Char))
    (rebuild : ℕ → List Char → List Char) (baseIds : List ℕ) :
    List (List Char) → (ℕ → Option ℕ) → ℕ →
      List (List Char) × (ℕ → Option ℕ) × ℕ
  | [], mp, nid => ([], mp, nid)
  | line :: rest, mp, nid =>
    match pat line with
    | none =>
      let r := renumberGo pat rebuild baseIds rest mp nid
      (line :: r.1, r.2)
    | some (oldId, suffix) =>
      let newId := if oldId ∈ baseIds then nid else oldId
      let nid' := if oldId ∈ baseIds then nid + 1 else nid
      let mp' := fun k => if k = oldId then some newId else mp k
      let r := renumberGo pat rebuild baseIds rest mp' nid'
      (rebuild newId suffix :: r.1, r.2)

/-- One namespace pass of `_renumber_and_map_ids`: compute the base ids and
`next_id = max(base_ids) + 1` (or `1`), then rewrite the overlay section
with key `nsKey` (if present), returning the updated overlay sections and
the namespace's id map. -/
def renumberNamespace (pat : List Char → Option (ℕ × List Char))
    (rebuild : ℕ → List Char → List Char) (nsKey : List Char)
    (baseSecs mergeSecs : Sections) : Sections × (ℕ → Option ℕ) :=
  let baseIds := collectIds pat nsKey baseSecs
  let nextId := baseIds.foldl Nat.max 0 + 1
  match getSection mergeSecs nsKey with
  | none => (mergeSecs, fun _ => none)
  | some (header, lines) =>
    let r := renumberGo pat rebuild baseIds lines (fun _ => none) nextId
    (setSection mergeSecs nsKey (header, r.1), r.2.1)

/-- The four namespace id maps `self.id_maps`. -/
structure IdMaps where
  mat : ℕ → Option ℕ
  cell : ℕ → Option ℕ
  surf : ℕ → Option ℕ
  trans : ℕ → Option ℕ

/-- Embedding of `AdvancedPhitsMerger._renumber_and_map_ids`: the four
namespaces are processed in the dict order `mat, cell, surf, trans`, each
on its own section and independently of the others. -/
def _renumber_and_map_ids (baseSecs mergeSecs : Sections) : Sections × IdMaps :=
  let r1 := renumberNamespace matMatch matRebuild (chars "material") baseSecs mergeSecs
  let r2 := renumberNamespace leadIntMatch leadIntRebuild (chars "cell") baseSecs r1.1
  let r3 := renumberNamespace leadIntMatch leadIntRebuild (chars "surface") baseSecs r2.1
  let r4 := renumberNamespace transMatch transRebuild (chars "transform") baseSecs r3.1
  (r4.1, ⟨r1.2, r2.2, r3.2, r4.2⟩)

/-- Helper for the `([^ ]+)\s+(.*)` tail of the cell-line pattern: for a
fixed amount of leading whitespace already consumed, try density lengths
from `m` down to `1`; a length is admissible when the following character
exists and is whitespace (the `\s+` of group separation; it can be a tab
inside the non-space run, which `[^ ]+` gives back on backtracking).  On
success the greedy `\s+` consumes the whitespace run and `(.*)` the rest. -/
def densTryM (tl : List Char) : ℕ → Option (List Char × List Char)
  | 0 => none
  | m + 1 =>
    match (tl.drop (m + 1)).head? with
    | some c =>
      if pyIsSpace c then
        let after := tl.drop (m + 1)
        let ws2 := after.takeWhile (fun c => pyIsSpace c)
        some (tl.take (m + 1), after.drop ws2.length)
      else densTryM tl m
    | none => densTryM tl m

/-- Helper for `\s+([^ ]+)\s+(.*)`: try whitespace-prefix lengths from `k`
down to `1` (the greedy `\s+` prefers the longest), and for each the
density candidates. -/
def densKLoop (r4 : List Char) : ℕ → Option (List Char × List Char)
  | 0 => none
  | k + 1 =>
    let tl := r4.drop (k + 1)
    match densTryM tl (tl.takeWhile (fun c => c ≠ ' ')).length with
    | some res => some res
    | none => densKLoop r4 k

/-- The `\s+([^ ]+)\s+(.*)` tail of the cell-line pattern, with Python's
backtracking semantics: returns `(density, rest_of_line)`. -/
def densRest (r4 : List Char) : Option (List Char × List Char) :=
  densKLoop r4 (r4.takeWhile (fun c => pyIsSpace c)).length

/-- The cell-line pattern `^\s*(\d+)\s+(-?\d+)\s+([^ ]+)\s+(.*)` of
`_update_references`: returns the raw digit run of the cell id, the sign
and raw digit run of the material id, the density token, and the rest of
the line. -/
def matchCellLine (l : List Char) :
    Option (List Char × (Bool × List Char) × List Char × List Char) :=
  let r1 := l.dropWhile (fun c => pyIsSpace c)
  let d1 := r1.takeWhile (fun c => pyIsDigit c)
  if d1 = [] then none
  else
    let r2 := r1.drop d1.length
    let w1 := r2.takeWhile (fun c => pyIsSpace c)
    if w1 = [] then none
    else
      let r3 := r2.drop w1.length
      let neg := match r3 with | '-' :: _ => true | _ => false
      let r3b := match r3 with | '-' :: t => t | _ => r3
      let d2 := r3b.takeWhile (fun c => pyIsDigit c)
      if d2 = [] then none
      else
        match densRest (r3b.drop d2.length) with
        | none => none
        | some (dens, rest) => some (d1, (neg, d2), dens, rest)

/-- `re.sub(r'([+\-#])(\d+)', replace_surf, rest_of_line)`: left-to-right,
non-overlapping; each surface reference `+n`, `-n` or `#n` is rewritten to
the mapped id (`id_maps['surf'].get(old, old)`), reformatted by `str()`.
The fuel is the length of the list; each step consumes at least one
character, so it never runs out. -/
def subSurfGo (mp : ℕ → Option ℕ) : ℕ → List Char → List Char
  | 0, l => l
  | _ + 1, [] => []
  | fuel + 1, c :: t =>
    if c = '+' ∨ c = '-' ∨ c = '#' then
      let ds := t.takeWhile (fun c => pyIsDigit c)
      if ds = [] then c :: subSurfGo mp fuel t
      else
        let old := digitsVal ds
        let newId := match mp old with | some n => n | none => old
        c :: (natStr newId ++ subSurfGo mp fuel (t.drop ds.length))
    else c :: subSurfGo mp fuel t

/-- Surface-reference rewriting over a whole `rest_of_line`. -/
def subSurf (mp : ℕ → Option ℕ) (l : List Char) : List Char :=
  subSurfGo mp l.length l

/-- Anchored match of `(trcl\s*=\s*\(?\s*)(\d+)(\s*\)?)` (IGNORECASE) at
the head of the list: returns `(group1, digits, group3, rest)` with the
original characters of groups 1 and 3 preserved verbatim. -/
def trclMatchAt (l : List Char) : Option (List Char × List Char × List Char × List Char) :=
  match l with
  | c1 :: c2 :: c3 :: c4 :: r =>
    if pyToLower c1 = 't' ∧ pyToLower c2 = 'r' ∧ pyToLower c3 = 'c' ∧ pyToLower c4 = 'l' then
      let w1 := r.takeWhile (fun c => pyIsSpace c)
      match r.drop w1.length with
      | '=' :: r3 =>
        let w2 := r3.takeWhile (fun c => pyIsSpace c)
        let r4 := r3.drop w2.length
        let par := match r4 with | '(' :: _ => ['('] | _ => ([] : List Char)
        let r5 := match r4 with | '(' :: t => t | _ => r4
        let w3 := r5.takeWhile (fun c => pyIsSpace c)
        let r6 := r5.drop w3.length
        let ds := r6.takeWhile (fun c => pyIsDigit c)
        if ds = [] then none
        else
          let r7 := r6.drop ds.length
          let w4 := r7.takeWhile (fun c => pyIsSpace c)
          let r8 := r7.drop w4.length
          let par2 := match r8 with | ')' :: _ => [')'] | _ => ([] : List Char)
          let r9 := match r8 with | ')' :: t => t | _ => r8
          some ([c1, c2, c3, c4] ++ w1 ++ '=' :: (w2 ++ par ++ w3), ds, w4 ++ par2, r9)
      | _ => none
    else none
  | _ => none

/-- `re.sub(r'(trcl\s*=\s*\(?\s*)(\d+)(\s*\)?)', replace_trans, rest,
IGNORECASE)`: scan left-to-right, rewriting each match's digits through
`id_maps['trans'].get(old, old)` and continuing after the match. -/
def subTrclGo (mp : ℕ → Option ℕ) : ℕ → List Char → List Char
  | 0, l => l
  | _ + 1, [] => []
  | fuel + 1, c :: t =>
    match trclMatchAt (c :: t) with
    | some (pre, ds, sfx, rest) =>
      let old := digitsVal ds
      let newId := match mp old with | some n => n | none => old
      pre ++ natStr newId ++ sfx ++ subTrclGo mp fuel rest
    | none => c :: subTrclGo mp fuel t

/-- Transform-reference rewriting over a whole `rest_of_line`. -/
def subTrcl (mp : ℕ → Option ℕ) (l : List Char) : List Char :=
  subTrclGo mp l.length l

/-- The per-line body of `_update_references`: lines that do not match the
cell-line pattern pass through unchanged; matched lines have the material
field remapped through `id_maps['mat']` (preserving the sign; note
`abs(mat_id)` equals the digit-run value), the surface references and the
`trcl=` references rewritten, and are reassembled as
`f"  {cell_id} {mat_id} {density} {rest}"` (whitespace normalised). -/
def updateCellLine (mats surfs transs : ℕ → Option ℕ) (line : List Char) : List Char :=
  match matchCellLine line with
  | none => line
  | some (d1, (neg, d2), dens, rest) =>
    let matAbs := digitsVal d2
    let matTok :=
      match mats matAbs with
      | some newId => (if neg ∧ matAbs ≠ 0 then ['-'] else []) ++ natStr newId
      | none => (if neg then ['-'] else []) ++ d2
    let rest2 := subTrcl transs (subSurf surfs rest)
    chars "  " ++ d1 ++ ' ' :: (matTok ++ ' ' :: (dens ++ ' ' :: rest2))

/-- Embedding of `AdvancedPhitsMerger._update_references`: rewrites every
line of the overlay `cell` section (if present). -/
def _update_references (mergeSecs : Sections) (mats surfs transs : ℕ → Option ℕ) :
    Sections :=
  match getSection mergeSecs (chars "cell") with
  | none => mergeSecs
  | some (header, lines) =>
    setSection mergeSecs (chars "cell")
      (header, lines.map (updateCellLine mats surfs transs))

/-- Case-insensitive search for the literal substring `trcl=1` (the `.*`
of the detector pattern backtracks to find it anywhere). -/
def hasTrcl1 : List Char → Bool
  | c1 :: c2 :: c3 :: c4 :: c5 :: c6 :: rest =>
    (pyToLower c1 = 't' ∧ pyToLower c2 = 'r' ∧ pyToLower c3 = 'c' ∧
      pyToLower c4 = 'l' ∧ c5 = '=' ∧ c6 = '1') ||
    hasTrcl1 (c2 :: c3 :: c4 :: c5 :: c6 :: rest)
  | _ => false

/-- The detector-cell pattern `^\s*(\d+)\s+.*trcl=1` (IGNORECASE) of
`merge`: a leading integer id, whitespace, then `trcl=1` somewhere in the
remainder; returns the id. -/
def detectorMatch (l : List Char) : Option ℕ :=
  match leadIntMatch l with
  | none => none
  | some (id, rest) => if hasTrcl1 rest then some id else none

/-- The air-cell pattern `^\s*1000\s+` of `merge`: the literal leading
token `1000` followed by whitespace. -/
def air1000Match (l : List Char) : Bool :=
  match l.dropWhile (fun c => pyIsSpace c) with
  | '1' :: '0' :: '0' :: '0' :: c :: _ => pyIsSpace c
  | _ => false

/-- `" ".join(parts)`. -/
def joinSpace : List (List Char) → List Char
  | [] => []
  | [x] => x
  | x :: y :: rest => x ++ ' ' :: joinSpace (y :: rest)

/-- `" ".join([f"#{_id}" for _id in merge_detector_ids])`. -/
def exclusionStr (ids : List ℕ) : List Char :=
  joinSpace (ids.map (fun i => '#' :: natStr i))

/-- Python `str.rstrip()`. -/
def rstrip (l : List Char) : List Char :=
  (l.reverse.dropWhile (fun c => pyIsSpace c)).reverse

/-- Python `str.strip()`. -/
def pyStrip (l : List Char) : List Char :=
  rstrip (l.dropWhile (fun c => pyIsSpace c))

/-- `line.split('$')` as consumed by the air-cell rewrite: the code uses
only `parts[0]` and `parts[1]` — the text before the first `$` and the text
between the first and second `$` (anything after a second `$` is
dropped). -/
def splitDollarFirst (l : List Char) : List Char × Option (List Char) :=
  let before := l.takeWhile (fun c => c ≠ '$')
  match l.drop before.length with
  | '$' :: rest => (before, some (rest.takeWhile (fun c => c ≠ '$')))
  | _ => (before, none)

/-- The air-cell rewrite of `merge`: on a line matching `^\s*1000\s+`,
produce `f"{main_part} {exclusion_str}{comment_part}"` where `main_part` is
the right-stripped text before the first `$` and `comment_part` re-attaches
the first comment field as `" $ <stripped>"`; other lines pass through. -/
def airLineUpdate (excl : List Char) (line : List Char) : List Char :=
  if air1000Match line then
    let p := splitDollarFirst line
    let main := rstrip p.1
    let comment := match p.2 with
      | some p1 => chars " $ " ++ pyStrip p1
      | none => []
    main ++ ' ' :: (excl ++ comment)
  else line

/-- The detector-exclusion step of `merge` (the block guarded by
`try`/`except`; none of its operations can fail in the embedding): collect
the (already renumbered) detector cell ids of the overlay cell section and,
when both the base has a `cell` section and ids were found, rewrite every
base cell line through `airLineUpdate`. -/
def addDetectorExclusions (baseSecs mergeSecs : Sections) : Sections :=
  let ids := match getSection mergeSecs (chars "cell") with
    | some x => x.2.filterMap detectorMatch
    | none => []
  match getSection baseSecs (chars "cell") with
  | some (header, lines) =>
    if ids = [] then baseSecs
    else setSection baseSecs (chars "cell")
      (header, lines.map (airLineUpdate (exclusionStr ids)))
  | none => baseSecs

/-- The `final_sections` construction of `_render_output`: starting from a
copy of the base sections, fold the overlay sections in order through the
three policies (append-only kinds are kept as standalone sections,
overwrite kinds replace, merge kinds concatenate — overlay lines first for
`cell`, last otherwise), and carry through overlay-only sections. -/
def buildFinalSections (baseSecs mergeSecs : Sections) : Sections :=
  mergeSecs.foldl
    (fun acc e =>
      let key := e.1
      let header := e.2.1
      let lines := e.2.2
      if append_only_keys.any (fun k => k.isPrefixOf key) then
        setSection acc key (header, lines)
      else if key ∈ overwrite_keys then
        setSection acc key (header, lines)
      else if key ∈ merge_keys then
        if key = chars "cell" then
          match getSection acc key with
          | some (h0, l0) => setSection acc key (h0, lines ++ l0)
          | none => setSection acc key (header, lines)
        else
          match getSection acc key with
          | some (h0, l0) => setSection acc key (h0, l0 ++ lines)
          | none => setSection acc key (header, lines)
      else if hasKey acc key then acc
      else setSection acc key (header, lines))
    baseSecs

/-- Python string `<` (lexicographic on code points). -/
def strLt : List Char → List Char → Bool
  | [], [] => false
  | [], _ :: _ => true
  | _ :: _, [] => false
  | a :: as, b :: bs => if a = b then strLt as bs else decide (a < b)

/-- Insertion into a `sorted`-ascending list of keys. -/
def insertSorted (x : List Char) : List (List Char) → List (List Char)
  | [] => [x]
  | y :: ys => if strLt x y then x :: y :: ys else y :: insertSorted x ys

/-- Python `sorted` on strings. -/
def sortStr : List (List Char) → List (List Char)
  | [] => []
  | x :: xs => insertSorted x (sortStr xs)

/-- The canonical section order of `_render_output`. -/
def renderOrder : List (List Char) :=
  [chars "title", chars "parameters", chars "material", chars "surface",
   chars "cell", chars "volume", chars "transform", chars "source",
   chars "tdeposit", chars "tend"]

/-- The inner loop of `_render_output`: emit the sections of the given keys
(skipping keys already written), each as its header followed by its
non-blank lines followed by one blank separator line. -/
def emitKeys (finalSecs : Sections) :
    List (List Char) → List (List Char) → List (List Char) × List (List Char)
  | [], written => ([], written)
  | k :: ks, written =>
    if k ∈ written then emitKeys finalSecs ks written
    else
      match getSection finalSecs k with
      | some (header, lines) =>
        let block := header :: ((lines.filter (fun l => pyStrip l ≠ [])) ++ [[]])
        let r := emitKeys finalSecs ks (k :: written)
        (block ++ r.1, r.2)
      | none => emitKeys finalSecs ks (k :: written)

/-- The outer loop of `_render_output` over the canonical prefixes: keys of
`final_sections` starting with the prefix, in sorted order. -/
def renderGo (finalSecs : Sections) :
    List (List Char) → List (List Char) → List (List Char)
  | [], _ => []
  | pref :: rest, written =>
    let keys := sortStr ((finalSecs.map (fun e => e.1)).filter
      (fun k => pref.isPrefixOf k))
    let r := emitKeys finalSecs keys written
    r.1 ++ renderGo finalSecs rest r.2

/-- Embedding of `AdvancedPhitsMerger._render_output` given the
already-built `final_sections` (the rendered document as its list of
lines). -/
def _render_output (finalSecs : Sections) : List (List Char) :=
  renderGo finalSecs renderOrder []

/-- A document given by its lines, as lists of characters. -/
def docOf (ls : List String) : List (List Char) := ls.map (fun s => s.data)

/-- Specification-side reading of the header pattern: optional leading
whitespace, `[`, at least one non-`]` character, `]` (anything may
follow). -/
def IsHeaderLine (l : List Char) : Prop :=
  ∃ ws content rest, l = ws ++ '[' :: (content ++ ']' :: rest) ∧
    (∀ c ∈ ws, pyIsSpace c = true) ∧ content ≠ [] ∧ ']' ∉ content

/-- Embedding of `AdvancedPhitsMerger.merge` (with `__init__` parsing the
two documents): parse, renumber, re-link references, add detector
exclusions to the base air cell, build the final sections and render. -/
def merge (baseLines mergeLines : List (List Char)) : List (List Char) :=
  let baseSecs := _parse baseLines
  let mergeSecs := _parse mergeLines
  let r := _renumber_and_map_ids baseSecs mergeSecs
  let mergeSecs2 := _update_references r.1 r.2.mat r.2.surf r.2.trans
  let baseSecs2 := addDetectorExclusions baseSecs mergeSecs2
  _render_output (buildFinalSections baseSecs2 mergeSecs2)

/-! ### route_calculator: A* search

Embedding of `run_astar` and `find_optimal_route`.  Grid cells are pairs of
integers; Python floats (costs, dose values, weight) are exact rationals.
The priority queue is Python's `heapq` binary heap, embedded verbatim
(`_siftdown`, `_siftup`, `heappush`, `heappop`) with the lexicographic
tuple comparison Python applies to the `(priority, cost, position, path)`
entries.  The sift loops carry explicit fuel equal to a bound on their
iteration count (the index strictly decreases towards `startpos`,
respectively strictly increases below the length), so the fuel never runs
out; the main `while queue` loop is likewise fuelled, with `none` denoting
fuel exhaustion, `some none` the `return None` of the source, and
`some (some path)` a found path.  The grid and dose map are read as total
functions (the source indexes `map_data[nr][nc]` only after its bounds
check). -/

/-- A grid cell address `(row, col)`. -/
abbrev Cell : Type := ℤ × ℤ

/-- A heap entry `(priority, cost, position, path)`. -/
abbrev Entry : Type := ℚ × ℚ × Cell × List Cell

/-- Python `<` on `(row, col)` int pairs (lexicographic). -/
def cellLT (a b : Cell) : Bool :=
  decide (a.1 < b.1) || (decide (a.1 = b.1) && decide (a.2 < b.2))

/-- Python `<` on lists of cells (lexicographic, shorter prefix first). -/
def pathLT : List Cell → List Cell → Bool
  | [], [] => false
  | [], _ :: _ => true
  | _ :: _, [] => false
  | a :: as, b :: bs => if a = b then pathLT as bs else cellLT a b

/-- Python `<` on heap entries (lexicographic tuple comparison). -/
def entryLT (x y : Entry) : Bool :=
  if x.1 = y.1 then
    if x.2.1 = y.2.1 then
      if x.2.2.1 = y.2.2.1 then pathLT x.2.2.2 y.2.2.2
      else cellLT x.2.2.1 y.2.2.1
    else decide (x.2.1 < y.2.1)
  else decide (x.1 < y.1)

/-- `heapq._siftdown(heap, startpos, pos)` with `newitem = heap[pos]` given
explicitly: bubble the new item towards the root while it is smaller than
its parent.  The fuel bounds the iteration count (`pos` strictly
decreases); on exhaustion the loop-exit action is performed. -/
def sd {E : Type} (lt : E → E → Bool) (newitem : E) :
    ℕ → List E → ℕ → ℕ → List E
  | 0, heap, _, pos => heap.set pos newitem
  | fuel + 1, heap, startpos, pos =>
    if startpos < pos then
      let parentpos := (pos - 1) / 2
      let parent := heap.getD parentpos newitem
      if lt newitem parent then sd lt newitem fuel (heap.set pos parent) startpos parentpos
      else heap.set pos newitem
    else heap.set pos newitem

/-- `heapq._siftup(heap, pos)` with `newitem = heap[pos]` given explicitly:
move the hole down to a leaf following the smaller child, then sift the new
item up.  The fuel bounds the iteration count (`pos` strictly increases
below `heap.length`). -/
def su {E : Type} (lt : E → E → Bool) (newitem : E) :
    ℕ → List E → ℕ → ℕ → List E
  | 0, heap, startpos, pos => sd lt newitem pos heap startpos pos
  | fuel + 1, heap, startpos, pos =>
    if 2 * pos + 1 < heap.length then
      let childpos := 2 * pos + 1
      let rightpos := childpos + 1
      let cp :=
        if rightpos < heap.length ∧
            ¬(lt (heap.getD childpos newitem) (heap.getD rightpos newitem) = true)
        then rightpos else childpos
      su lt newitem fuel (heap.set pos (heap.getD cp newitem)) startpos cp
    else sd lt newitem pos heap startpos pos

/-- `heapq.heappush(heap, item)`: append, then `_siftdown(heap, 0, len-1)`. -/
def heappush {E : Type} (lt : E → E → Bool) (heap : List E) (item : E) : List E :=
  sd lt item heap.length (heap ++ [item]) 0 heap.length

/-- `heapq.heappop(heap)`: pop the last element; if the heap remains
non-empty, save the root as the return item, move the last element to the
root and `_siftup(heap, 0)`. -/
def heappop {E : Type} [Inhabited E] (lt : E → E → Bool) :
    List E → Option (E × List E)
  | [] => none
  | x :: xs =>
    let lastelt := pyLast (x :: xs)
    match (x :: xs).dropLast with
    | [] => some (lastelt, [])
    | r0 :: rs =>
      some (r0, su lt lastelt (r0 :: rs).length ((r0 :: rs).set 0 lastelt) 0 0)

/-- The neighbour directions `[(-1, 0), (1, 0), (0, -1), (0, 1)]`. -/
def dirs : List (ℤ × ℤ) := [(-1, 0), (1, 0), (0, -1), (0, 1)]

/-- One iteration of the neighbour loop of `run_astar`: bounds check, wall
check, cost computation, and conditional relaxation
(`next_pos not in min_costs or new_cost < min_costs[next_pos]`) with the
push of `(new_cost + heuristic, new_cost, next_pos, path + [next_pos])`. -/
def neighborStep (rows cols : ℕ) (map_data : Cell → ℤ) (dose_map : Cell → ℚ)
    (weight : ℚ) (goal : Cell) (cost : ℚ) (path : List Cell) (current : Cell)
    (st : List Entry × (Cell → Option ℚ)) (dir : ℤ × ℤ) :
    List Entry × (Cell → Option ℚ) :=
  let nr := current.1 + dir.1
  let nc := current.2 + dir.2
  if ¬(0 ≤ nr ∧ nr < (rows : ℤ) ∧ 0 ≤ nc ∧ nc < (cols : ℤ)) then st
  else if map_data (nr, nc) = 1 then st
  else
    let next : Cell := (nr, nc)
    let new_cost := cost + 1 + dose_map next * weight
    let relax : Bool :=
      match st.2 next with
      | none => true
      | some v => decide (new_cost < v)
    if relax then
      let heuristic : ℚ := ((|goal.1 - nr| + |goal.2 - nc| : ℤ) : ℚ)
      (heappush entryLT st.1 (new_cost + heuristic, new_cost, next, path ++ [next]),
       fun c => if c = next then some new_cost else st.2 c)
    else st

/-- The `while queue` loop of `run_astar`, with fuel: pop the smallest
entry; return its path if it is at the goal; skip it if its cell was
already finalised; otherwise mark the cell visited and expand the four
neighbours in order. -/
def astarLoop (rows cols : ℕ) (map_data : Cell → ℤ) (dose_map : Cell → ℚ)
    (weight : ℚ) (goal : Cell) :
    ℕ → List Entry → (Cell → Bool) → (Cell → Option ℚ) →
      Option (Option (List Cell))
  | 0, _, _, _ => none
  | fuel + 1, queue, visited, min_costs =>
    match heappop entryLT queue with
    | none => some none
    | some (e, q') =>
      if e.2.2.1 = goal then some (some e.2.2.2)
      else if visited e.2.2.1 then
        astarLoop rows cols map_data dose_map weight goal fuel q' visited min_costs
      else
        let visited' := fun c => if c = e.2.2.1 then true else visited c
        let st := dirs.foldl
          (neighborStep rows cols map_data dose_map weight goal e.2.1 e.2.2.2 e.2.2.1)
          (q', min_costs)
        astarLoop rows cols map_data dose_map weight goal fuel st.1 visited' st.2

/-- Embedding of `run_astar(start, goal, map_data, dose_map, weight)`:
`queue = [(0, 0, start, [start])]`, `visited = set()`,
`min_costs = {start: 0}`. -/
def run_astar (fuel : ℕ) (start goal : Cell) (rows cols : ℕ)
    (map_data : Cell → ℤ) (dose_map : Cell → ℚ) (weight : ℚ) :
    Option (Option (List Cell)) :=
  astarLoop rows cols map_data dose_map weight goal fuel
    [(0, 0, start, [start])] (fun _ => false)
    (fun c => if c = start then some 0 else none)

/-- Embedding of `find_optimal_route(start_pos, goal_pos, middle_pos,
map_data, dose_map, weight)`.  A missing dose map is replaced by the
all-zero map; with a waypoint the two legs run in sequence, each falsy
result (`None` or the empty list, which `run_astar` never returns)
failing the whole call; the concatenation drops the duplicated waypoint
(`path1 + path2[1:]`). -/
def find_optimal_route (fuel : ℕ) (start_pos goal_pos : Cell)
    (middle_pos : Option Cell) (rows cols : ℕ) (map_data : Cell → ℤ)
    (dose_map : Option (Cell → ℚ)) (weight : ℚ) :
    Option (Option (List Cell)) :=
  let dm : Cell → ℚ := match dose_map with
    | some d => d
    | none => fun _ => 0
  match middle_pos with
  | some mid =>
    match run_astar fuel start_pos mid rows cols map_data dm weight with
    | none => none
    | some none => some none
    | some (some p1) =>
      if p1 = [] then some none
      else
        match run_astar fuel mid goal_pos rows cols map_data dm weight with
        | none => none
        | some none => some none
        | some (some p2) =>
          if p2 = [] then some none
          else some (some (p1 ++ p2.tail))
  | none => run_astar fuel start_pos goal_pos rows cols map_data dm weight

/-- 4-connectedness: the cells differ by exactly one unit in exactly one
axis. -/
def stepAdj (a b : Cell) : Prop := |b.1 - a.1| + |b.2 - a.2| = 1

/-- The accumulated cost of a path as computed by the search: each step
onto a cell `c` costs `1 + dose_map(c) * weight`. -/
def pathCost (dose_map : Cell → ℚ) (weight : ℚ) : List Cell → ℚ
  | _ :: b :: rest => (1 + dose_map b * weight) + pathCost dose_map weight (b :: rest)
  | _ => 0

/-- In-bounds predicate of the neighbour expansion. -/
def inBounds (rows cols : ℕ) (c : Cell) : Prop :=
  0 ≤ c.1 ∧ c.1 < (rows : ℤ) ∧ 0 ≤ c.2 ∧ c.2 < (cols : ℤ)

/-- Invariant of a queue entry `(priority, cost, pos, path)` relative to
the current `min_costs` map: the path is a non-empty simple 4-connected
walk from `start` to `pos` whose non-initial cells are in-bounds non-walls,
`cost` is its path cost, and every non-empty path prefix has a `min_costs`
record at its endpoint bounding its cost from below. -/
def EntryInv (start : Cell) (rows cols : ℕ) (map_data : Cell → ℤ)
    (dose_map : Cell → ℚ) (weight : ℚ) (mc : Cell → Option ℚ) (e : Entry) :
    Prop :=
  e.2.2.2 ≠ [] ∧
  pyHead e.2.2.2 = start ∧
  pyLast e.2.2.2 = e.2.2.1 ∧
  e.2.1 = pathCost dose_map weight e.2.2.2 ∧
  List.Chain' stepAdj e.2.2.2 ∧
  (∀ c ∈ e.2.2.2.tail, inBounds rows cols c ∧ map_data c ≠ 1) ∧
  e.2.2.2.Nodup ∧
  (∀ p, p ≠ [] → (∃ t, e.2.2.2 = p ++ t) →
    ∃ v, mc (pyLast p) = some v ∧ v ≤ pathCost dose_map weight p)

/-- Invariant of the whole queue. -/
def StateInv (start : Cell) (rows cols : ℕ) (map_data : Cell → ℤ)
    (dose_map : Cell → ℚ) (weight : ℚ) (queue : List Entry)
    (mc : Cell → Option ℚ) : Prop :=
  ∀ e ∈ queue, EntryInv start rows cols map_data dose_map weight mc e

/-- `min_costs` evolution: keys are preserved and recorded costs only
decrease. -/
def mcLE (m' m : Cell → Option ℚ) : Prop :=
  ∀ k v, m k = some v → ∃ v', m' k = some v' ∧ v' ≤ v

/-- Manhattan distance between two cells, as used by the heuristic
`abs(goal[0] - nr) + abs(goal[1] - nc)`. -/
def manh (a b : Cell) : ℤ := |b.1 - a.1| + |b.2 - a.2|

/-- The binary-heap invariant of `heapq`: every non-root element is not
smaller than its parent at index `(i - 1) / 2`. -/
def IsHeap {E : Type} [Inhabited E] (lt : E → E → Bool) (l : List E) : Prop :=
  ∀ i, 0 < i → i < l.length → lt (l.getD i default) (l.getD ((i - 1) / 2) default) = false

/-- The priority of an entry is its cost plus the Manhattan heuristic of
its position (true of every entry `run_astar` pushes; the initial entry
`(0, 0, start, [start])` instead has priority `0`). -/
def EntryPri (goal : Cell) (e : Entry) : Prop :=
  e.1 = e.2.1 + ((manh e.2.2.1 goal : ℤ) : ℚ)

/-- `x` lies on a Manhattan-optimal route from `s` to `y`. -/
def onOpt (s x y : Cell) : Prop := manh s x + manh x y = manh s y

/-- The number of in-bounds cells not yet finalised by the search. -/
def unvis (rows cols : ℕ) (visited : Cell → Bool) : ℕ :=
  (((Finset.Icc (0 : ℤ) ((rows : ℤ) - 1)) ×ˢ
    (Finset.Icc (0 : ℤ) ((cols : ℤ) - 1))).filter
      (fun c => visited c = false)).card

/-- The full loop invariant of `run_astar` in the wall-free, zero-dose,
zero-weight setting of claim C3: the queue is a binary heap whose entries
satisfy the walk invariant and carry cost-plus-heuristic priorities, every
recorded `min_costs` value is at least the Manhattan distance from the
start, every recorded value at an unfinalised cell is realised by a live
queue entry, every finalised cell is an in-bounds non-goal cell whose
in-bounds neighbours all carry records at most one above the cell's
Manhattan distance, and the start is recorded at cost `0`. -/
def C3State (start goal : Cell) (rows cols : ℕ) (map_data : Cell → ℤ)
    (queue : List Entry) (visited : Cell → Bool) (mc : Cell → Option ℚ) :
    Prop :=
  IsHeap entryLT queue ∧
  StateInv start rows cols map_data (fun _ => 0) 0 queue mc ∧
  (∀ e ∈ queue, EntryPri goal e ∨ e = (0, 0, start, [start])) ∧
  (∀ y v, mc y = some v → ((manh start y : ℤ) : ℚ) ≤ v) ∧
  (∀ y v, visited y = false → mc y = some v → ∃ f p, (f, v, y, p) ∈ queue) ∧
  (∀ x, visited x = true → inBounds rows cols x ∧ x ≠ goal ∧
    ∀ d ∈ dirs, inBounds rows cols (x.1 + d.1, x.2 + d.2) →
      ∃ v, mc (x.1 + d.1, x.2 + d.2) = some v ∧
        v ≤ ((manh start x : ℤ) : ℚ) + 1) ∧
  mc start = some 0

end PhitsMapEdit

namespace PhitsMapEdit

/-- Claim C7 (amended): `get_physical_coords` is a pure, deterministic and
total function of the integer grid indices: for every configuration and for
every `(r, c)`, in bounds or not, it returns the tuple determined by the
mapper arithmetic — each cell spans `CELL_SIZE_X` in x and `CELL_SIZE_Y` in
y, x grows with the column, y is inverted relative to the row
(row `0` owns the maximal y, `MAP_ROWS * CELL_SIZE_Y`), and z spans the fixed
height `CELL_HEIGHT_Z`.  No index error occurs outside the grid bounds. -/
theorem get_physical_coords_total (MR : ℤ) (CSX CSY CHZ : ℚ) (r c : ℤ) :
    (get_physical_coords MR CSX CSY CHZ r c).2.1
        - (get_physical_coords MR CSX CSY CHZ r c).1 = CSX ∧
    (get_physical_coords MR CSX CSY CHZ r c).2.2.2.1
        - (get_physical_coords MR CSX CSY CHZ r c).2.2.1 = CSY ∧
    (get_physical_coords MR CSX CSY CHZ r c).2.2.2.2.1 = 0 ∧
    (get_physical_coords MR CSX CSY CHZ r c).2.2.2.2.2 = CHZ ∧
    (get_physical_coords MR CSX CSY CHZ r (c + 1)).1
        = (get_physical_coords MR CSX CSY CHZ r c).1 + CSX ∧
    (get_physical_coords MR CSX CSY CHZ (r + 1) c).2.2.2.1
        = (get_physical_coords MR CSX CSY CHZ r c).2.2.2.1 - CSY ∧
    (get_physical_coords MR CSX CSY CHZ 0 c).2.2.2.1 = (MR : ℚ) * CSY := by
  simp only [get_physical_coords]
  push_cast
  refine ⟨by ring, by ring, trivial, trivial, by ring, by ring, by ring⟩

/-- Claim C7, counterexample to the frozen statement: with the configuration
`MAP_ROWS = 5`, cell sizes `50` and height `300`, the out-of-bounds index
`(row, col) = (5, 0)` (where `row ≥ MAP_ROWS`) does not produce any index
error: `get_physical_coords` succeeds and returns a well-defined tuple.  The
source performs no grid indexing at all, so no out-of-bounds failure can
occur. -/
theorem get_physical_coords_out_of_bounds_succeeds :
    get_physical_coords 5 50 50 300 5 0 = (0, 50, -50, 0, 0, 300) := by
  norm_num [get_physical_coords]

/-! ### Resampler lemmas -/

lemma pyLast_cons_cons {α : Type} [Inhabited α] (a b : α) (l : List α) :
    pyLast (a :: b :: l) = pyLast (b :: l) := rfl

lemma pyLast_append_singleton {α : Type} [Inhabited α] (l : List α) (x : α) :
    pyLast (l ++ [x]) = x := by
  induction l with
  | nil => rfl
  | cons a l ih =>
    cases l with
    | nil => rfl
    | cons b l =>
      rw [List.cons_append, List.cons_append, pyLast_cons_cons, ← List.cons_append, ih]

lemma _distance_nonneg (p q : Point) : 0 ≤ _distance p q :=
  Real.sqrt_nonneg _

lemma _distance_eq_zero {p q : Point} (h : _distance p q = 0) : p = q := by
  unfold _distance at h
  have hsum : (q.1 - p.1) ^ 2 + (q.2.1 - p.2.1) ^ 2 + (q.2.2 - p.2.2) ^ 2 = 0 := by
    have h0 : (0:ℝ) ≤ (q.1 - p.1) ^ 2 + (q.2.1 - p.2.1) ^ 2 + (q.2.2 - p.2.2) ^ 2 := by
      positivity
    exact (Real.sqrt_eq_zero h0).mp h
  have h1 : q.1 = p.1 := by nlinarith [sq_nonneg (q.1 - p.1), sq_nonneg (q.2.1 - p.2.1), sq_nonneg (q.2.2 - p.2.2)]
  have h2 : q.2.1 = p.2.1 := by nlinarith [sq_nonneg (q.1 - p.1), sq_nonneg (q.2.1 - p.2.1), sq_nonneg (q.2.2 - p.2.2)]
  have h3 : q.2.2 = p.2.2 := by nlinarith [sq_nonneg (q.1 - p.1), sq_nonneg (q.2.1 - p.2.1), sq_nonneg (q.2.2 - p.2.2)]
  obtain ⟨px, py, pz⟩ := p
  obtain ⟨qx, qy, qz⟩ := q
  simp only at h1 h2 h3
  simp [h1, h2, h3]

lemma totalDistance_nonneg (l : List Point) : 0 ≤ totalDistance l := by
  induction l with
  | nil => simp [totalDistance]
  | cons p l ih =>
    cases l with
    | nil => simp [totalDistance]
    | cons q l =>
      rw [totalDistance]
      have := _distance_nonneg p q
      have := ih
      linarith

lemma head_eq_last_of_totalDistance_zero :
    ∀ (l : List Point), l ≠ [] → totalDistance l = 0 → pyHead l = pyLast l := by
  intro l
  induction l with
  | nil => intro h; exact absurd rfl h
  | cons p l ih =>
    intro _ h0
    cases l with
    | nil => rfl
    | cons q l =>
      rw [totalDistance] at h0
      have hd := _distance_nonneg p q
      have ht := totalDistance_nonneg (q :: l)
      have hd0 : _distance p q = 0 := by linarith
      have ht0 : totalDistance (q :: l) = 0 := by linarith
      have hpq : p = q := _distance_eq_zero hd0
      have := ih (by simp) ht0
      rw [pyLast_cons_cons]
      rw [← this, hpq]
      rfl

/-- Membership characterisation of `distances_to_sample`, matching the loop
`d = step; while d < total: append d; d += step` it embeds. -/
lemma mem_distances_to_sample (total step d : ℝ) (hs : 0 < step) :
    d ∈ distances_to_sample total step ↔
      ∃ k : ℕ, d = ((k : ℝ) + 1) * step ∧ d < total := by
  unfold distances_to_sample
  constructor
  · intro hmem
    obtain ⟨k, hk, hde⟩ := List.mem_map.mp hmem
    have hkr := List.mem_range.mp hk
    refine ⟨k, hde.symm, ?_⟩
    unfold sampleCount at hkr
    have hk1 : k + 1 < ⌈total / step⌉₊ := by omega
    have hcast : ((k + 1 : ℕ) : ℝ) < total / step := Nat.lt_ceil.mp hk1
    rw [← hde]
    push_cast at hcast
    calc ((k : ℝ) + 1) * step < (total / step) * step := by
          apply mul_lt_mul_of_pos_right _ hs
          linarith
      _ = total := div_mul_cancel₀ _ (ne_of_gt hs)
  · rintro ⟨k, rfl, hlt⟩
    refine List.mem_map.mpr ⟨k, List.mem_range.mpr ?_, rfl⟩
    unfold sampleCount
    have h1 : ((k + 1 : ℕ) : ℝ) < total / step := by
      push_cast
      rw [lt_div_iff₀ hs]
      exact hlt
    have h2 : k + 1 < ⌈total / step⌉₊ := Nat.lt_ceil.mpr h1
    omega

lemma distances_to_sample_eq_nil {total step : ℝ} (hs : 0 < step)
    (h : total ≤ step) : distances_to_sample total step = [] := by
  unfold distances_to_sample sampleCount
  have h1 : total / step ≤ 1 := (div_le_one hs).mpr h
  have h2 : ⌈total / step⌉₊ ≤ 1 := Nat.ceil_le.mpr (by simpa using h1)
  have h3 : ⌈total / step⌉₊ - 1 = 0 := by omega
  rw [h3]
  simp

lemma dedupeGo_append_singleton {α : Type} [DecidableEq α]
    (l' : List α) (seen : List α) (x : α) (hx1 : x ∉ l') (hx2 : x ∉ seen) :
    dedupeGo seen (l' ++ [x]) = dedupeGo seen l' ++ [x] := by
  induction l' generalizing seen with
  | nil => simp [dedupeGo, hx2]
  | cons a l ih =>
    simp only [List.cons_append, dedupeGo]
    by_cases ha : a ∈ seen
    · rw [if_pos ha, if_pos ha]
      exact ih seen (by simp at hx1; exact hx1.2) hx2
    · rw [if_neg ha, if_neg ha, List.cons_append]
      congr 1
      refine ih (a :: seen) (by simp at hx1; exact hx1.2) ?_
      simp only [List.mem_cons]
      push_neg
      refine ⟨?_, hx2⟩
      intro hxa
      exact hx1 (by simp [hxa])

lemma dedupeKeepFirst_cons {α : Type} [DecidableEq α] (x : α) (l : List α) :
    dedupeKeepFirst (x :: l) = x :: dedupeGo [x] l := by
  simp [dedupeKeepFirst, dedupeGo]

lemma resamplePre_head_cons (path : List Point) (w : ℝ) :
    ∃ t, resamplePre path w = pyHead path :: t := by
  simp only [resamplePre]
  by_cases hds : distances_to_sample (totalDistance path) w = []
  · rw [if_pos hds]; exact ⟨_, rfl⟩
  · rw [if_neg hds]; exact ⟨_, rfl⟩

lemma resamplePre_last_append (path : List Point) (w : ℝ) (hne : path ≠ []) :
    ∃ l', resamplePre path w = l' ++ [pyLast path] := by
  simp only [resamplePre]
  by_cases hds : distances_to_sample (totalDistance path) w = []
  · rw [if_pos hds]
    by_cases h0 : 0 < totalDistance path
    · rw [if_pos h0]; exact ⟨[pyHead path], rfl⟩
    · rw [if_neg h0]
      have ht0 : totalDistance path = 0 :=
        le_antisymm (not_lt.mp h0) (totalDistance_nonneg path)
      have heq := head_eq_last_of_totalDistance_zero path hne ht0
      exact ⟨[], by simp [heq]⟩
  · rw [if_neg hds]
    exact ⟨pyHead path :: segmentLoop (path.zip path.tail) 0
      (distances_to_sample (totalDistance path) w), by simp⟩

/-! #### Concrete evaluations used by the resampler claims -/

lemma dist_x01 : _distance ((0:ℝ),(0:ℝ),(5:ℝ)) (1,0,5) = 1 := by
  show Real.sqrt (((1:ℝ) - 0) ^ 2 + ((0:ℝ) - 0) ^ 2 + ((5:ℝ) - 5) ^ 2) = 1
  rw [show ((1:ℝ) - 0) ^ 2 + ((0:ℝ) - 0) ^ 2 + ((5:ℝ) - 5) ^ 2 = 1 by norm_num]
  exact Real.sqrt_one

lemma dist_x10 : _distance ((1:ℝ),(0:ℝ),(5:ℝ)) (0,0,5) = 1 := by
  show Real.sqrt (((0:ℝ) - 1) ^ 2 + ((0:ℝ) - 0) ^ 2 + ((5:ℝ) - 5) ^ 2) = 1
  rw [show ((0:ℝ) - 1) ^ 2 + ((0:ℝ) - 0) ^ 2 + ((5:ℝ) - 5) ^ 2 = 1 by norm_num]
  exact Real.sqrt_one

lemma total_AB : totalDistance [((0:ℝ),(0:ℝ),(5:ℝ)), (1,0,5)] = 1 := by
  rw [totalDistance]
  rw [show totalDistance [((1:ℝ),(0:ℝ),(5:ℝ))] = 0 from rfl]
  rw [dist_x01]
  norm_num

lemma total_ABA :
    totalDistance [((0:ℝ),(0:ℝ),(5:ℝ)), (1,0,5), (0,0,5)] = 2 := by
  rw [totalDistance, totalDistance]
  rw [show totalDistance [((0:ℝ),(0:ℝ),(5:ℝ))] = 0 from rfl]
  rw [dist_x01, dist_x10]
  norm_num

lemma ds_one_two : distances_to_sample 1 2 = [] :=
  distances_to_sample_eq_nil (by norm_num) (by norm_num)

lemma ds_two_three : distances_to_sample 2 3 = [] :=
  distances_to_sample_eq_nil (by norm_num) (by norm_num)

lemma sampleCount_two_one : sampleCount 2 1 = 1 := by
  unfold sampleCount
  norm_num

lemma ds_two_one : distances_to_sample 2 1 = [1] := by
  unfold distances_to_sample
  rw [sampleCount_two_one]
  rw [show List.range 1 = [0] by rw [List.range_succ, List.range_zero]; rfl]
  norm_num

lemma pre_AB_two :
    resamplePre [((0:ℝ),(0:ℝ),(5:ℝ)), (1,0,5)] 2 = [(0,0,5), (1,0,5)] := by
  simp only [resamplePre]
  rw [total_AB, ds_one_two, if_pos rfl, if_pos (by norm_num)]
  rfl

lemma pre_ABA_one :
    resamplePre [((0:ℝ),(0:ℝ),(5:ℝ)), (1,0,5), (0,0,5)] 1
      = [(0,0,5), (1,0,5), (0,0,5)] := by
  simp only [resamplePre]
  rw [total_ABA, ds_two_one]
  rw [if_neg (by simp)]
  have hzip : ([((0:ℝ),(0:ℝ),(5:ℝ)), (1,0,5), (0,0,5)] : List Point).zip
      ([((0:ℝ),(0:ℝ),(5:ℝ)), (1,0,5), (0,0,5)] : List Point).tail
      = [(((0:ℝ),(0:ℝ),(5:ℝ)), ((1:ℝ),(0:ℝ),(5:ℝ))),
         (((1:ℝ),(0:ℝ),(5:ℝ)), ((0:ℝ),(0:ℝ),(5:ℝ)))] := by
    rfl
  rw [hzip]
  rw [segmentLoop]
  simp only
  rw [dist_x01]
  rw [if_neg (by norm_num)]
  rw [consumeSamples]
  rw [if_neg (by norm_num)]
  rw [segmentLoop]
  simp only
  rw [dist_x10]
  rw [if_neg (by norm_num)]
  rw [consumeSamples]
  rw [if_pos (by constructor <;> norm_num)]
  rw [consumeSamples]
  rw [segmentLoop]
  show ((0:ℝ),(0:ℝ),(5:ℝ)) ::
      ((_interpolate_point ((1:ℝ),(0:ℝ),(5:ℝ)) ((0:ℝ),(0:ℝ),(5:ℝ)) ((1 - (0 + 1)) / 1) :: [] ++ []) ++
        [pyLast [((0:ℝ),(0:ℝ),(5:ℝ)), (1,0,5), (0,0,5)]])
      = [(0,0,5), (1,0,5), (0,0,5)]
  rw [show pyLast [((0:ℝ),(0:ℝ),(5:ℝ)), (1,0,5), (0,0,5)] = ((0:ℝ),(0:ℝ),(5:ℝ)) from rfl]
  unfold _interpolate_point
  norm_num

/-- Claim C5 (amended): for every non-empty polyline and every step width,
the first element of `resample_path_by_width(path, w)` equals `path[0]`;
and the last element equals `path[-1]` **provided** `path[-1]` does not
already occur among the earlier points of the resampled sequence.  The
unconditional form of the claim is false (see
`resample_closed_loop_loses_last`): the final `list(dict.fromkeys(...))`
keeps only first occurrences, so for a closed-loop polyline the final point
is deleted as a duplicate of the first. -/
theorem resample_path_endpoints (path : List Point) (w : ℝ) (hne : path ≠ []) :
    pyHead (resample_path_by_width path w) = pyHead path ∧
    (pyLast path ∉ (resamplePre path w).dropLast →
      pyLast (resample_path_by_width path w) = pyLast path) := by
  unfold resample_path_by_width
  by_cases hg : path = [] ∨ path.length < 2 ∨ w ≤ 0
  · rw [if_pos hg]
    exact ⟨rfl, fun _ => rfl⟩
  · rw [if_neg hg]
    obtain ⟨t, ht⟩ := resamplePre_head_cons path w
    refine ⟨?_, ?_⟩
    · rw [ht, dedupeKeepFirst_cons]
      rfl
    · intro hmem
      obtain ⟨l', hl'⟩ := resamplePre_last_append path w hne
      have hdrop : (resamplePre path w).dropLast = l' := by
        rw [hl']
        simp
      rw [hdrop] at hmem
      rw [hl']
      rw [dedupeKeepFirst, dedupeGo_append_singleton l' [] _ hmem (by simp)]
      exact pyLast_append_singleton _ _

/-- Claim C5, witness: for the open polyline `[(0,0,5), (1,0,5)]` with step
width `2`, both hypotheses hold and the resampled path keeps both
endpoints. -/
theorem resample_path_endpoints_witness :
    pyHead (resample_path_by_width [((0:ℝ),(0:ℝ),(5:ℝ)), (1,0,5)] 2) =
      pyHead [((0:ℝ),(0:ℝ),(5:ℝ)), (1,0,5)] ∧
    pyLast (resample_path_by_width [((0:ℝ),(0:ℝ),(5:ℝ)), (1,0,5)] 2) =
      pyLast [((0:ℝ),(0:ℝ),(5:ℝ)), (1,0,5)] := by
  have h := resample_path_endpoints [((0:ℝ),(0:ℝ),(5:ℝ)), (1,0,5)] 2 (by simp)
  refine ⟨h.1, h.2 ?_⟩
  rw [pre_AB_two]
  rw [show pyLast [((0:ℝ),(0:ℝ),(5:ℝ)), (1,0,5)] = ((1:ℝ),(0:ℝ),(5:ℝ)) from rfl]
  norm_num [Prod.ext_iff]

/-- Claim C5, counterexample to the frozen statement: for the closed-loop
polyline `[(0,0,5), (1,0,5), (0,0,5)]` with step width `1`, the result is
`[(0,0,5), (1,0,5)]`: its last element is not `path[-1] = (0,0,5)`, because
the order-preserving dedupe removed the final point as a duplicate of the
first. -/
theorem resample_closed_loop_loses_last :
    resample_path_by_width [((0:ℝ),(0:ℝ),(5:ℝ)), (1,0,5), (0,0,5)] 1
        = [(0,0,5), (1,0,5)] ∧
    pyLast (resample_path_by_width [((0:ℝ),(0:ℝ),(5:ℝ)), (1,0,5), (0,0,5)] 1) ≠
      pyLast [((0:ℝ),(0:ℝ),(5:ℝ)), (1,0,5), (0,0,5)] := by
  have h : resample_path_by_width [((0:ℝ),(0:ℝ),(5:ℝ)), (1,0,5), (0,0,5)] 1
      = [(0,0,5), (1,0,5)] := by
    unfold resample_path_by_width
    rw [if_neg (by push_neg; exact ⟨by simp, by norm_num, by norm_num⟩)]
    rw [pre_ABA_one]
    rw [dedupeKeepFirst]
    rw [dedupeGo]
    rw [if_neg (by simp)]
    rw [dedupeGo]
    rw [if_neg (by norm_num [Prod.ext_iff])]
    rw [dedupeGo]
    rw [if_pos (by norm_num [Prod.ext_iff])]
    rw [dedupeGo]
  refine ⟨h, ?_⟩
  rw [h]
  rw [show pyLast [((0:ℝ),(0:ℝ),(5:ℝ)), (1,0,5), (0,0,5)] = ((0:ℝ),(0:ℝ),(5:ℝ)) from rfl]
  rw [show pyLast [((0:ℝ),(0:ℝ),(5:ℝ)), ((1:ℝ),(0:ℝ),(5:ℝ))] = ((1:ℝ),(0:ℝ),(5:ℝ)) from rfl]
  norm_num [Prod.ext_iff]

/-- Claim C6 (amended): for a polyline of at least two points and a positive
step width at least the total arc length, `resample_path_by_width` returns
`[first, last]` when the endpoints differ, and the single point `[first]`
when they coincide — whether or not the total length is zero.  (The frozen
claim allowed a single point only when the total length is zero; see
`resample_coincident_endpoints_not_pair`.)  The function is total on these
degenerate inputs: zero-length segments are skipped before any division. -/
theorem resample_step_ge_total (path : List Point) (w : ℝ)
    (h2 : 2 ≤ path.length) (hw : 0 < w) (ht : totalDistance path ≤ w) :
    resample_path_by_width path w =
      if pyHead path = pyLast path then [pyHead path]
      else [pyHead path, pyLast path] := by
  have hne : path ≠ [] := by
    intro h
    rw [h] at h2
    simp at h2
  unfold resample_path_by_width
  rw [if_neg (by push_neg; exact ⟨hne, by omega, by linarith⟩)]
  simp only [resamplePre]
  rw [distances_to_sample_eq_nil hw ht, if_pos rfl]
  by_cases h0 : 0 < totalDistance path
  · rw [if_pos h0]
    by_cases he : pyHead path = pyLast path
    · rw [if_pos he, ← he]
      rw [dedupeKeepFirst, dedupeGo, if_neg (by simp), dedupeGo,
        if_pos (by simp), dedupeGo]
    · rw [if_neg he]
      rw [dedupeKeepFirst, dedupeGo, if_neg (by simp), dedupeGo,
        if_neg (by simp [Ne.symm he]), dedupeGo]
  · rw [if_neg h0]
    have ht0 : totalDistance path = 0 :=
      le_antisymm (not_lt.mp h0) (totalDistance_nonneg path)
    have heq := head_eq_last_of_totalDistance_zero path hne ht0
    rw [if_pos heq]
    rw [dedupeKeepFirst, dedupeGo, if_neg (by simp), dedupeGo]

/-- Claim C6, witness: for `[(0,0,5), (1,0,5)]` (total length `1`) and step
width `2 ≥ 1`, the result is exactly `[first, last]`. -/
theorem resample_step_ge_total_witness :
    resample_path_by_width [((0:ℝ),(0:ℝ),(5:ℝ)), (1,0,5)] 2
      = [(0,0,5), (1,0,5)] := by
  have h := resample_step_ge_total [((0:ℝ),(0:ℝ),(5:ℝ)), (1,0,5)] 2
    (by norm_num) (by norm_num) (by rw [total_AB]; norm_num)
  rw [h]
  rw [if_neg (by norm_num [pyHead, pyLast, Prod.ext_iff])]
  rfl

/-- Claim C6, counterexample to the frozen statement: the closed-loop
polyline `[(0,0,5), (1,0,5), (0,0,5)]` has total length `2 > 0` and
coincident endpoints; with step width `3 ≥ 2` the output is the single
point `[(0,0,5)]`, although the frozen claim requires the two-point output
`[first, last]` whenever the total length is non-zero. -/
theorem resample_coincident_endpoints_not_pair :
    resample_path_by_width [((0:ℝ),(0:ℝ),(5:ℝ)), (1,0,5), (0,0,5)] 3
        = [(0,0,5)] ∧
    totalDistance [((0:ℝ),(0:ℝ),(5:ℝ)), (1,0,5), (0,0,5)] ≠ 0 := by
  constructor
  · unfold resample_path_by_width
    rw [if_neg (by push_neg; exact ⟨by simp, by norm_num, by norm_num⟩)]
    simp only [resamplePre]
    rw [total_ABA, ds_two_three, if_pos rfl, if_pos (by norm_num)]
    rw [show pyLast [((0:ℝ),(0:ℝ),(5:ℝ)), (1,0,5), (0,0,5)] = ((0:ℝ),(0:ℝ),(5:ℝ)) from rfl]
    rw [show pyHead [((0:ℝ),(0:ℝ),(5:ℝ)), (1,0,5), (0,0,5)] = ((0:ℝ),(0:ℝ),(5:ℝ)) from rfl]
    rw [dedupeKeepFirst, dedupeGo, if_neg (by simp), dedupeGo,
      if_pos (by simp), dedupeGo]
  · rw [total_ABA]
    norm_num

/-! ### Parser lemmas -/

lemma digitsVal_append (l : List Char) (c : Char) :
    digitsVal (l ++ [c]) = 10 * digitsVal l + (c.toNat - 48) := by
  unfold digitsVal
  rw [List.foldl_append]
  rfl

lemma digitChar_toNat_sub {d : ℕ} (h : d < 10) : (digitChar d).toNat - 48 = d := by
  interval_cases d <;> rfl

lemma natStrAux_val : ∀ (fuel n : ℕ), n ≤ fuel →
    digitsVal (natStrAux fuel n) = n := by
  intro fuel
  induction fuel with
  | zero =>
    intro n h
    interval_cases n
    rfl
  | succ fuel ih =>
    intro n h
    rw [natStrAux]
    by_cases h10 : n < 10
    · rw [if_pos h10]
      show 10 * 0 + ((digitChar n).toNat - 48) = n
      rw [digitChar_toNat_sub h10]
      omega
    · rw [if_neg h10]
      rw [digitsVal_append]
      rw [ih (n / 10) (by omega)]
      rw [digitChar_toNat_sub (Nat.mod_lt n (by omega))]
      omega

lemma natStr_injective {m n : ℕ} (h : natStr m = natStr n) : m = n := by
  have hm := natStrAux_val m m le_rfl
  have hn := natStrAux_val n n le_rfl
  unfold natStr at h
  rw [← hm, ← hn, h]

lemma dropWhile_ws_bracket (ws r : List Char)
    (hws : ∀ c ∈ ws, pyIsSpace c = true) :
    (ws ++ '[' :: r).dropWhile (fun c => pyIsSpace c) = '[' :: r := by
  induction ws with
  | nil =>
    rw [List.nil_append, List.dropWhile_cons]
    rw [show pyIsSpace '[' = false from rfl]
    simp
  | cons a ws ih =>
    rw [List.cons_append, List.dropWhile_cons]
    rw [hws a (by simp)]
    simp only [if_true]
    exact ih fun c hc => hws c (by simp [hc])

lemma takeWhile_no_bracket (content r : List Char) (hc : ']' ∉ content) :
    (content ++ ']' :: r).takeWhile (fun c => c ≠ ']') = content := by
  induction content with
  | nil =>
    rw [List.nil_append, List.takeWhile_cons]
    simp
  | cons a cs ih =>
    rw [List.cons_append, List.takeWhile_cons]
    have ha : a ≠ ']' := by
      intro h
      exact hc (by simp [h])
    simp only [ha, decide_eq_true ha, if_true]
    rw [ih fun h => hc (by simp [h])]

lemma dropWhile_head_false {p : Char → Bool} :
    ∀ (l : List Char) (c : Char) (t : List Char),
      l.dropWhile p = c :: t → p c = false := by
  intro l
  induction l with
  | nil => intro c t h; simp [List.dropWhile] at h
  | cons a l ih =>
    intro c t h
    rw [List.dropWhile_cons] at h
    by_cases ha : p a
    · rw [if_pos ha] at h
      exact ih c t h
    · rw [if_neg ha] at h
      obtain ⟨h1, -⟩ := List.cons_eq_cons.mp h
      subst h1
      cases hpa : p a with
      | false => rfl
      | true => exact absurd hpa ha

lemma headerMatch_isSome_iff (l : List Char) :
    (headerMatch l).isSome = true ↔ IsHeaderLine l := by
  constructor
  · intro h
    unfold headerMatch at h
    cases hm : l.dropWhile (fun c => pyIsSpace c) with
    | nil => rw [hm] at h; simp at h
    | cons c rest =>
      rw [hm] at h
      simp only at h
      by_cases hc : c = '['
      · rw [if_pos hc] at h
        subst hc
        by_cases hcond :
            (rest.takeWhile (fun c => c ≠ ']')).length < rest.length ∧
              rest.takeWhile (fun c => c ≠ ']') ≠ []
        · refine ⟨l.takeWhile (fun c => pyIsSpace c),
            rest.takeWhile (fun c => c ≠ ']'),
            (rest.dropWhile (fun c => c ≠ ']')).tail, ?_, ?_, hcond.2, ?_⟩
          · conv_lhs => rw [← List.takeWhile_append_dropWhile
              (p := fun c => pyIsSpace c) (l := l)]
            rw [hm]
            congr 1
            conv_lhs => rw [← List.takeWhile_append_dropWhile
              (p := fun c => c ≠ ']') (l := rest)]
            congr 1
            have hne : rest.dropWhile (fun c => c ≠ ']') ≠ [] := by
              intro hnil
              have hsplit := List.takeWhile_append_dropWhile
                (p := fun c => c ≠ ']') (l := rest)
              rw [hnil, List.append_nil] at hsplit
              rw [hsplit] at hcond
              exact absurd hcond.1 (lt_irrefl _)
            cases hd : rest.dropWhile (fun c => c ≠ ']') with
            | nil => exact absurd hd hne
            | cons c' t' =>
              have hfalse := dropWhile_head_false rest c' t' hd
              have hc' : c' = ']' := by
                by_contra hne'
                simp [hne'] at hfalse
              rw [hc']
              rfl
          · intro c hc
            exact List.mem_takeWhile_imp hc
          · intro hmem
            have := List.mem_takeWhile_imp hmem
            simp at this
        · rw [if_neg hcond] at h
          simp at h
      · rw [if_neg hc] at h
        simp at h
  · rintro ⟨ws, content, rest, rfl, hws, hcne, hcnb⟩
    unfold headerMatch
    rw [dropWhile_ws_bracket ws _ hws]
    have hlen : content.length < (content ++ ']' :: rest).length := by
      rw [List.length_append]
      simp
    simp only
    rw [if_pos trivial]
    rw [takeWhile_no_bracket content rest hcnb]
    rw [if_pos (And.intro hlen hcne)]
    rfl

lemma parseGo_cons_nonheader (i : ℕ) (line : List Char) (rest : List (List Char))
    (k : Option (List Char)) (secs : Sections) (hl : headerMatch line = none) :
    parseGo i (line :: rest) k secs =
      parseGo (i + 1) rest k
        (match k with
         | some key => appendToSection secs key line
         | none => secs) := by
  cases k <;> simp [parseGo, hl]

lemma appendToSection_singleton (k h l : List Char) (ls : List (List Char)) :
    appendToSection [(k, h, ls)] k l = [(k, h, ls ++ [l])] := by
  simp [appendToSection]

lemma parseGo_drop_nonheaders :
    ∀ (pre : List (List Char)) (rest : List (List Char)) (i : ℕ) (acc : Sections),
      (∀ l ∈ pre, headerMatch l = none) →
      parseGo i (pre ++ rest) none acc = parseGo (i + pre.length) rest none acc := by
  intro pre
  induction pre with
  | nil => intro rest i acc _; simp
  | cons l pre ih =>
    intro rest i acc hpre
    rw [List.cons_append]
    rw [parseGo_cons_nonheader i l (pre ++ rest) none acc (hpre l (by simp))]
    rw [ih rest (i + 1) acc (fun x hx => hpre x (by simp [hx]))]
    congr 1
    simp
    omega

lemma parseGo_body :
    ∀ (body : List (List Char)) (i : ℕ) (k h : List Char) (ls : List (List Char)),
      (∀ l ∈ body, headerMatch l = none) →
      parseGo i body (some k) [(k, h, ls)] = [(k, h, ls ++ body)] := by
  intro body
  induction body with
  | nil => intro i k h ls _; simp [parseGo]
  | cons l body ih =>
    intro i k h ls hb
    rw [parseGo_cons_nonheader i l body (some k) _ (hb l (by simp))]
    show parseGo (i + 1) body (some k) (appendToSection [(k, h, ls)] k l) = _
    rw [appendToSection_singleton]
    rw [ih (i + 1) k h (ls ++ [l]) (fun x hx => hb x (by simp [hx]))]
    simp

/-- Claim C8: behaviour of `_parse`.  (1) A line is recognised as a header
exactly when it consists of optional leading whitespace, `[`, at least one
non-`]` character, and `]`.  (2) Lines before the first header are dropped
(they leave the parse state unchanged, up to the line counter).  (3) For a
header line followed by content lines, the section key is the
normalisation of the bracket label (`normKey`: delete non-alphanumerics,
lowercase) and the content lines — including blank ones — are stored
verbatim, in order.  (4) Append-only keys (`source`, `tend`) are suffixed
with the line index, so two occurrences at distinct lines get distinct
keys.  (5) A document with two `[Source]` headers parses to two distinct
entries. -/
theorem _parse_spec :
    (∀ l : List Char, (headerMatch l).isSome = true ↔ IsHeaderLine l) ∧
    (∀ (pre rest : List (List Char)) (i : ℕ) (acc : Sections),
      (∀ l ∈ pre, headerMatch l = none) →
      parseGo i (pre ++ rest) none acc = parseGo (i + pre.length) rest none acc) ∧
    (∀ (header : List Char) (body : List (List Char)) (h₀ c₀ : List Char),
      headerMatch header = some (h₀, c₀) →
      normKey c₀ ∉ append_only_keys →
      (∀ l ∈ body, headerMatch l = none) →
      _parse (header :: body) = [(normKey c₀, h₀, body)]) ∧
    (∀ (k : List Char) (i j : ℕ), i ≠ j →
      k ++ '_' :: natStr i ≠ k ++ '_' :: natStr j) ∧
    _parse (docOf ["[Source]", "a", "[Source]", "b"])
      = [(chars "source_0", chars "[Source]", docOf ["a"]),
         (chars "source_2", chars "[Source]", docOf ["b"])] := by
  refine ⟨headerMatch_isSome_iff, parseGo_drop_nonheaders, ?_, ?_, by rfl⟩
  · intro header body h₀ c₀ hmatch hkey hbody
    unfold _parse
    simp only [parseGo, hmatch]
    rw [if_neg hkey]
    show parseGo 1 body (some (normKey c₀)) [(normKey c₀, h₀, [])] = _
    rw [parseGo_body body 1 (normKey c₀) h₀ [] hbody]
    rfl
  · intro k i j hij heq
    apply hij
    apply natStr_injective
    have h2 := List.append_cancel_left heq
    exact (List.cons_eq_cons.mp h2).2

/-- Claim C8, witness: concrete instances of each hypothesis-bearing
conjunct of `_parse_spec`. -/
theorem _parse_spec_witness :
    IsHeaderLine (chars "  [ M a t ]x") ∧
    parseGo 0 (docOf ["junk", "[a]"]) none [] = parseGo (0 + 1) (docOf ["[a]"]) none [] ∧
    _parse (docOf ["[ C e l l ]", "  1 2", ""])
      = [(chars "cell", chars "[ C e l l ]", docOf ["  1 2", ""])] ∧
    chars "source" ++ '_' :: natStr 0 ≠ chars "source" ++ '_' :: natStr 5 := by
  refine ⟨(_parse_spec.1 _).mp (by rfl), ?_, ?_, ?_⟩
  · have h := _parse_spec.2.1 [chars "junk"] (docOf ["[a]"]) 0 []
      (by intro l hl; simp at hl; subst hl; rfl)
    simpa using h
  · have h := _parse_spec.2.2.1 (chars "[ C e l l ]") (docOf ["  1 2", ""])
      (chars "[ C e l l ]") (chars " C e l l ") rfl (by decide)
      (by
        intro l hl
        rw [show docOf ["  1 2", ""] = [chars "  1 2", chars ""] from rfl] at hl
        simp at hl
        rcases hl with rfl | rfl <;> rfl)
    exact h
  · exact _parse_spec.2.2.2.1 (chars "source") 0 5 (by decide)

/-! ### A* lemmas -/

lemma pyHead_append {α : Type} [Inhabited α] (l t : List α) (h : l ≠ []) :
    pyHead (l ++ t) = pyHead l := by
  cases l with
  | nil => exact absurd rfl h
  | cons a l => rfl

lemma pyLast_mem {α : Type} [Inhabited α] :
    ∀ (l : List α), l ≠ [] → pyLast l ∈ l := by
  intro l
  induction l with
  | nil => intro h; exact absurd rfl h
  | cons a l ih =>
    intro _
    cases l with
    | nil => simp [pyLast]
    | cons b t =>
      rw [pyLast_cons_cons]
      exact List.mem_cons_of_mem a (ih (by simp))

lemma getLast?_eq_pyLast {α : Type} [Inhabited α] :
    ∀ (l : List α), l ≠ [] → l.getLast? = some (pyLast l) := by
  intro l
  induction l with
  | nil => intro h; exact absurd rfl h
  | cons a l ih =>
    intro _
    cases l with
    | nil => rfl
    | cons b t =>
      rw [pyLast_cons_cons]
      rw [List.getLast?_cons_cons]
      exact ih (by simp)

lemma tail_append_of_ne_nil {α : Type} (l t : List α) (h : l ≠ []) :
    (l ++ t).tail = l.tail ++ t := by
  cases l with
  | nil => exact absurd rfl h
  | cons a l => rfl

lemma snoc_eq_snoc {α : Type} {l m : List α} {x y : α}
    (h : l ++ [x] = m ++ [y]) : l = m ∧ x = y := by
  have := List.append_inj' h (by simp)
  exact ⟨this.1, by simpa using this.2⟩

lemma pref_of_pref_snoc {α : Type} {p l : List α} {x : α}
    (h : ∃ t, l ++ [x] = p ++ t) :
    (∃ t, l = p ++ t) ∨ p = l ++ [x] := by
  obtain ⟨t, ht⟩ := h
  rcases List.eq_nil_or_concat t with rfl | ⟨t0, y, rfl⟩
  · right
    rw [ht, List.append_nil]
  · left
    rw [List.concat_eq_append, ← List.append_assoc] at ht
    obtain ⟨h1, -⟩ := snoc_eq_snoc ht
    exact ⟨t0, h1⟩

lemma pref_of_singleton {α : Type} {p : List α} {a : α}
    (hp : p ≠ []) (h : ∃ t, [a] = p ++ t) : p = [a] := by
  obtain ⟨t, ht⟩ := h
  cases p with
  | nil => exact absurd rfl hp
  | cons b p' =>
    rw [List.cons_append] at ht
    obtain ⟨rfl, h2⟩ := List.cons_eq_cons.mp ht
    have : p' = [] := by
      rcases List.append_eq_nil.mp h2.symm with ⟨h3, -⟩
      exact h3
    rw [this]

lemma pyLast_mem_of_pref {α : Type} [Inhabited α] {p l : List α}
    (hp : p ≠ []) (h : ∃ t, l = p ++ t) : pyLast p ∈ l := by
  obtain ⟨t, rfl⟩ := h
  exact List.mem_append_left t (pyLast_mem p hp)

lemma pathCost_nonneg (dose : Cell → ℚ) (w : ℚ)
    (hd : ∀ c, 0 ≤ dose c) (hw : 0 ≤ w) :
    ∀ l : List Cell, 0 ≤ pathCost dose w l := by
  intro l
  induction l with
  | nil => simp [pathCost]
  | cons a l ih =>
    cases l with
    | nil => simp [pathCost]
    | cons b t =>
      rw [pathCost]
      have h1 : 0 ≤ dose b * w := mul_nonneg (hd b) hw
      have h2 := ih
      linarith

lemma pathCost_snoc (dose : Cell → ℚ) (w : ℚ) :
    ∀ (l : List Cell) (x : Cell), l ≠ [] →
      pathCost dose w (l ++ [x]) = pathCost dose w l + (1 + dose x * w) := by
  intro l
  induction l with
  | nil => intro x h; exact absurd rfl h
  | cons a l ih =>
    intro x _
    cases l with
    | nil =>
      show pathCost dose w [a, x] = pathCost dose w [a] + (1 + dose x * w)
      rw [show pathCost dose w [a, x]
          = (1 + dose x * w) + pathCost dose w [x] from rfl]
      rw [show pathCost dose w [x] = 0 from rfl]
      rw [show pathCost dose w [a] = 0 from rfl]
      ring
    | cons b t =>
      show pathCost dose w (a :: b :: (t ++ [x]))
          = pathCost dose w (a :: b :: t) + (1 + dose x * w)
      rw [show pathCost dose w (a :: b :: (t ++ [x]))
          = (1 + dose b * w) + pathCost dose w (b :: (t ++ [x])) from rfl]
      rw [show pathCost dose w (a :: b :: t)
          = (1 + dose b * w) + pathCost dose w (b :: t) from rfl]
      have h2 := ih x (by simp)
      rw [show (b :: t) ++ [x] = b :: (t ++ [x]) from rfl] at h2
      rw [h2]
      ring

lemma pathCost_pref_le (dose : Cell → ℚ) (w : ℚ)
    (hd : ∀ c, 0 ≤ dose c) (hw : 0 ≤ w) :
    ∀ (p t : List Cell), p ≠ [] →
      pathCost dose w p ≤ pathCost dose w (p ++ t) := by
  intro p
  induction p with
  | nil => intro t h; exact absurd rfl h
  | cons a p ih =>
    intro t _
    cases p with
    | nil =>
      rw [show pathCost dose w [a] = 0 from rfl]
      exact pathCost_nonneg dose w hd hw _
    | cons b p' =>
      show pathCost dose w (a :: b :: p')
          ≤ pathCost dose w (a :: b :: (p' ++ t))
      rw [show pathCost dose w (a :: b :: p')
          = (1 + dose b * w) + pathCost dose w (b :: p') from rfl]
      rw [show pathCost dose w (a :: b :: (p' ++ t))
          = (1 + dose b * w) + pathCost dose w (b :: (p' ++ t)) from rfl]
      have h2 := ih t (by simp)
      rw [show (b :: p') ++ t = b :: (p' ++ t) from rfl] at h2
      linarith

lemma getD_mem_or {α : Type} (l : List α) (i : ℕ) (d : α) :
    l.getD i d ∈ l ∨ l.getD i d = d := by
  by_cases h : i < l.length
  · left
    rw [List.getD_eq_getElem l d h]
    exact List.getElem_mem h
  · right
    exact List.getD_eq_default l d (by omega)

lemma mem_set_or {α : Type} {l : List α} {i : ℕ} {v x : α}
    (h : x ∈ l.set i v) : x ∈ l ∨ x = v := by
  rcases List.mem_or_eq_of_mem_set h with h1 | h1
  · left; exact h1
  · right; exact h1

lemma sd_subset {E : Type} (lt : E → E → Bool) (n : E) :
    ∀ (fuel : ℕ) (heap : List E) (startpos pos : ℕ) (x : E),
      x ∈ sd lt n fuel heap startpos pos → x ∈ heap ∨ x = n := by
  intro fuel
  induction fuel with
  | zero =>
    intro heap startpos pos x hx
    exact mem_set_or hx
  | succ fuel ih =>
    intro heap startpos pos x hx
    rw [sd] at hx
    by_cases h1 : startpos < pos
    · rw [if_pos h1] at hx
      by_cases h2 : lt n (heap.getD ((pos - 1) / 2) n) = true
      · rw [if_pos h2] at hx
        rcases ih _ _ _ _ hx with h3 | h3
        · rcases mem_set_or h3 with h4 | h4
          · left; exact h4
          · rcases getD_mem_or heap ((pos - 1) / 2) n with h5 | h5
            · left; rw [h4]; exact h5
            · right; rw [h4]; exact h5
        · right; exact h3
      · rw [if_neg h2] at hx
        exact mem_set_or hx
    · rw [if_neg h1] at hx
      exact mem_set_or hx

lemma su_subset {E : Type} (lt : E → E → Bool) (n : E) :
    ∀ (fuel : ℕ) (heap : List E) (startpos pos : ℕ) (x : E),
      x ∈ su lt n fuel heap startpos pos → x ∈ heap ∨ x = n := by
  intro fuel
  induction fuel with
  | zero =>
    intro heap startpos pos x hx
    exact sd_subset lt n _ _ _ _ _ hx
  | succ fuel ih =>
    intro heap startpos pos x hx
    rw [su] at hx
    by_cases h1 : 2 * pos + 1 < heap.length
    · rw [if_pos h1] at hx
      rcases ih _ _ _ _ hx with h3 | h3
      · rcases mem_set_or h3 with h4 | h4
        · left; exact h4
        · rcases getD_mem_or heap _ n with h5 | h5
          · left; rw [h4]; exact h5
          · right; rw [h4]; exact h5
      · right; exact h3
    · rw [if_neg h1] at hx
      exact sd_subset lt n _ _ _ _ _ hx

lemma heappush_subset {E : Type} (lt : E → E → Bool) (heap : List E) (e x : E)
    (hx : x ∈ heappush lt heap e) : x ∈ heap ∨ x = e := by
  unfold heappush at hx
  rcases sd_subset lt e _ _ _ _ _ hx with h1 | h1
  · rcases List.mem_append.mp h1 with h2 | h2
    · left; exact h2
    · right; simpa using h2
  · right; exact h1

lemma heappop_spec {E : Type} [Inhabited E] (lt : E → E → Bool)
    (heap : List E) (e : E) (rest : List E)
    (h : heappop lt heap = some (e, rest)) :
    e ∈ heap ∧ ∀ x ∈ rest, x ∈ heap := by
  cases heap with
  | nil => simp [heappop] at h
  | cons a as =>
    rw [heappop] at h
    have hmem_dl : ∀ y, y ∈ (a :: as).dropLast → y ∈ a :: as := by
      intro y hy
      exact (List.dropLast_sublist (a :: as)).mem hy
    cases hdl : (a :: as).dropLast with
    | nil =>
      rw [hdl] at h
      simp only [Option.some.injEq, Prod.mk.injEq] at h
      obtain ⟨rfl, rfl⟩ := h
      exact ⟨pyLast_mem _ (by simp), by simp⟩
    | cons r0 rs =>
      rw [hdl] at h
      simp only [Option.some.injEq, Prod.mk.injEq] at h
      obtain ⟨rfl, rfl⟩ := h
      constructor
      · exact hmem_dl r0 (by rw [hdl]; simp)
      · intro x hx
        rcases su_subset lt _ _ _ _ _ _ hx with h1 | h1
        · rcases mem_set_or h1 with h2 | h2
          · exact hmem_dl x (by rw [hdl]; exact h2)
          · rw [h2]; exact pyLast_mem _ (by simp)
        · rw [h1]; exact pyLast_mem _ (by simp)

lemma EntryInv_mcLE {start : Cell} {rows cols : ℕ} {map_data : Cell → ℤ}
    {dose : Cell → ℚ} {w : ℚ} {mc mc' : Cell → Option ℚ} {e : Entry}
    (hle : mcLE mc' mc)
    (he : EntryInv start rows cols map_data dose w mc e) :
    EntryInv start rows cols map_data dose w mc' e := by
  obtain ⟨h1, h2, h3, h4, h5, h6, h7, h8⟩ := he
  refine ⟨h1, h2, h3, h4, h5, h6, h7, ?_⟩
  intro p hp hpre
  obtain ⟨v, hv, hvle⟩ := h8 p hp hpre
  obtain ⟨v', hv', hv'le⟩ := hle _ _ hv
  exact ⟨v', hv', le_trans hv'le hvle⟩

lemma mcLE_refl (mc : Cell → Option ℚ) : mcLE mc mc :=
  fun _ v h => ⟨v, h, le_rfl⟩

lemma mcLE_trans {m1 m2 m3 : Cell → Option ℚ} (h12 : mcLE m1 m2)
    (h23 : mcLE m2 m3) : mcLE m1 m3 := by
  intro k v h
  obtain ⟨v2, hv2, hle2⟩ := h23 k v h
  obtain ⟨v1, hv1, hle1⟩ := h12 k v2 hv2
  exact ⟨v1, hv1, le_trans hle1 hle2⟩

lemma push_pres (start : Cell) (rows cols : ℕ) (map_data : Cell → ℤ)
    (dose : Cell → ℚ) (w : ℚ) (hd : ∀ c, 0 ≤ dose c) (hw : 0 ≤ w)
    (pri cost : ℚ) (current : Cell) (path : List Cell)
    (st : List Entry × (Cell → Option ℚ)) (next : Cell) (h : ℚ)
    (hcur : EntryInv start rows cols map_data dose w st.2 (pri, cost, current, path))
    (hst : StateInv start rows cols map_data dose w st.1 st.2)
    (hbnd : inBounds rows cols next)
    (hwall : map_data next ≠ 1)
    (hadj : stepAdj current next)
    (hpcond : ∀ v, st.2 next = some v → cost + 1 + dose next * w < v) :
    StateInv start rows cols map_data dose w
        (heappush entryLT st.1
          (cost + 1 + dose next * w + h, cost + 1 + dose next * w, next,
            path ++ [next]))
        (fun c => if c = next then some (cost + 1 + dose next * w) else st.2 c) ∧
    EntryInv start rows cols map_data dose w
        (fun c => if c = next then some (cost + 1 + dose next * w) else st.2 c)
        (pri, cost, current, path) ∧
    mcLE (fun c => if c = next then some (cost + 1 + dose next * w) else st.2 c)
        st.2 := by
  obtain ⟨hne, hhead, hlast, hcost, hchain, htail, hnodup, hpref⟩ := hcur
  simp only at hne hhead hlast hcost hchain htail hnodup hpref
  have hedge : (0:ℚ) ≤ dose next * w := mul_nonneg (hd next) hw
  have hnotmem : next ∉ path := by
    intro hmem
    obtain ⟨s, t, hst'⟩ := List.append_of_mem hmem
    have hpre : ∃ t', path = (s ++ [next]) ++ t' := ⟨t, by rw [hst']; simp⟩
    obtain ⟨v, hv, hvle⟩ := hpref (s ++ [next]) (by simp) hpre
    rw [pyLast_append_singleton] at hv
    have hlt := hpcond v hv
    obtain ⟨t', ht'⟩ := hpre
    have hle2 : pathCost dose w (s ++ [next])
        ≤ pathCost dose w ((s ++ [next]) ++ t') :=
      pathCost_pref_le dose w hd hw _ t' (by simp)
    rw [← ht'] at hle2
    rw [← hcost] at hle2
    linarith
  have hmcle : mcLE
      (fun c => if c = next then some (cost + 1 + dose next * w) else st.2 c)
      st.2 := by
    intro k v hk
    by_cases hkn : k = next
    · subst hkn
      have := hpcond v hk
      exact ⟨cost + 1 + dose k * w, by simp, le_of_lt this⟩
    · exact ⟨v, by simp [hkn, hk], le_rfl⟩
  have hnewcost : pathCost dose w (path ++ [next]) = cost + 1 + dose next * w := by
    rw [pathCost_snoc dose w path next hne, ← hcost]
    ring
  have hnew : EntryInv start rows cols map_data dose w
      (fun c => if c = next then some (cost + 1 + dose next * w) else st.2 c)
      (cost + 1 + dose next * w + h, cost + 1 + dose next * w, next,
        path ++ [next]) := by
    refine ⟨by simp, ?_, ?_, ?_, ?_, ?_, ?_, ?_⟩
    · rw [show (cost + 1 + dose next * w + h, cost + 1 + dose next * w, next,
          path ++ [next]).2.2.2 = path ++ [next] from rfl]
      rw [pyHead_append path [next] hne]
      exact hhead
    · exact pyLast_append_singleton path next
    · exact hnewcost.symm
    · rw [show (cost + 1 + dose next * w + h, cost + 1 + dose next * w, next,
          path ++ [next]).2.2.2 = path ++ [next] from rfl]
      rw [List.chain'_append]
      refine ⟨hchain, by simp, ?_⟩
      intro x hx y hy
      rw [getLast?_eq_pyLast path hne] at hx
      simp at hx hy
      rw [← hx, ← hy, hlast]
      exact hadj
    · intro c hc
      rw [show (cost + 1 + dose next * w + h, cost + 1 + dose next * w, next,
          path ++ [next]).2.2.2 = path ++ [next] from rfl] at hc
      rw [tail_append_of_ne_nil path [next] hne] at hc
      rcases List.mem_append.mp hc with h1 | h1
      · exact htail c h1
      · simp at h1
        rw [h1]
        exact ⟨hbnd, hwall⟩
    · rw [show (cost + 1 + dose next * w + h, cost + 1 + dose next * w, next,
          path ++ [next]).2.2.2 = path ++ [next] from rfl]
      simp [List.nodup_append]
      exact ⟨hnodup, fun h => hnotmem h⟩
    · intro p hp hpre
      rcases pref_of_pref_snoc hpre with h1 | h1
      · have hne2 : pyLast p ≠ next := by
          intro heq
          exact hnotmem (heq ▸ pyLast_mem_of_pref hp h1)
        obtain ⟨v, hv, hvle⟩ := hpref p hp h1
        exact ⟨v, by simp [hne2, hv], hvle⟩
      · refine ⟨cost + 1 + dose next * w, ?_, ?_⟩
        · rw [h1, pyLast_append_singleton]
          simp
        · rw [h1, hnewcost]

  refine ⟨?_, EntryInv_mcLE hmcle ⟨hne, hhead, hlast, hcost, hchain, htail, hnodup, hpref⟩, hmcle⟩
  intro x hx
  rcases heappush_subset entryLT st.1 _ x hx with h1 | h1
  · exact EntryInv_mcLE hmcle (hst x h1)
  · rw [h1]
    exact hnew

lemma stepAdj_of_dir (current : Cell) (dir : ℤ × ℤ) (hdir : dir ∈ dirs) :
    stepAdj current (current.1 + dir.1, current.2 + dir.2) := by
  unfold stepAdj
  fin_cases hdir <;> simp

lemma neighborStep_pres (start : Cell) (rows cols : ℕ) (map_data : Cell → ℤ)
    (dose : Cell → ℚ) (w : ℚ) (goal : Cell)
    (hd : ∀ c, 0 ≤ dose c) (hw : 0 ≤ w)
    (pri cost : ℚ) (current : Cell) (path : List Cell)
    (dir : ℤ × ℤ) (hdir : dir ∈ dirs)
    (st : List Entry × (Cell → Option ℚ))
    (hcur : EntryInv start rows cols map_data dose w st.2 (pri, cost, current, path))
    (hst : StateInv start rows cols map_data dose w st.1 st.2) :
    StateInv start rows cols map_data dose w
        (neighborStep rows cols map_data dose w goal cost path current st dir).1
        (neighborStep rows cols map_data dose w goal cost path current st dir).2 ∧
    EntryInv start rows cols map_data dose w
        (neighborStep rows cols map_data dose w goal cost path current st dir).2
        (pri, cost, current, path) ∧
    mcLE (neighborStep rows cols map_data dose w goal cost path current st dir).2
        st.2 := by
  simp only [neighborStep]
  by_cases hb : 0 ≤ current.1 + dir.1 ∧ current.1 + dir.1 < (rows : ℤ) ∧
      0 ≤ current.2 + dir.2 ∧ current.2 + dir.2 < (cols : ℤ)
  · rw [if_neg (not_not_intro hb)]
    by_cases hwall : map_data (current.1 + dir.1, current.2 + dir.2) = 1
    · rw [if_pos hwall]
      exact ⟨hst, hcur, mcLE_refl _⟩
    · rw [if_neg hwall]
      have hbnd : inBounds rows cols (current.1 + dir.1, current.2 + dir.2) := hb
      have hadj := stepAdj_of_dir current dir hdir
      cases hmc : st.2 (current.1 + dir.1, current.2 + dir.2) with
      | none =>
        rw [if_pos rfl]
        exact push_pres start rows cols map_data dose w hd hw pri cost current
          path st _ _ hcur hst hbnd hwall hadj
          (fun v hv => by rw [hmc] at hv; exact absurd hv (by simp))
      | some v =>
        by_cases hlt : cost + 1 + dose (current.1 + dir.1, current.2 + dir.2) * w < v
        · rw [if_pos (decide_eq_true hlt)]
          exact push_pres start rows cols map_data dose w hd hw pri cost current
            path st _ _ hcur hst hbnd hwall hadj
            (fun v' hv' => by
              rw [hmc] at hv'
              obtain rfl : v = v' := by simpa using hv'
              exact hlt)
        · rw [if_neg (by simp [hlt])]
          exact ⟨hst, hcur, mcLE_refl _⟩
  · rw [if_pos hb]
    exact ⟨hst, hcur, mcLE_refl _⟩

lemma foldl_neighborStep_pres (start : Cell) (rows cols : ℕ)
    (map_data : Cell → ℤ) (dose : Cell → ℚ) (w : ℚ) (goal : Cell)
    (hd : ∀ c, 0 ≤ dose c) (hw : 0 ≤ w)
    (pri cost : ℚ) (current : Cell) (path : List Cell) :
    ∀ (ds : List (ℤ × ℤ)), (∀ d ∈ ds, d ∈ dirs) →
      ∀ st : List Entry × (Cell → Option ℚ),
        EntryInv start rows cols map_data dose w st.2 (pri, cost, current, path) →
        StateInv start rows cols map_data dose w st.1 st.2 →
        StateInv start rows cols map_data dose w
          (ds.foldl (neighborStep rows cols map_data dose w goal cost path current) st).1
          (ds.foldl (neighborStep rows cols map_data dose w goal cost path current) st).2 := by
  intro ds
  induction ds with
  | nil =>
    intro _ st _ hst
    simpa using hst
  | cons d ds ih =>
    intro hmem st hcur hst
    rw [List.foldl_cons]
    obtain ⟨h1, h2, h3⟩ := neighborStep_pres start rows cols map_data dose w goal
      hd hw pri cost current path d (hmem d (by simp)) st hcur hst
    exact ih (fun x hx => hmem x (by simp [hx])) _ h2 h1

lemma astarLoop_sound (start goal : Cell) (rows cols : ℕ)
    (map_data : Cell → ℤ) (dose : Cell → ℚ) (w : ℚ)
    (hd : ∀ c, 0 ≤ dose c) (hw : 0 ≤ w) :
    ∀ (fuel : ℕ) (queue : List Entry) (visited : Cell → Bool)
      (mc : Cell → Option ℚ) (path : List Cell),
      StateInv start rows cols map_data dose w queue mc →
      astarLoop rows cols map_data dose w goal fuel queue visited mc
        = some (some path) →
      path ≠ [] ∧ pyHead path = start ∧ pyLast path = goal ∧ path.Nodup ∧
        List.Chain' stepAdj path ∧
        ∀ c ∈ path.tail, inBounds rows cols c ∧ map_data c ≠ 1 := by
  intro fuel
  induction fuel with
  | zero =>
    intro queue visited mc path _ hrun
    simp [astarLoop] at hrun
  | succ fuel ih =>
    intro queue visited mc path hst hrun
    simp only [astarLoop] at hrun
    cases hpop : heappop entryLT queue with
    | none => rw [hpop] at hrun; simp at hrun
    | some er =>
      obtain ⟨e, q'⟩ := er
      rw [hpop] at hrun
      dsimp only at hrun
      obtain ⟨hein, hq'sub⟩ := heappop_spec entryLT queue e q' hpop
      have hE := hst e hein
      by_cases hgoal : e.2.2.1 = goal
      · rw [if_pos hgoal] at hrun
        simp only [Option.some.injEq] at hrun
        subst hrun
        obtain ⟨h1, h2, h3, h4, h5, h6, h7, h8⟩ := hE
        exact ⟨h1, h2, hgoal ▸ h3, h7, h5, h6⟩
      · rw [if_neg hgoal] at hrun
        by_cases hvis : visited e.2.2.1 = true
        · rw [if_pos hvis] at hrun
          exact ih q' visited mc path (fun x hx => hst x (hq'sub x hx)) hrun
        · rw [if_neg hvis] at hrun
          have hstq' : StateInv start rows cols map_data dose w q' mc :=
            fun x hx => hst x (hq'sub x hx)
          have hfold := foldl_neighborStep_pres start rows cols map_data dose w
            goal hd hw e.1 e.2.1 e.2.2.1 e.2.2.2 dirs (fun d h => h) (q', mc)
            hE hstq'
          exact ih _ _ _ path hfold hrun

lemma run_astar_sound (fuel : ℕ) (start goal : Cell) (rows cols : ℕ)
    (map_data : Cell → ℤ) (dose : Cell → ℚ) (w : ℚ) (path : List Cell)
    (hd : ∀ c, 0 ≤ dose c) (hw : 0 ≤ w)
    (h : run_astar fuel start goal rows cols map_data dose w = some (some path)) :
    path ≠ [] ∧ pyHead path = start ∧ pyLast path = goal ∧ path.Nodup ∧
      List.Chain' stepAdj path ∧
      ∀ c ∈ path.tail, inBounds rows cols c ∧ map_data c ≠ 1 := by
  apply astarLoop_sound start goal rows cols map_data dose w hd hw fuel
    [(0, 0, start, [start])] (fun _ => false)
    (fun c => if c = start then some 0 else none) path ?_ h
  intro e he
  simp only [List.mem_singleton] at he
  subst he
  refine ⟨by simp, rfl, rfl, rfl, by simp, by simp, by simp, ?_⟩
  intro p hp hpre
  have hps := pref_of_singleton hp hpre
  subst hps
  refine ⟨0, by simp [pyLast], ?_⟩
  rw [show pathCost dose w [start] = 0 from rfl]

/-! ### Merger claims -/

/-- Claim C1 (code bug in `_renumber_and_map_ids`): the uniqueness
invariant is violated by the code.  For a base whose material section
defines `{2}` and an overlay defining `{2, 3}`, `next_free = 3` renumbers
the colliding overlay id `2` to `3`, which collides with the distinct
overlay id `3` that is kept unchanged (it does not collide with base): the
merged document contains two distinct material-defining lines that both
carry identifier `3`. -/
theorem merge_material_id_collision :
    merge (docOf ["[ M a t e r i a l ]", "  mat[2]   Fe"])
        (docOf ["[ M a t e r i a l ]", "  mat[2]   X", "  mat[3]   Y"])
      = docOf ["[ M a t e r i a l ]", "  mat[2]   Fe", "mat[3]   X", "mat[3]   Y", ""] ∧
    (merge (docOf ["[ M a t e r i a l ]", "  mat[2]   Fe"])
        (docOf ["[ M a t e r i a l ]", "  mat[2]   X", "  mat[3]   Y"])).countP
      (fun l => match matMatch l with | some x => decide (x.1 = 3) | none => false)
      = 2 :=
  ⟨rfl, rfl⟩

/-- Claim C9, counterexample to the frozen statement: in a collision
scenario (base materials `{1, 2}`, overlay material `{2}`) in which the
overlay also contains a detector cell line (`trcl=1`), the base air-cell
line (leading id `1000`) is rewritten with an exclusion token, so not all
base lines appear unchanged in the merged output. -/
theorem merge_scenario_changes_base_air_line :
    merge
        (docOf ["[ M a t e r i a l ]", "  mat[1]   A", "  mat[2]   B",
          "[ C e l l ]", "  1000   1  -1.20E-3  -998    $ Air region"])
        (docOf ["[ M a t e r i a l ]", "  mat[2]   C", "[ C e l l ]",
          "  50  2  -1.0  -5 trcl=1"])
      = docOf ["[ M a t e r i a l ]", "  mat[1]   A", "  mat[2]   B", "mat[3]   C",
          "", "[ C e l l ]", "  50 3 -1.0 -5 trcl=1",
          "  1000   1  -1.20E-3  -998 #50 $ Air region", ""] ∧
    chars "  1000   1  -1.20E-3  -998    $ Air region" ∈
      docOf ["[ M a t e r i a l ]", "  mat[1]   A", "  mat[2]   B",
        "[ C e l l ]", "  1000   1  -1.20E-3  -998    $ Air region"] ∧
    chars "  1000   1  -1.20E-3  -998    $ Air region" ∉
      merge
        (docOf ["[ M a t e r i a l ]", "  mat[1]   A", "  mat[2]   B",
          "[ C e l l ]", "  1000   1  -1.20E-3  -998    $ Air region"])
        (docOf ["[ M a t e r i a l ]", "  mat[2]   C", "[ C e l l ]",
          "  50  2  -1.0  -5 trcl=1"]) :=
  ⟨rfl, by decide, by decide⟩

/-- Claim C9 (amended, scenario-scoped): in the collision-test scenario —
base materials `{1, 2}`, overlay material `{2}`, no detector (`trcl=1`)
cell lines in the overlay — the overlay material entity is renumbered to
`3`, every overlay cell line whose material field referenced `2` (either
sign) references `3` in the merged output, and every base line appears
unchanged in the merged output.  (The universal form over all documents
with these identifier sets is refuted by
`merge_scenario_changes_base_air_line`.) -/
theorem merge_collision_scenario :
    merge
        (docOf ["[ T i t l e ]", "Env", "[ M a t e r i a l ]",
          "  mat[1]   N 8 O 2", "  mat[2]   Fe", "[ C e l l ]",
          "  1   1  -1.0  -10"])
        (docOf ["[ M a t e r i a l ]", "  mat[2]   Det", "[ C e l l ]",
          "  50  2  -2.0  -20", "  51  -2  3.0  -21"])
      = docOf ["[ T i t l e ]", "Env", "", "[ M a t e r i a l ]",
          "  mat[1]   N 8 O 2", "  mat[2]   Fe", "mat[3]   Det", "",
          "[ C e l l ]", "  50 3 -2.0 -20", "  51 -3 3.0 -21",
          "  1   1  -1.0  -10", ""] ∧
    chars "mat[3]   Det" ∈
      merge
        (docOf ["[ T i t l e ]", "Env", "[ M a t e r i a l ]",
          "  mat[1]   N 8 O 2", "  mat[2]   Fe", "[ C e l l ]",
          "  1   1  -1.0  -10"])
        (docOf ["[ M a t e r i a l ]", "  mat[2]   Det", "[ C e l l ]",
          "  50  2  -2.0  -20", "  51  -2  3.0  -21"]) ∧
    chars "  50 3 -2.0 -20" ∈
      merge
        (docOf ["[ T i t l e ]", "Env", "[ M a t e r i a l ]",
          "  mat[1]   N 8 O 2", "  mat[2]   Fe", "[ C e l l ]",
          "  1   1  -1.0  -10"])
        (docOf ["[ M a t e r i a l ]", "  mat[2]   Det", "[ C e l l ]",
          "  50  2  -2.0  -20", "  51  -2  3.0  -21"]) ∧
    chars "  51 -3 3.0 -21" ∈
      merge
        (docOf ["[ T i t l e ]", "Env", "[ M a t e r i a l ]",
          "  mat[1]   N 8 O 2", "  mat[2]   Fe", "[ C e l l ]",
          "  1   1  -1.0  -10"])
        (docOf ["[ M a t e r i a l ]", "  mat[2]   Det", "[ C e l l ]",
          "  50  2  -2.0  -20", "  51  -2  3.0  -21"]) ∧
    ∀ l ∈ docOf ["[ T i t l e ]", "Env", "[ M a t e r i a l ]",
          "  mat[1]   N 8 O 2", "  mat[2]   Fe", "[ C e l l ]",
          "  1   1  -1.0  -10"],
      l ∈ merge
        (docOf ["[ T i t l e ]", "Env", "[ M a t e r i a l ]",
          "  mat[1]   N 8 O 2", "  mat[2]   Fe", "[ C e l l ]",
          "  1   1  -1.0  -10"])
        (docOf ["[ M a t e r i a l ]", "  mat[2]   Det", "[ C e l l ]",
          "  50  2  -2.0  -20", "  51  -2  3.0  -21"]) :=
  ⟨rfl, by decide, by decide, by decide, by decide⟩

lemma getSection_map_set (secs : Sections) (k : List Char)
    (v : List Char × List (List Char)) (hk : hasKey secs k = true) :
    getSection (secs.map (fun e => if e.1 = k then (k, v.1, v.2) else e)) k
      = some v := by
  induction secs with
  | nil => simp [hasKey] at hk
  | cons e rest ih =>
    by_cases he : e.1 = k
    · rw [List.map_cons, if_pos he, getSection, if_pos rfl]
    · have hk' : hasKey rest k = true := by
        unfold hasKey at hk
        simp only [List.any_cons, Bool.or_eq_true, decide_eq_true_eq] at hk
        rcases hk with h | h
        · exact absurd h he
        · exact h
      simp only [List.map_cons, if_neg he]
      rw [getSection]
      rw [if_neg he]
      exact ih hk'

lemma getSection_append_new (secs : Sections) (k : List Char)
    (v : List Char × List (List Char)) (hk : hasKey secs k = false) :
    getSection (secs ++ [(k, v.1, v.2)]) k = some v := by
  induction secs with
  | nil => simp [getSection]
  | cons e rest ih =>
    have he : ¬(e.1 = k) := by
      unfold hasKey at hk
      simp only [List.any_cons, Bool.or_eq_false_iff, decide_eq_false_iff_not] at hk
      exact hk.1
    rw [List.cons_append, getSection, if_neg he]
    apply ih
    unfold hasKey at hk
    simp only [List.any_cons, Bool.or_eq_false_iff] at hk
    exact hk.2

lemma getSection_setSection (secs : Sections) (k : List Char)
    (v : List Char × List (List Char)) :
    getSection (setSection secs k v) k = some v := by
  unfold setSection
  by_cases hk : hasKey secs k
  · rw [if_pos hk]
    exact getSection_map_set secs k v hk
  · rw [if_neg hk]
    exact getSection_append_new secs k v (Bool.not_eq_true _ ▸ hk)

/-- Claim C10 (amended): during merge, when the renumbered overlay cell
section contains detector lines (leading integer id, then content
containing `trcl=1`), the detector-exclusion step rewrites the base cell
section by mapping each line through `airLineUpdate`: every line matching
`^\s*1000\s+` becomes its pre-`$` text (right-stripped), one space, the
`#<id>` exclusion tokens (one per detector id, in order), then the
re-attached first `$`-comment; every other line of the base cell section is
left character-for-character unchanged by this step.  At render time each
section emits exactly its header followed by its non-blank lines (so
whitespace-only base cell lines are omitted from the merged output — the
frozen claim's "every other base cell-section line is emitted unchanged"
holds only for non-blank lines, see `merge_drops_blank_base_cell_line`). -/
theorem merge_air_cell_exclusion_frame
    (baseSecs mergeSecs : Sections) (bh mh : List Char)
    (blines mlines : List (List Char))
    (hb : getSection baseSecs (chars "cell") = some (bh, blines))
    (hm : getSection mergeSecs (chars "cell") = some (mh, mlines))
    (hids : mlines.filterMap detectorMatch ≠ []) :
    getSection (addDetectorExclusions baseSecs mergeSecs) (chars "cell")
      = some (bh, blines.map
          (airLineUpdate (exclusionStr (mlines.filterMap detectorMatch)))) ∧
    (∀ (excl l : List Char), air1000Match l = false →
      airLineUpdate excl l = l) ∧
    (∀ (ids : List ℕ) (l : List Char), air1000Match l = true →
      airLineUpdate (exclusionStr ids) l
        = rstrip (splitDollarFirst l).1 ++ ' ' :: (exclusionStr ids ++
            (match (splitDollarFirst l).2 with
             | some c => chars " $ " ++ pyStrip c
             | none => []))) ∧
    (∀ (finalSecs : Sections) (k : List Char) (ks written : List (List Char))
        (hd : List Char) (ls : List (List Char)),
      k ∉ written → getSection finalSecs k = some (hd, ls) →
      (emitKeys finalSecs (k :: ks) written).1
        = (hd :: ((ls.filter (fun l => pyStrip l ≠ [])) ++ [[]]))
            ++ (emitKeys finalSecs ks (k :: written)).1) := by
  refine ⟨?_, ?_, ?_, ?_⟩
  · unfold addDetectorExclusions
    rw [hm, hb]
    simp only
    rw [if_neg hids]
    exact getSection_setSection baseSecs (chars "cell") _
  · intro excl l hfalse
    unfold airLineUpdate
    rw [hfalse]
    simp
  · intro ids l htrue
    unfold airLineUpdate
    rw [htrue]
    simp
  · intro finalSecs k ks written hd ls hkw hsec
    rw [emitKeys]
    rw [if_neg hkw]
    rw [hsec]

/-- Claim C10, witness: the exclusion step applied to the concrete
blank-line scenario — the air cell gains `#50`, the whitespace-only line
and the ordinary line are unchanged at this phase. -/
theorem merge_air_cell_exclusion_frame_witness :
    getSection
        (addDetectorExclusions
          (_parse (docOf ["[ C e l l ]",
            "  1000   1  -1.20E-3  -998    $ Air region", "   ",
            "  9000  -1            998"]))
          (_parse (docOf ["[ C e l l ]", "  50  2  -1.0  -5 trcl=1"])))
        (chars "cell")
      = some (chars "[ C e l l ]",
          docOf ["  1000   1  -1.20E-3  -998 #50 $ Air region", "   ",
            "  9000  -1            998"]) := by
  have h := (merge_air_cell_exclusion_frame
    (_parse (docOf ["[ C e l l ]",
      "  1000   1  -1.20E-3  -998    $ Air region", "   ",
      "  9000  -1            998"]))
    (_parse (docOf ["[ C e l l ]", "  50  2  -1.0  -5 trcl=1"]))
    (chars "[ C e l l ]") (chars "[ C e l l ]")
    (docOf ["  1000   1  -1.20E-3  -998    $ Air region", "   ",
      "  9000  -1            998"])
    (docOf ["  50  2  -1.0  -5 trcl=1"])
    rfl rfl (by decide)).1
  exact h.trans (by rfl)

/-- Claim C10, counterexample to the frozen statement: a whitespace-only
line of the base cell section is not emitted at all in the merged output
(the renderer keeps only lines with non-empty `strip()`), so not every
non-air base cell-section line is emitted character-for-character
unchanged. -/
theorem merge_drops_blank_base_cell_line :
    merge
        (docOf ["[ C e l l ]", "  1000   1  -1.20E-3  -998    $ Air region",
          "   ", "  9000  -1            998"])
        (docOf ["[ C e l l ]", "  50  2  -1.0  -5 trcl=1"])
      = docOf ["[ C e l l ]", "  50 2 -1.0 -5 trcl=1",
          "  1000   1  -1.20E-3  -998 #50 $ Air region",
          "  9000  -1            998", ""] ∧
    detectorMatch (chars "  50 2 -1.0 -5 trcl=1") = some 50 ∧
    chars "   " ∈
      docOf ["[ C e l l ]", "  1000   1  -1.20E-3  -998    $ Air region",
        "   ", "  9000  -1            998"] ∧
    chars "   " ∉
      merge
        (docOf ["[ C e l l ]", "  1000   1  -1.20E-3  -998    $ Air region",
          "   ", "  9000  -1            998"])
        (docOf ["[ C e l l ]", "  50  2  -1.0  -5 trcl=1"]) :=
  ⟨rfl, rfl, by decide, by decide⟩

/-! ### Order properties of the entry comparison -/

lemma cellLT_irrefl (a : Cell) : cellLT a a = false := by
  simp [cellLT]

lemma cellLT_trans {a b c : Cell} (h1 : cellLT a b = true)
    (h2 : cellLT b c = true) : cellLT a c = true := by
  simp only [cellLT, Bool.or_eq_true, Bool.and_eq_true, decide_eq_true_eq] at *
  rcases h1 with h1 | ⟨h1e, h1lt⟩ <;> rcases h2 with h2 | ⟨h2e, h2lt⟩
  · exact Or.inl (h1.trans h2)
  · exact Or.inl (h2e ▸ h1)
  · exact Or.inl (h1e ▸ h2)
  · exact Or.inr ⟨h1e.trans h2e, h1lt.trans h2lt⟩

lemma cellLT_tri (a b : Cell) :
    cellLT a b = true ∨ a = b ∨ cellLT b a = true := by
  simp only [cellLT, Bool.or_eq_true, Bool.and_eq_true, decide_eq_true_eq]
  rcases lt_trichotomy a.1 b.1 with h | h | h
  · exact Or.inl (Or.inl h)
  · rcases lt_trichotomy a.2 b.2 with h2 | h2 | h2
    · exact Or.inl (Or.inr ⟨h, h2⟩)
    · exact Or.inr (Or.inl (Prod.ext h h2))
    · exact Or.inr (Or.inr (Or.inr ⟨h.symm, h2⟩))
  · exact Or.inr (Or.inr (Or.inl h))

lemma pathLT_irrefl : ∀ p : List Cell, pathLT p p = false
  | [] => rfl
  | a :: as => by
    simp only [pathLT, if_pos rfl]
    exact pathLT_irrefl as

lemma pathLT_trans : ∀ {p q r : List Cell}, pathLT p q = true →
    pathLT q r = true → pathLT p r = true
  | [], [], _, h1, _ => by simp [pathLT] at h1
  | [], _ :: _, [], _, h2 => by simp [pathLT] at h2
  | [], _ :: _, _ :: _, _, _ => rfl
  | _ :: _, [], _, h1, _ => by simp [pathLT] at h1
  | _ :: _, _ :: _, [], _, h2 => by simp [pathLT] at h2
  | a :: as, b :: bs, c :: cs, h1, h2 => by
    simp only [pathLT] at *
    by_cases hab : a = b
    · subst hab
      rw [if_pos rfl] at h1
      by_cases hac : a = c
      · subst hac
        rw [if_pos rfl] at h2 ⊢
        exact pathLT_trans h1 h2
      · rw [if_neg hac] at h2 ⊢
        exact h2
    · rw [if_neg hab] at h1
      by_cases hbc : b = c
      · subst hbc
        rw [if_neg hab]
        exact h1
      · rw [if_neg hbc] at h2
        by_cases hac : a = c
        · subst hac
          exact absurd (cellLT_trans h1 h2) (by rw [cellLT_irrefl]; simp)
        · rw [if_neg hac]
          exact cellLT_trans h1 h2

lemma pathLT_tri : ∀ p q : List Cell,
    pathLT p q = true ∨ p = q ∨ pathLT q p = true
  | [], [] => Or.inr (Or.inl rfl)
  | [], _ :: _ => Or.inl rfl
  | _ :: _, [] => Or.inr (Or.inr rfl)
  | a :: as, b :: bs => by
    by_cases hab : a = b
    · subst hab
      simp only [pathLT, if_pos rfl]
      rcases pathLT_tri as bs with h | h | h
      · exact Or.inl h
      · exact Or.inr (Or.inl (by rw [h]))
      · exact Or.inr (Or.inr h)
    · rcases cellLT_tri a b with h | h | h
      · refine Or.inl ?_
        show (if a = b then pathLT as bs else cellLT a b) = true
        rw [if_neg hab]; exact h
      · exact absurd h hab
      · refine Or.inr (Or.inr ?_)
        show (if b = a then pathLT bs as else cellLT b a) = true
        rw [if_neg (fun hh => hab hh.symm)]; exact h

lemma entryLT_irrefl (x : Entry) : entryLT x x = false := by
  simp only [entryLT, if_pos rfl]
  exact pathLT_irrefl _

lemma entryLT_trans {x y z : Entry} (h1 : entryLT x y = true)
    (h2 : entryLT y z = true) : entryLT x z = true := by
  simp only [entryLT] at *
  by_cases hxy : x.1 = y.1
  · rw [if_pos hxy] at h1
    by_cases hyz : y.1 = z.1
    · rw [if_pos hyz] at h2
      rw [if_pos (hxy.trans hyz)]
      by_cases cxy : x.2.1 = y.2.1
      · rw [if_pos cxy] at h1
        by_cases cyz : y.2.1 = z.2.1
        · rw [if_pos cyz] at h2
          rw [if_pos (cxy.trans cyz)]
          by_cases pxy : x.2.2.1 = y.2.2.1
          · rw [if_pos pxy] at h1
            by_cases pyz : y.2.2.1 = z.2.2.1
            · rw [if_pos pyz] at h2
              rw [if_pos (pxy.trans pyz)]
              exact pathLT_trans h1 h2
            · rw [if_neg pyz] at h2
              rw [if_neg (pxy ▸ pyz), pxy]
              exact h2
          · rw [if_neg pxy] at h1
            by_cases pyz : y.2.2.1 = z.2.2.1
            · rw [if_neg (pyz ▸ pxy), ← pyz]
              exact h1
            · rw [if_neg pyz] at h2
              by_cases pxz : x.2.2.1 = z.2.2.1
              · exact absurd (cellLT_trans h1 h2)
                  (by rw [pxz, cellLT_irrefl]; simp)
              · rw [if_neg pxz]
                exact cellLT_trans h1 h2
        · rw [if_neg cyz] at h2
          rw [if_neg (cxy ▸ cyz), cxy]
          exact h2
      · rw [if_neg cxy] at h1
        by_cases cyz : y.2.1 = z.2.1
        · rw [if_neg (cyz ▸ cxy), ← cyz]
          exact h1
        · rw [if_neg cyz] at h2
          simp only [decide_eq_true_eq] at h1 h2
          by_cases cxz : x.2.1 = z.2.1
          · exact absurd (h1.trans h2) (by rw [cxz]; exact lt_irrefl _)
          · rw [if_neg cxz]
            simp only [decide_eq_true_eq]
            exact h1.trans h2
    · rw [if_neg hyz] at h2
      rw [if_neg (hxy ▸ hyz), hxy]
      exact h2
  · rw [if_neg hxy] at h1
    by_cases hyz : y.1 = z.1
    · rw [if_neg (hyz ▸ hxy), ← hyz]
      exact h1
    · rw [if_neg hyz] at h2
      simp only [decide_eq_true_eq] at h1 h2
      by_cases hxz : x.1 = z.1
      · exact absurd (h1.trans h2) (by rw [hxz]; exact lt_irrefl _)
      · rw [if_neg hxz]
        simp only [decide_eq_true_eq]
        exact h1.trans h2

lemma entryLT_tri (x y : Entry) :
    entryLT x y = true ∨ x = y ∨ entryLT y x = true := by
  simp only [entryLT]
  by_cases hxy : x.1 = y.1
  · rw [if_pos hxy, if_pos hxy.symm]
    by_cases cxy : x.2.1 = y.2.1
    · rw [if_pos cxy, if_pos cxy.symm]
      by_cases pxy : x.2.2.1 = y.2.2.1
      · rw [if_pos pxy, if_pos pxy.symm]
        rcases pathLT_tri x.2.2.2 y.2.2.2 with h | h | h
        · exact Or.inl h
        · exact Or.inr (Or.inl (Prod.ext hxy (Prod.ext cxy (Prod.ext pxy h))))
        · exact Or.inr (Or.inr h)
      · rw [if_neg pxy, if_neg (fun h => pxy h.symm)]
        rcases cellLT_tri x.2.2.1 y.2.2.1 with h | h | h
        · exact Or.inl h
        · exact absurd h pxy
        · exact Or.inr (Or.inr h)
    · rw [if_neg cxy, if_neg (fun h => cxy h.symm)]
      rcases lt_trichotomy x.2.1 y.2.1 with h | h | h
      · exact Or.inl (by simpa using h)
      · exact absurd h cxy
      · exact Or.inr (Or.inr (by simpa using h))
  · rw [if_neg hxy, if_neg (fun h => hxy h.symm)]
    rcases lt_trichotomy x.1 y.1 with h | h | h
    · exact Or.inl (by simpa using h)
    · exact absurd h hxy
    · exact Or.inr (Or.inr (by simpa using h))

lemma entryLT_asymm {x y : Entry} (h : entryLT x y = true) :
    entryLT y x = false := by
  by_contra hc
  rw [Bool.not_eq_false] at hc
  have := entryLT_trans h hc
  rw [entryLT_irrefl] at this
  exact Bool.false_ne_true this

lemma entryLT_negtrans {x y z : Entry} (h1 : entryLT x y = false)
    (h2 : entryLT y z = false) : entryLT x z = false := by
  by_contra hc
  rw [Bool.not_eq_false] at hc
  rcases entryLT_tri x y with hxy | hxy | hxy
  · rw [hxy] at h1; exact Bool.false_ne_true h1.symm
  · subst hxy
    rw [hc] at h2
    exact Bool.false_ne_true h2.symm
  · rcases entryLT_tri y z with hyz | hyz | hyz
    · rw [hyz] at h2; exact Bool.false_ne_true h2.symm
    · subst hyz
      rw [hc] at h1
      exact Bool.false_ne_true h1.symm
    · have := entryLT_trans hyz hxy
      have h3 := entryLT_asymm hc
      rw [h3] at this
      exact Bool.false_ne_true this

lemma entryLT_false_fst_le {x e : Entry} (h : entryLT x e = false) :
    e.1 ≤ x.1 := by
  simp only [entryLT] at h
  by_cases hx : x.1 = e.1
  · exact le_of_eq hx.symm
  · rw [if_neg hx] at h
    simp only [decide_eq_false_iff_not, not_lt] at h
    exact h

/-! ### List index helpers for the heap proofs -/

lemma getD_set_self {E : Type} :
    ∀ (l : List E) (i : ℕ) (v d : E), i < l.length → (l.set i v).getD i d = v
  | [], i, v, d, h => absurd h (by simp)
  | _ :: _, 0, _, _, _ => rfl
  | _ :: t, i + 1, v, d, h => getD_set_self t i v d (by simpa using h)

lemma getD_set_ne {E : Type} :
    ∀ (l : List E) (i j : ℕ) (v d : E), i ≠ j →
      (l.set i v).getD j d = l.getD j d
  | [], _, _, _, _, _ => by simp [List.getD]
  | _ :: _, 0, 0, _, _, hij => absurd rfl hij
  | _ :: _, 0, _ + 1, _, _, _ => rfl
  | _ :: _, _ + 1, 0, _, _, _ => rfl
  | _ :: t, i + 1, j + 1, v, d, hij =>
    getD_set_ne t i j v d (fun h => hij (by rw [h]))

lemma getD_irrel {E : Type} :
    ∀ (l : List E) (i : ℕ) (d d' : E), i < l.length → l.getD i d = l.getD i d'
  | [], _, _, _, h => absurd h (by simp)
  | _ :: _, 0, _, _, _ => rfl
  | _ :: t, i + 1, d, d', h => getD_irrel t i d d' (by simpa using h)

lemma getD_append_lt {E : Type} :
    ∀ (l r : List E) (i : ℕ) (d : E), i < l.length →
      (l ++ r).getD i d = l.getD i d
  | [], _, _, _, h => absurd h (by simp)
  | _ :: _, _, 0, _, _ => rfl
  | _ :: t, r, i + 1, d, h => getD_append_lt t r i d (by simpa using h)

lemma getD_append_len {E : Type} :
    ∀ (l : List E) (x d : E), (l ++ [x]).getD l.length d = x
  | [], _, _ => rfl
  | _ :: t, x, d => getD_append_len t x d

lemma set_append_len {E : Type} :
    ∀ (l : List E) (x y : E), (l ++ [x]).set l.length y = l ++ [y]
  | [], _, _ => rfl
  | a :: t, x, y => by
    simp only [List.cons_append, List.length_cons, List.set_cons_succ]
    rw [set_append_len t x y]

lemma getD_dropLast {E : Type} :
    ∀ (l : List E) (i : ℕ) (d : E), i + 1 < l.length →
      l.dropLast.getD i d = l.getD i d
  | [], _, _, h => absurd h (by simp)
  | [_], _, _, h => by simp at h
  | _ :: _ :: _, 0, _, _ => rfl
  | a :: b :: t, i + 1, d, h => by
    show (b :: t).dropLast.getD i d = (b :: t).getD i d
    exact getD_dropLast (b :: t) i d (by simpa using h)

lemma getD_of_mem {E : Type} {x : E} :
    ∀ {l : List E}, x ∈ l → ∀ d : E, ∃ i, i < l.length ∧ l.getD i d = x := by
  intro l hx d
  induction l with
  | nil => simp at hx
  | cons a t ih =>
    rcases List.mem_cons.mp hx with rfl | hx'
    · exact ⟨0, by simp, rfl⟩
    · obtain ⟨i, hi, hg⟩ := ih hx'
      exact ⟨i + 1, by simpa using hi, hg⟩

lemma cons_set_perm {E : Type} :
    ∀ (t : List E) (m : ℕ) (v d : E), m < t.length →
      List.Perm (t.getD m d :: t.set m v) (v :: t)
  | [], m, _, _, h => absurd h (by simp)
  | b :: s, 0, v, d, _ => List.Perm.swap v b s
  | b :: s, m + 1, v, d, h => by
    show List.Perm (s.getD m d :: b :: s.set m v) (v :: b :: s)
    exact (List.Perm.swap b _ _).trans
      ((List.Perm.cons b (cons_set_perm s m v d (by simpa using h))).trans
        (List.Perm.swap v b s))

lemma set_cons_perm {E : Type} :
    ∀ (t : List E) (m : ℕ) (a v : E), m < t.length →
      List.Perm (v :: t.set m a) (a :: t.set m v)
  | [], m, _, _, h => absurd h (by simp)
  | b :: s, 0, a, v, _ => List.Perm.swap a v s
  | b :: s, m + 1, a, v, h => by
    show List.Perm (v :: b :: s.set m a) (a :: b :: s.set m v)
    exact (List.Perm.swap b v _).trans
      ((List.Perm.cons b (set_cons_perm s m a v (by simpa using h))).trans
        (List.Perm.swap a b _))

lemma set_set_perm {E : Type} :
    ∀ (l : List E) (i j : ℕ) (v d : E), i < l.length → j < l.length → i ≠ j →
      List.Perm ((l.set i (l.getD j d)).set j v) (l.set i v)
  | [], _, _, _, _, hi, _, _ => absurd hi (by simp)
  | a :: t, 0, 0, _, _, _, _, hij => absurd rfl hij
  | a :: t, 0, m + 1, v, d, _, hj, _ => by
    show List.Perm (t.getD m d :: t.set m v) (v :: t)
    exact cons_set_perm t m v d (by simpa using hj)
  | a :: t, m + 1, 0, v, d, hi, _, _ => by
    show List.Perm (v :: t.set m a) (a :: t.set m v)
    exact set_cons_perm t m a v (by simpa using hi)
  | a :: t, i + 1, j + 1, v, d, hi, hj, hij => by
    show List.Perm (a :: (t.set i (t.getD j d)).set j v) (a :: t.set i v)
    exact List.Perm.cons a
      (set_set_perm t i j v d (by simpa using hi) (by simpa using hj)
        (fun h => hij (by rw [h])))

/-! ### Heap-order lemmas for the embedded heapq -/

lemma heap_le_root {E : Type} [Inhabited E] (lt : E → E → Bool)
    (hirr : ∀ a, lt a a = false)
    (hnt : ∀ a b c, lt a b = false → lt b c = false → lt a c = false)
    (l : List E) (hh : IsHeap lt l) :
    ∀ i, i < l.length → lt (l.getD i default) (l.getD 0 default) = false := by
  intro i
  induction i using Nat.strong_induction_on with
  | _ i ih =>
    intro hi
    rcases Nat.eq_zero_or_pos i with rfl | hpos
    · exact hirr _
    · have hp := hh i hpos hi
      have hpar : (i - 1) / 2 < i := by omega
      exact hnt _ _ _ hp (ih _ hpar (Nat.lt_trans hpar hi))

lemma heap_root_min {E : Type} [Inhabited E] (lt : E → E → Bool)
    (hirr : ∀ a, lt a a = false)
    (hnt : ∀ a b c, lt a b = false → lt b c = false → lt a c = false)
    (l : List E) (hh : IsHeap lt l) :
    ∀ x ∈ l, lt x (l.getD 0 default) = false := by
  intro x hx
  obtain ⟨i, hi, hg⟩ := getD_of_mem hx default
  rw [← hg]
  exact heap_le_root lt hirr hnt l hh i hi

/-! ### The sift specifications -/

lemma sd_write {E : Type} [Inhabited E] (lt : E → E → Bool)
    (pos : ℕ) (h : List E) (newitem : E) (hpos : pos < h.length)
    (hedge : ∀ i, 0 < i → i < h.length → i ≠ pos → (i - 1) / 2 ≠ pos →
      lt (h.getD i default) (h.getD ((i - 1) / 2) default) = false)
    (hchild : ∀ i, 0 < i → i < h.length → (i - 1) / 2 = pos →
      lt (h.getD i default) newitem = false)
    (hparent : 0 < pos → lt newitem (h.getD ((pos - 1) / 2) default) = false) :
    IsHeap lt (h.set pos newitem) := by
  intro i hi hilen
  rw [List.length_set] at hilen
  by_cases hip : i = pos
  · subst hip
    rw [getD_set_self h i newitem default hilen]
    rw [getD_set_ne h i ((i - 1) / 2) newitem default
      (fun hh => absurd hh.symm (by omega))]
    exact hparent hi
  · rw [getD_set_ne h pos i newitem default (fun hh => hip hh.symm)]
    by_cases hpar : (i - 1) / 2 = pos
    · rw [hpar, getD_set_self h pos newitem default hpos]
      exact hchild i hi hilen hpar
    · rw [getD_set_ne h pos ((i - 1) / 2) newitem default
        (fun hh => hpar hh.symm)]
      exact hedge i hi hilen hip hpar

lemma sd_spec {E : Type} [Inhabited E] (lt : E → E → Bool)
    (ht : ∀ a b c, lt a b = true → lt b c = true → lt a c = true)
    (ha : ∀ a b, lt a b = true → lt b a = false)
    (hnt : ∀ a b c, lt a b = false → lt b c = false → lt a c = false) :
    ∀ (fuel pos : ℕ) (h : List E) (newitem : E),
      pos < h.length → pos ≤ fuel →
      (∀ i, 0 < i → i < h.length → i ≠ pos → (i - 1) / 2 ≠ pos →
        lt (h.getD i default) (h.getD ((i - 1) / 2) default) = false) →
      (∀ i, 0 < i → i < h.length → (i - 1) / 2 = pos →
        lt (h.getD i default) newitem = false) →
      (0 < pos → ∀ i, 0 < i → i < h.length → (i - 1) / 2 = pos →
        lt (h.getD i default) (h.getD ((pos - 1) / 2) default) = false) →
      IsHeap lt (sd lt newitem fuel h 0 pos) ∧
        List.Perm (sd lt newitem fuel h 0 pos) (h.set pos newitem) := by
  intro fuel
  induction fuel with
  | zero =>
    intro pos h newitem hpos hfuel hedge hchild _
    have hp0 : pos = 0 := Nat.le_zero.mp hfuel
    subst hp0
    simp only [sd]
    exact ⟨sd_write lt 0 h newitem hpos hedge hchild (by omega),
      List.Perm.refl _⟩
  | succ fuel ih =>
    intro pos h newitem hpos hfuel hedge hchild hpc
    simp only [sd]
    by_cases hp0 : 0 < pos
    · rw [if_pos hp0]
      have hpplt : (pos - 1) / 2 < pos := by omega
      have hpplen : (pos - 1) / 2 < h.length := Nat.lt_trans hpplt hpos
      have hpar_eq : h.getD ((pos - 1) / 2) newitem
          = h.getD ((pos - 1) / 2) default :=
        getD_irrel h ((pos - 1) / 2) newitem default hpplen
      by_cases hlt : lt newitem (h.getD ((pos - 1) / 2) newitem) = true
      · rw [if_pos hlt]
        have hlt' : lt newitem (h.getD ((pos - 1) / 2) default) = true := by
          rw [← hpar_eq]; exact hlt
        have hXval : ∀ j, j ≠ pos →
            (h.set pos (h.getD ((pos - 1) / 2) newitem)).getD j default
              = h.getD j default := fun j hj =>
          getD_set_ne h pos j _ default (fun hh => hj hh.symm)
        have hXpos : (h.set pos (h.getD ((pos - 1) / 2) newitem)).getD pos default
            = h.getD ((pos - 1) / 2) newitem :=
          getD_set_self h pos _ default hpos
        have hmain := ih ((pos - 1) / 2)
          (h.set pos (h.getD ((pos - 1) / 2) newitem)) newitem
          (by rw [List.length_set]; exact hpplen) (by omega) ?_ ?_ ?_
        · refine ⟨hmain.1, hmain.2.trans ?_⟩
          exact set_set_perm h pos ((pos - 1) / 2) newitem newitem hpos hpplen
            (by omega)
        · -- hedge for the recursive call
          intro i hi hilen hipp hjpp
          rw [List.length_set] at hilen
          by_cases hip : i = pos
          · exact absurd (by rw [hip]) hjpp
          · rw [hXval i hip]
            by_cases hjp : (i - 1) / 2 = pos
            · rw [hjp, hXpos, hpar_eq]
              exact hpc hp0 i hi hilen hjp
            · rw [hXval _ hjp]
              exact hedge i hi hilen hip hjp
        · -- hchild for the recursive call
          intro i hi hilen hjpp
          rw [List.length_set] at hilen
          by_cases hip : i = pos
          · rw [hip, hXpos]
            exact ha _ _ hlt
          · rw [hXval i hip]
            have hedgei := hedge i hi hilen hip (by omega)
            rw [hjpp] at hedgei
            by_contra hc
            rw [Bool.not_eq_false] at hc
            have := ht _ _ _ hc hlt'
            rw [this] at hedgei
            exact Bool.false_ne_true hedgei.symm
        · -- hpc for the recursive call
          intro hpp0 i hi hilen hjpp
          rw [List.length_set] at hilen
          have hpp2 : ((pos - 1) / 2 - 1) / 2 ≠ pos := by omega
          by_cases hip : i = pos
          · rw [hip, hXpos, hXval _ hpp2, hpar_eq]
            exact hedge ((pos - 1) / 2) hpp0 hpplen (by omega) hpp2
          · rw [hXval i hip, hXval _ hpp2]
            have h1 := hedge i hi hilen hip (by omega)
            rw [hjpp] at h1
            have h2 := hedge ((pos - 1) / 2) hpp0 hpplen (by omega) hpp2
            exact hnt _ _ _ h1 h2
      · rw [if_neg hlt]
        have hltf : lt newitem (h.getD ((pos - 1) / 2) default) = false := by
          rw [← hpar_eq]
          exact Bool.eq_false_iff.mpr hlt
        exact ⟨sd_write lt pos h newitem hpos hedge hchild (fun _ => hltf),
          List.Perm.refl _⟩
    · rw [if_neg hp0]
      exact ⟨sd_write lt pos h newitem hpos hedge hchild
        (fun hh => absurd hh hp0), List.Perm.refl _⟩

lemma su_leaf {E : Type} [Inhabited E] (lt : E → E → Bool)
    (ht : ∀ a b c, lt a b = true → lt b c = true → lt a c = true)
    (ha : ∀ a b, lt a b = true → lt b a = false)
    (hnt : ∀ a b c, lt a b = false → lt b c = false → lt a c = false)
    (pos : ℕ) (h : List E) (newitem : E)
    (hpos : pos < h.length) (hleaf : ¬ 2 * pos + 1 < h.length)
    (hedge : ∀ i, 0 < i → i < h.length → i ≠ pos → (i - 1) / 2 ≠ pos →
      lt (h.getD i default) (h.getD ((i - 1) / 2) default) = false) :
    IsHeap lt (sd lt newitem pos h 0 pos) ∧
      List.Perm (sd lt newitem pos h 0 pos) (h.set pos newitem) :=
  sd_spec lt ht ha hnt pos pos h newitem hpos le_rfl hedge
    (fun i _ hilen hj => absurd hilen (by omega))
    (fun _ i _ hilen hj => absurd hilen (by omega))

lemma su_step {E : Type} [Inhabited E] (lt : E → E → Bool)
    (_ht : ∀ a b c, lt a b = true → lt b c = true → lt a c = true)
    (_ha : ∀ a b, lt a b = true → lt b a = false)
    (_hnt : ∀ a b c, lt a b = false → lt b c = false → lt a c = false)
    (fuel pos cp : ℕ) (h : List E) (newitem : E)
    (hpos : pos < h.length) (hfuel : h.length ≤ fuel + 1 + pos + 1)
    (hedge : ∀ i, 0 < i → i < h.length → i ≠ pos → (i - 1) / 2 ≠ pos →
      lt (h.getD i default) (h.getD ((i - 1) / 2) default) = false)
    (hpc : 0 < pos → ∀ i, 0 < i → i < h.length → (i - 1) / 2 = pos →
      lt (h.getD i default) (h.getD ((pos - 1) / 2) default) = false)
    (hcpr : 2 * pos + 1 ≤ cp ∧ cp ≤ 2 * pos + 2)
    (hcplen : cp < h.length)
    (hsib : ∀ s, 2 * pos + 1 ≤ s ∧ s ≤ 2 * pos + 2 ∧ s ≠ cp → s < h.length →
      lt (h.getD s default) (h.getD cp default) = false)
    (ih : ∀ (pos : ℕ) (h : List E) (newitem : E),
      pos < h.length → h.length ≤ fuel + pos + 1 →
      (∀ i, 0 < i → i < h.length → i ≠ pos → (i - 1) / 2 ≠ pos →
        lt (h.getD i default) (h.getD ((i - 1) / 2) default) = false) →
      (0 < pos → ∀ i, 0 < i → i < h.length → (i - 1) / 2 = pos →
        lt (h.getD i default) (h.getD ((pos - 1) / 2) default) = false) →
      IsHeap lt (su lt newitem fuel h 0 pos) ∧
        List.Perm (su lt newitem fuel h 0 pos) (h.set pos newitem)) :
    IsHeap lt (su lt newitem fuel (h.set pos (h.getD cp newitem)) 0 cp) ∧
      List.Perm (su lt newitem fuel (h.set pos (h.getD cp newitem)) 0 cp)
        (h.set pos newitem) := by
  have hcpd : h.getD cp newitem = h.getD cp default :=
    getD_irrel h cp newitem default hcplen
  have hXval : ∀ j, j ≠ pos →
      (h.set pos (h.getD cp newitem)).getD j default = h.getD j default :=
    fun j hj => getD_set_ne h pos j _ default (fun hh => hj hh.symm)
  have hXpos : (h.set pos (h.getD cp newitem)).getD pos default
      = h.getD cp newitem := getD_set_self h pos _ default hpos
  have hmain := ih cp (h.set pos (h.getD cp newitem)) newitem
    (by rw [List.length_set]; exact hcplen)
    (by rw [List.length_set]; omega) ?he ?hp
  · refine ⟨hmain.1, hmain.2.trans ?_⟩
    exact set_set_perm h pos cp newitem newitem hpos hcplen (by omega)
  case he =>
    intro i hi hilen hicp hjcp
    rw [List.length_set] at hilen
    by_cases hip : i = pos
    · subst hip
      rw [hXpos, hXval ((i - 1) / 2) (by omega), hcpd]
      exact hpc hi cp (by omega) hcplen (by omega)
    · rw [hXval i hip]
      by_cases hjp : (i - 1) / 2 = pos
      · rw [hjp, hXpos, hcpd]
        exact hsib i ⟨by omega, by omega, hicp⟩ hilen
      · rw [hXval _ hjp]
        exact hedge i hi hilen hip hjp
  case hp =>
    intro hcp0 i hi hilen hjcp
    rw [List.length_set] at hilen
    have hipne : i ≠ pos := by omega
    rw [hXval i hipne, show (cp - 1) / 2 = pos from by omega, hXpos, hcpd]
    have hei := hedge i hi hilen hipne (by omega)
    rw [hjcp] at hei
    exact hei

lemma su_spec {E : Type} [Inhabited E] (lt : E → E → Bool)
    (ht : ∀ a b c, lt a b = true → lt b c = true → lt a c = true)
    (ha : ∀ a b, lt a b = true → lt b a = false)
    (hnt : ∀ a b c, lt a b = false → lt b c = false → lt a c = false) :
    ∀ (fuel pos : ℕ) (h : List E) (newitem : E),
      pos < h.length → h.length ≤ fuel + pos + 1 →
      (∀ i, 0 < i → i < h.length → i ≠ pos → (i - 1) / 2 ≠ pos →
        lt (h.getD i default) (h.getD ((i - 1) / 2) default) = false) →
      (0 < pos → ∀ i, 0 < i → i < h.length → (i - 1) / 2 = pos →
        lt (h.getD i default) (h.getD ((pos - 1) / 2) default) = false) →
      IsHeap lt (su lt newitem fuel h 0 pos) ∧
        List.Perm (su lt newitem fuel h 0 pos) (h.set pos newitem) := by
  intro fuel
  induction fuel with
  | zero =>
    intro pos h newitem hpos hfuel hedge _
    simp only [su]
    exact su_leaf lt ht ha hnt pos h newitem hpos (by omega) hedge
  | succ fuel ih =>
    intro pos h newitem hpos hfuel hedge hpc
    simp only [su]
    by_cases hloop : 2 * pos + 1 < h.length
    · rw [if_pos hloop]
      by_cases hcond : 2 * pos + 1 + 1 < h.length ∧
          ¬(lt (h.getD (2 * pos + 1) newitem) (h.getD (2 * pos + 1 + 1) newitem)
            = true)
      · rw [if_pos hcond]
        exact su_step lt ht ha hnt fuel pos (2 * pos + 1 + 1) h newitem hpos
          hfuel hedge hpc (by omega) hcond.1
          (fun s hs hslen => by
            have hs' : s = 2 * pos + 1 := by omega
            subst hs'
            have := Bool.eq_false_iff.mpr hcond.2
            rw [getD_irrel h (2 * pos + 1) newitem default hloop,
              getD_irrel h (2 * pos + 1 + 1) newitem default hcond.1] at this
            exact this) ih
      · rw [if_neg hcond]
        exact su_step lt ht ha hnt fuel pos (2 * pos + 1) h newitem hpos
          hfuel hedge hpc (by omega) hloop
          (fun s hs hslen => by
            have hs' : s = 2 * pos + 1 + 1 := by omega
            subst hs'
            rcases Decidable.not_and_iff_or_not.mp hcond with hc | hc
            · exact absurd hslen hc
            · have hc' := Decidable.not_not.mp hc
              rw [getD_irrel h (2 * pos + 1) newitem default hloop,
                getD_irrel h (2 * pos + 1 + 1) newitem default hslen] at hc'
              exact ha _ _ hc') ih
    · rw [if_neg hloop]
      exact su_leaf lt ht ha hnt pos h newitem hpos hloop hedge

lemma eq_dropLast_append_pyLast {α : Type} [Inhabited α] :
    ∀ (l : List α), l ≠ [] → l = l.dropLast ++ [pyLast l]
  | [], h => absurd rfl h
  | [_], _ => rfl
  | a :: b :: t, _ => by
    show a :: b :: t = (a :: b :: t).dropLast ++ [pyLast (a :: b :: t)]
    rw [show (a :: b :: t).dropLast = a :: (b :: t).dropLast from rfl,
      pyLast_cons_cons, List.cons_append]
    exact congrArg (a :: ·) (eq_dropLast_append_pyLast (b :: t) (by simp))

lemma heappush_full {E : Type} [Inhabited E] (lt : E → E → Bool)
    (ht : ∀ a b c, lt a b = true → lt b c = true → lt a c = true)
    (ha : ∀ a b, lt a b = true → lt b a = false)
    (hnt : ∀ a b c, lt a b = false → lt b c = false → lt a c = false)
    (heap : List E) (item : E) (hh : IsHeap lt heap) :
    IsHeap lt (heappush lt heap item) ∧
      List.Perm (heappush lt heap item) (item :: heap) := by
  unfold heappush
  have hlen : (heap ++ [item]).length = heap.length + 1 := by simp
  have hspec := sd_spec lt ht ha hnt heap.length heap.length (heap ++ [item])
    item (by simp) le_rfl ?hedge ?hchild ?hpc
  · refine ⟨hspec.1, hspec.2.trans ?_⟩
    rw [set_append_len heap item item]
    exact List.perm_append_singleton item heap
  case hedge =>
    intro i hi hilen hip hjp
    rw [hlen] at hilen
    have hil : i < heap.length := by omega
    have hjl : (i - 1) / 2 < heap.length := by omega
    rw [getD_append_lt heap [item] i default hil,
      getD_append_lt heap [item] ((i - 1) / 2) default hjl]
    exact hh i hi hil
  case hchild =>
    intro i hi hilen hj
    rw [hlen] at hilen
    exact absurd hilen (by omega)
  case hpc =>
    intro _ i hi hilen hj
    rw [hlen] at hilen
    exact absurd hilen (by omega)

lemma heappop_full {E : Type} [Inhabited E] (lt : E → E → Bool)
    (hirr : ∀ a, lt a a = false)
    (ht : ∀ a b c, lt a b = true → lt b c = true → lt a c = true)
    (ha : ∀ a b, lt a b = true → lt b a = false)
    (hnt : ∀ a b c, lt a b = false → lt b c = false → lt a c = false)
    (q : List E) (e : E) (q' : List E) (hh : IsHeap lt q)
    (hpop : heappop lt q = some (e, q')) :
    (∀ x ∈ q, lt x e = false) ∧ List.Perm q (e :: q') ∧ IsHeap lt q' := by
  cases q with
  | nil => simp [heappop] at hpop
  | cons a as =>
    rw [heappop] at hpop
    cases hdl : (a :: as).dropLast with
    | nil =>
      rw [hdl] at hpop
      simp only [Option.some.injEq, Prod.mk.injEq] at hpop
      obtain ⟨rfl, rfl⟩ := hpop
      have has : as = [] := by
        cases as with
        | nil => rfl
        | cons b t =>
          rw [show (a :: b :: t).dropLast = a :: (b :: t).dropLast from rfl]
            at hdl
          exact absurd hdl (by simp)
      subst has
      refine ⟨?_, List.Perm.refl _, fun i hi hilen => absurd hilen (by simp)⟩
      intro x hx
      rcases List.mem_singleton.mp hx with rfl
      exact hirr x
    | cons r0 rs =>
      rw [hdl] at hpop
      simp only [Option.some.injEq, Prod.mk.injEq] at hpop
      obtain ⟨rfl, rfl⟩ := hpop
      set L := pyLast (a :: as) with hLdef
      have hr0 : r0 = a := by
        cases as with
        | nil => simp at hdl
        | cons b t =>
          rw [show (a :: b :: t).dropLast = a :: (b :: t).dropLast from rfl]
            at hdl
          injection hdl with h1 h2
          exact h1.symm
      have hlenq : rs.length + 2 = (a :: as).length := by
        have h0 := congrArg List.length hdl
        rw [List.length_dropLast] at h0
        simp only [List.length_cons] at h0 ⊢
        omega
      have hq0 : ∀ i, 0 < i → i < rs.length + 1 →
          ((r0 :: rs).set 0 L).getD i default
            = (a :: as).getD i default := by
        intro i hi hilt
        rw [getD_set_ne (r0 :: rs) 0 i _ default (by omega), ← hdl]
        refine getD_dropLast (a :: as) i default ?_
        rw [← hlenq]
        omega
      have hsu := su_spec lt ht ha hnt (r0 :: rs).length 0
        ((r0 :: rs).set 0 L) L
        (by simp) (by simp [List.length_set]) ?hedge (by omega)
      · refine ⟨?_, ?_, hsu.1⟩
        · intro x hx
          have hmin := heap_root_min lt hirr hnt (a :: as) hh x hx
          rw [show (a :: as).getD 0 default = a from rfl] at hmin
          rw [hr0]
          exact hmin
        · have hperm : List.Perm
              (su lt L (r0 :: rs).length ((r0 :: rs).set 0 L) 0 0)
              (L :: rs) := hsu.2
          have hqdec : a :: as = (r0 :: rs) ++ [L] := by
            rw [hLdef, ← hdl]
            exact eq_dropLast_append_pyLast (a :: as) (by simp)
          rw [hqdec]
          show List.Perm (r0 :: (rs ++ [L])) _
          exact (List.Perm.cons r0
            (List.perm_append_singleton _ rs)).trans
            (List.Perm.cons r0 hperm.symm)
      case hedge =>
        intro i hi hilen hip hjp
        rw [List.length_set, List.length_cons] at hilen
        rw [hq0 i hi (by omega), hq0 ((i - 1) / 2) (by omega) (by omega)]
        refine hh i hi ?_
        rw [← hlenq]
        omega


/-! ### Manhattan-distance lemmas -/

lemma manh_eq_natAbs (a b : Cell) :
    manh a b = ((b.1 - a.1).natAbs : ℤ) + ((b.2 - a.2).natAbs : ℤ) := by
  show |b.1 - a.1| + |b.2 - a.2| = _
  rw [Int.abs_eq_natAbs, Int.abs_eq_natAbs]

lemma manh_nonneg (a b : Cell) : 0 ≤ manh a b :=
  add_nonneg (abs_nonneg _) (abs_nonneg _)

lemma manh_self (a : Cell) : manh a a = 0 := by
  simp only [manh, sub_self, abs_zero, add_zero]

lemma manh_triangle (a b c : Cell) : manh a c ≤ manh a b + manh b c := by
  simp only [manh]
  have h1 := abs_sub_le c.1 b.1 a.1
  have h2 := abs_sub_le c.2 b.2 a.2
  have h3 : |c.1 - b.1| = |b.1 - c.1| := abs_sub_comm _ _
  have h4 : |c.2 - b.2| = |b.2 - c.2| := abs_sub_comm _ _
  linarith [abs_sub_comm c.1 b.1, abs_sub_comm c.2 b.2]

lemma manh_of_stepAdj {x y : Cell} (h : stepAdj x y) : manh x y = 1 := h

lemma chain_manh_le :
    ∀ (p : List Cell), p ≠ [] → List.Chain' stepAdj p →
      manh (pyHead p) (pyLast p) ≤ (p.length : ℤ) - 1
  | [], h, _ => absurd rfl h
  | [x], _, _ => by
    rw [show pyHead [x] = x from rfl, show pyLast [x] = x from rfl, manh_self]
    simp
  | a :: b :: t, _, hch => by
    rw [List.chain'_cons] at hch
    have hrec := chain_manh_le (b :: t) (by simp) hch.2
    rw [show pyHead (b :: t) = b from rfl] at hrec
    have htri := manh_triangle a b (pyLast (b :: t))
    rw [manh_of_stepAdj hch.1] at htri
    rw [show pyHead (a :: b :: t) = a from rfl, pyLast_cons_cons]
    simp only [List.length_cons] at hrec ⊢
    push_cast at hrec ⊢
    linarith

lemma opt_step (s x y : Cell) (hopt : onOpt s x y) (hne : x ≠ y) :
    ∃ d ∈ dirs, onOpt s (x.1 + d.1, x.2 + d.2) y ∧
      manh s (x.1 + d.1, x.2 + d.2) = manh s x + 1 ∧
      manh (x.1 + d.1, x.2 + d.2) y = manh x y - 1 ∧
      (∀ rows cols : ℕ, inBounds rows cols x → inBounds rows cols y →
        inBounds rows cols (x.1 + d.1, x.2 + d.2)) := by
  have hcomp : x.1 ≠ y.1 ∨ x.2 ≠ y.2 := by
    by_contra hc
    push_neg at hc
    exact hne (Prod.ext hc.1 hc.2)
  simp only [onOpt, manh_eq_natAbs] at hopt
  rcases lt_trichotomy x.1 y.1 with h1 | h1 | h1
  · refine ⟨(1, 0), by simp [dirs], ?_, ?_, ?_, ?_⟩
    · simp only [onOpt, manh_eq_natAbs]; omega
    · simp only [manh_eq_natAbs]; omega
    · simp only [manh_eq_natAbs]; omega
    · intro rows cols hx hy
      obtain ⟨hx1, hx2, hx3, hx4⟩ := hx
      obtain ⟨hy1, hy2, hy3, hy4⟩ := hy
      exact ⟨by omega, by omega, by omega, by omega⟩
  · rcases lt_trichotomy x.2 y.2 with h2 | h2 | h2
    · refine ⟨(0, 1), by simp [dirs], ?_, ?_, ?_, ?_⟩
      · simp only [onOpt, manh_eq_natAbs]; omega
      · simp only [manh_eq_natAbs]; omega
      · simp only [manh_eq_natAbs]; omega
      · intro rows cols hx hy
        obtain ⟨hx1, hx2, hx3, hx4⟩ := hx
        obtain ⟨hy1, hy2, hy3, hy4⟩ := hy
        exact ⟨by omega, by omega, by omega, by omega⟩
    · exact absurd (Prod.ext h1 h2) hne
    · refine ⟨(0, -1), by simp [dirs], ?_, ?_, ?_, ?_⟩
      · simp only [onOpt, manh_eq_natAbs]; omega
      · simp only [manh_eq_natAbs]; omega
      · simp only [manh_eq_natAbs]; omega
      · intro rows cols hx hy
        obtain ⟨hx1, hx2, hx3, hx4⟩ := hx
        obtain ⟨hy1, hy2, hy3, hy4⟩ := hy
        exact ⟨by omega, by omega, by omega, by omega⟩
  · refine ⟨(-1, 0), by simp [dirs], ?_, ?_, ?_, ?_⟩
    · simp only [onOpt, manh_eq_natAbs]; omega
    · simp only [manh_eq_natAbs]; omega
    · simp only [manh_eq_natAbs]; omega
    · intro rows cols hx hy
      obtain ⟨hx1, hx2, hx3, hx4⟩ := hx
      obtain ⟨hy1, hy2, hy3, hy4⟩ := hy
      exact ⟨by omega, by omega, by omega, by omega⟩

lemma manh_eq_zero_iff (a b : Cell) : manh a b = 0 ↔ a = b := by
  rw [manh_eq_natAbs]
  constructor
  · intro h
    refine Prod.ext ?_ ?_ <;> omega
  · intro h
    subst h
    omega

lemma heappop_some {E : Type} [Inhabited E] (lt : E → E → Bool)
    (q : List E) (hq : q ≠ []) : ∃ e q', heappop lt q = some (e, q') := by
  cases q with
  | nil => exact absurd rfl hq
  | cons a as =>
    rw [heappop]
    cases hdl : (a :: as).dropLast with
    | nil => exact ⟨_, _, rfl⟩
    | cons r0 rs => exact ⟨_, _, rfl⟩

lemma mem_grid_iff (rows cols : ℕ) (c : Cell) :
    c ∈ (Finset.Icc (0 : ℤ) ((rows : ℤ) - 1)) ×ˢ
        (Finset.Icc (0 : ℤ) ((cols : ℤ) - 1)) ↔ inBounds rows cols c := by
  rw [Finset.mem_product, Finset.mem_Icc, Finset.mem_Icc]
  unfold inBounds
  omega

lemma unvis_decrease (rows cols : ℕ) (visited : Cell → Bool) (x₀ : Cell)
    (hb : inBounds rows cols x₀) (hv : visited x₀ = false) :
    unvis rows cols (fun c => if c = x₀ then true else visited c) + 1
      = unvis rows cols visited := by
  unfold unvis
  have hset : ((Finset.Icc (0 : ℤ) ((rows : ℤ) - 1)) ×ˢ
      (Finset.Icc (0 : ℤ) ((cols : ℤ) - 1))).filter
        (fun c => (if c = x₀ then true else visited c) = false)
      = (((Finset.Icc (0 : ℤ) ((rows : ℤ) - 1)) ×ˢ
      (Finset.Icc (0 : ℤ) ((cols : ℤ) - 1))).filter
        (fun c => visited c = false)).erase x₀ := by
    ext c
    by_cases hc : c = x₀
    · subst hc
      simp [Finset.mem_erase, Finset.mem_filter]
    · simp [Finset.mem_erase, Finset.mem_filter, hc]
  rw [hset]
  rw [Finset.card_erase_of_mem]
  · have hpos : 0 < (((Finset.Icc (0 : ℤ) ((rows : ℤ) - 1)) ×ˢ
        (Finset.Icc (0 : ℤ) ((cols : ℤ) - 1))).filter
          (fun c => visited c = false)).card := by
      refine Finset.card_pos.mpr ⟨x₀, ?_⟩
      rw [Finset.mem_filter]
      exact ⟨(mem_grid_iff rows cols x₀).mpr hb, hv⟩
    omega
  · rw [Finset.mem_filter]
    exact ⟨(mem_grid_iff rows cols x₀).mpr hb, hv⟩

lemma entry_pos_inBounds {start : Cell} {rows cols : ℕ} {map_data : Cell → ℤ}
    {dose : Cell → ℚ} {w : ℚ} {mc : Cell → Option ℚ} {e : Entry}
    (he : EntryInv start rows cols map_data dose w mc e)
    (hs : inBounds rows cols start) : inBounds rows cols e.2.2.1 := by
  obtain ⟨h1, h2, h3, _, _, h6, _, _⟩ := he
  rw [← h3]
  cases hp : e.2.2.2 with
  | nil => exact absurd hp h1
  | cons a tl =>
    have hmem : pyLast (a :: tl) ∈ a :: tl := pyLast_mem _ (by simp)
    rcases List.mem_cons.mp hmem with hfst | htl
    · rw [hfst]
      have : pyHead (a :: tl) = start := by rw [← hp]; exact h2
      rw [show pyHead (a :: tl) = a from rfl] at this
      rw [this] at hfst ⊢
      exact hs
    · exact (h6 (pyLast (a :: tl)) (by rw [hp]; exact htl)).1

lemma stepC3_push (t : Cell) (rows cols : ℕ) (map_data : Cell → ℤ)
    (cost : ℚ) (path : List Cell) (x₀ : Cell) (d : ℤ × ℤ)
    (st : List Entry × (Cell → Option ℚ)) (hheap : IsHeap entryLT st.1)
    (hbf : 0 ≤ x₀.1 + d.1 ∧ x₀.1 + d.1 < (rows : ℤ) ∧
      0 ≤ x₀.2 + d.2 ∧ x₀.2 + d.2 < (cols : ℤ))
    (_hwall : ¬ map_data (x₀.1 + d.1, x₀.2 + d.2) = 1)
    (hadj : stepAdj x₀ (x₀.1 + d.1, x₀.2 + d.2))
    (st' : List Entry × (Cell → Option ℚ))
    (hst' : st' = (heappush entryLT st.1
        (cost + 1 + (fun _ : Cell => (0 : ℚ)) (x₀.1 + d.1, x₀.2 + d.2) * 0
            + ((|t.1 - (x₀.1 + d.1)| + |t.2 - (x₀.2 + d.2)| : ℤ) : ℚ),
          cost + 1 + (fun _ : Cell => (0 : ℚ)) (x₀.1 + d.1, x₀.2 + d.2) * 0,
          (x₀.1 + d.1, x₀.2 + d.2),
          path ++ [(x₀.1 + d.1, x₀.2 + d.2)]),
        fun c => if c = (x₀.1 + d.1, x₀.2 + d.2) then
          some (cost + 1
            + (fun _ : Cell => (0 : ℚ)) (x₀.1 + d.1, x₀.2 + d.2) * 0)
        else st.2 c))
    (hpcond : ∀ v, st.2 (x₀.1 + d.1, x₀.2 + d.2) = some v →
      cost + 1 + (fun _ : Cell => (0 : ℚ)) (x₀.1 + d.1, x₀.2 + d.2) * 0 < v) :
    IsHeap entryLT st'.1 ∧
    mcLE st'.2 st.2 ∧
    (∀ z ∈ st.1, z ∈ st'.1) ∧
    (∀ z ∈ st'.1, z ∈ st.1 ∨
      (inBounds rows cols z.2.2.1 ∧ stepAdj x₀ z.2.2.1 ∧
        z.1 = cost + 1 + ((manh z.2.2.1 t : ℤ) : ℚ) ∧ z.2.1 = cost + 1 ∧
        z.2.2.2 = path ++ [z.2.2.1])) ∧
    (∀ y v, st'.2 y = some v → st.2 y = some v ∨
      (v = cost + 1 ∧ stepAdj x₀ y)) ∧
    (∀ y v, st'.2 y = some v →
      (∃ f p, (f, v, y, p) ∈ st'.1) ∨ st.2 y = some v) ∧
    (inBounds rows cols (x₀.1 + d.1, x₀.2 + d.2) →
      map_data (x₀.1 + d.1, x₀.2 + d.2) ≠ 1 →
      ∃ v, st'.2 (x₀.1 + d.1, x₀.2 + d.2) = some v ∧ v ≤ cost + 1) ∧
    st'.1.length ≤ st.1.length + 1 := by
  subst hst'
  have hph := heappush_full entryLT
    (fun a b c h1 h2 => entryLT_trans h1 h2)
    (fun a b h => entryLT_asymm h)
    (fun a b c h1 h2 => entryLT_negtrans h1 h2)
    st.1
    (cost + 1 + (fun _ : Cell => (0 : ℚ)) (x₀.1 + d.1, x₀.2 + d.2) * 0
        + ((|t.1 - (x₀.1 + d.1)| + |t.2 - (x₀.2 + d.2)| : ℤ) : ℚ),
      cost + 1 + (fun _ : Cell => (0 : ℚ)) (x₀.1 + d.1, x₀.2 + d.2) * 0,
      (x₀.1 + d.1, x₀.2 + d.2),
      path ++ [(x₀.1 + d.1, x₀.2 + d.2)]) hheap
  refine ⟨hph.1, ?_, ?_, ?_, ?_, ?_, ?_, ?_⟩
  · intro k v hkv
    by_cases hk : k = (x₀.1 + d.1, x₀.2 + d.2)
    · refine ⟨cost + 1 + (fun _ : Cell => (0 : ℚ)) (x₀.1 + d.1, x₀.2 + d.2) * 0,
        ?_, ?_⟩
      · show (if k = (x₀.1 + d.1, x₀.2 + d.2) then _ else _) = _
        rw [if_pos hk]
      · exact le_of_lt (hpcond v (hk ▸ hkv))
    · refine ⟨v, ?_, le_rfl⟩
      show (if k = (x₀.1 + d.1, x₀.2 + d.2) then _ else _) = _
      rw [if_neg hk]
      exact hkv
  · intro z hz
    exact (hph.2).mem_iff.mpr (List.mem_cons_of_mem _ hz)
  · intro z hz
    rcases List.mem_cons.mp ((hph.2).mem_iff.mp hz) with rfl | hzm
    · refine Or.inr ⟨hbf, hadj, ?_, by simp, rfl⟩
      show _ = cost + 1 + ((manh (x₀.1 + d.1, x₀.2 + d.2) t : ℤ) : ℚ)
      simp [manh]
    · exact Or.inl hzm
  · intro y v hv
    dsimp only at hv
    by_cases hy : y = (x₀.1 + d.1, x₀.2 + d.2)
    · rw [if_pos hy] at hv
      refine Or.inr ⟨?_, hy ▸ hadj⟩
      simp only [Option.some.injEq] at hv
      rw [← hv]
      simp
    · rw [if_neg hy] at hv
      exact Or.inl hv
  · intro y v hv
    dsimp only at hv
    by_cases hy : y = (x₀.1 + d.1, x₀.2 + d.2)
    · subst hy
      rw [if_pos rfl] at hv
      simp only [Option.some.injEq] at hv
      refine Or.inl ⟨cost + 1 + (fun _ : Cell => (0 : ℚ))
          (x₀.1 + d.1, x₀.2 + d.2) * 0
          + ((|t.1 - (x₀.1 + d.1)| + |t.2 - (x₀.2 + d.2)| : ℤ) : ℚ),
        path ++ [(x₀.1 + d.1, x₀.2 + d.2)], ?_⟩
      rw [← hv]
      exact (hph.2).mem_iff.mpr (List.mem_cons_self _ _)
    · rw [if_neg hy] at hv
      exact Or.inr hv
  · intro _ _
    refine ⟨cost + 1 + (fun _ : Cell => (0 : ℚ)) (x₀.1 + d.1, x₀.2 + d.2) * 0,
      ?_, by simp⟩
    show (if (x₀.1 + d.1, x₀.2 + d.2) = (x₀.1 + d.1, x₀.2 + d.2) then _
      else _) = _
    rw [if_pos rfl]
  · rw [(hph.2).length_eq]
    simp

lemma stepC3 (t : Cell) (rows cols : ℕ) (map_data : Cell → ℤ)
    (cost : ℚ) (path : List Cell) (x₀ : Cell) (d : ℤ × ℤ) (hdm : d ∈ dirs)
    (st : List Entry × (Cell → Option ℚ)) (hheap : IsHeap entryLT st.1) :
    ∀ st', st' = neighborStep rows cols map_data (fun _ => 0) 0 t cost path
        x₀ st d →
      IsHeap entryLT st'.1 ∧
      mcLE st'.2 st.2 ∧
      (∀ z ∈ st.1, z ∈ st'.1) ∧
      (∀ z ∈ st'.1, z ∈ st.1 ∨
        (inBounds rows cols z.2.2.1 ∧ stepAdj x₀ z.2.2.1 ∧
          z.1 = cost + 1 + ((manh z.2.2.1 t : ℤ) : ℚ) ∧ z.2.1 = cost + 1 ∧
          z.2.2.2 = path ++ [z.2.2.1])) ∧
      (∀ y v, st'.2 y = some v → st.2 y = some v ∨
        (v = cost + 1 ∧ stepAdj x₀ y)) ∧
      (∀ y v, st'.2 y = some v →
        (∃ f p, (f, v, y, p) ∈ st'.1) ∨ st.2 y = some v) ∧
      (inBounds rows cols (x₀.1 + d.1, x₀.2 + d.2) →
        map_data (x₀.1 + d.1, x₀.2 + d.2) ≠ 1 →
        ∃ v, st'.2 (x₀.1 + d.1, x₀.2 + d.2) = some v ∧ v ≤ cost + 1) ∧
      st'.1.length ≤ st.1.length + 1 := by
  intro st' hst'
  simp only [neighborStep] at hst'
  by_cases hbf : ¬(0 ≤ x₀.1 + d.1 ∧ x₀.1 + d.1 < (rows : ℤ) ∧
      0 ≤ x₀.2 + d.2 ∧ x₀.2 + d.2 < (cols : ℤ))
  · rw [if_pos hbf] at hst'
    subst hst'
    exact ⟨hheap, mcLE_refl _, fun z hz => hz, fun z hz => Or.inl hz,
      fun y v hv => Or.inl hv, fun y v hv => Or.inr hv,
      fun hbnd _ => absurd hbnd hbf, Nat.le_succ _⟩
  · rw [if_neg hbf] at hst'
    rw [not_not] at hbf
    by_cases hwall : map_data (x₀.1 + d.1, x₀.2 + d.2) = 1
    · rw [if_pos hwall] at hst'
      subst hst'
      exact ⟨hheap, mcLE_refl _, fun z hz => hz, fun z hz => Or.inl hz,
        fun y v hv => Or.inl hv, fun y v hv => Or.inr hv,
        fun _ hw => absurd hwall hw, Nat.le_succ _⟩
    · rw [if_neg hwall] at hst'
      have hadj : stepAdj x₀ (x₀.1 + d.1, x₀.2 + d.2) := stepAdj_of_dir x₀ d hdm
      cases hmc : st.2 (x₀.1 + d.1, x₀.2 + d.2) with
      | none =>
        rw [hmc] at hst'
        rw [if_pos rfl] at hst'
        exact stepC3_push t rows cols map_data cost path x₀ d st hheap hbf
          hwall hadj st' hst'
          (fun v (hv : st.2 (x₀.1 + d.1, x₀.2 + d.2) = some v) => by
            rw [hmc] at hv
            exact absurd hv (by simp))
      | some v₀ =>
        rw [hmc] at hst'
        by_cases hlt : cost + 1 + (0 : ℚ) * 0 < v₀
        · rw [if_pos (decide_eq_true hlt)] at hst'
          exact stepC3_push t rows cols map_data cost path x₀ d st hheap hbf
            hwall hadj st' hst'
            (fun v (hv : st.2 (x₀.1 + d.1, x₀.2 + d.2) = some v) => by
              rw [hmc] at hv
              obtain rfl : v₀ = v := by simpa using hv
              exact hlt)
        · rw [if_neg (by simpa using hlt)] at hst'
          subst hst'
          refine ⟨hheap, mcLE_refl _, fun z hz => hz, fun z hz => Or.inl hz,
            fun y v hv => Or.inl hv, fun y v hv => Or.inr hv, ?_, Nat.le_succ _⟩
          intro _ _
          refine ⟨v₀, hmc, ?_⟩
          have hle := not_lt.mp hlt
          have hzz : (0 : ℚ) * 0 = 0 := by ring
          linarith

lemma foldC3 (t : Cell) (rows cols : ℕ) (map_data : Cell → ℤ)
    (cost : ℚ) (path : List Cell) (x₀ : Cell) :
    ∀ (ds : List (ℤ × ℤ)), (∀ d ∈ ds, d ∈ dirs) →
    ∀ (st : List Entry × (Cell → Option ℚ)), IsHeap entryLT st.1 →
    ∀ st', st' = ds.foldl
        (neighborStep rows cols map_data (fun _ => 0) 0 t cost path x₀) st →
      IsHeap entryLT st'.1 ∧
      mcLE st'.2 st.2 ∧
      (∀ z ∈ st.1, z ∈ st'.1) ∧
      (∀ z ∈ st'.1, z ∈ st.1 ∨
        (inBounds rows cols z.2.2.1 ∧ stepAdj x₀ z.2.2.1 ∧
          z.1 = cost + 1 + ((manh z.2.2.1 t : ℤ) : ℚ) ∧ z.2.1 = cost + 1 ∧
          z.2.2.2 = path ++ [z.2.2.1])) ∧
      (∀ y v, st'.2 y = some v → st.2 y = some v ∨
        (v = cost + 1 ∧ stepAdj x₀ y)) ∧
      (∀ y v, st'.2 y = some v →
        (∃ f p, (f, v, y, p) ∈ st'.1) ∨ st.2 y = some v) ∧
      (∀ d ∈ ds, inBounds rows cols (x₀.1 + d.1, x₀.2 + d.2) →
        map_data (x₀.1 + d.1, x₀.2 + d.2) ≠ 1 →
        ∃ v, st'.2 (x₀.1 + d.1, x₀.2 + d.2) = some v ∧ v ≤ cost + 1) ∧
      st'.1.length ≤ st.1.length + ds.length := by
  intro ds
  induction ds with
  | nil =>
    intro _ st hheap st' hst'
    simp only [List.foldl_nil] at hst'
    subst hst'
    exact ⟨hheap, mcLE_refl _, fun z hz => hz, fun z hz => Or.inl hz,
      fun y v hv => Or.inl hv, fun y v hv => Or.inr hv,
      fun d hd => absurd hd (List.not_mem_nil d), by simp⟩
  | cons d ds ih =>
    intro hmem st hheap st' hst'
    rw [List.foldl_cons] at hst'
    obtain ⟨s1, s2, s3, s4, s5, s6, s7, s8⟩ := stepC3 t rows cols map_data
      cost path x₀ d (hmem d (by simp)) st hheap
      (neighborStep rows cols map_data (fun _ => 0) 0 t cost path x₀ st d) rfl
    obtain ⟨i1, i2, i3, i4, i5, i6, i7, i8⟩ := ih
      (fun x hx => hmem x (by simp [hx]))
      (neighborStep rows cols map_data (fun _ => 0) 0 t cost path x₀ st d)
      s1 st' hst'
    refine ⟨i1, mcLE_trans i2 s2, ?_, ?_, ?_, ?_, ?_, ?_⟩
    · exact fun z hz => i3 z (s3 z hz)
    · intro z hz
      rcases i4 z hz with hz1 | hsh
      · exact s4 z hz1
      · exact Or.inr hsh
    · intro y v hv
      rcases i5 y v hv with hv1 | hsh
      · exact s5 y v hv1
      · exact Or.inr hsh
    · intro y v hv
      rcases i6 y v hv with hex | hv1
      · exact Or.inl hex
      · rcases s6 y v hv1 with hex | hv2
        · obtain ⟨f, p, hfp⟩ := hex
          exact Or.inl ⟨f, p, i3 _ hfp⟩
        · exact Or.inr hv2
    · intro d₀ hd₀ hbnd hnw
      rcases List.mem_cons.mp hd₀ with rfl | hd₀'
      · obtain ⟨v, hv, hvle⟩ := s7 hbnd hnw
        obtain ⟨v', hv', hv'le⟩ := i2 _ v hv
        exact ⟨v', hv', le_trans hv'le hvle⟩
      · exact i7 d₀ hd₀' hbnd hnw
    · simp only [List.length_cons]
      omega

lemma pathCost_zero :
    ∀ p : List Cell, p ≠ [] →
      pathCost (fun _ => 0) 0 p = (p.length : ℚ) - 1
  | [], h => absurd rfl h
  | [x], _ => by
    rw [show pathCost (fun _ => 0) 0 [x] = 0 from rfl]
    simp
  | a :: b :: t, _ => by
    rw [show pathCost (fun _ => 0) 0 (a :: b :: t)
        = (1 + (fun _ : Cell => (0 : ℚ)) b * 0)
          + pathCost (fun _ => 0) 0 (b :: t) from rfl]
    rw [pathCost_zero (b :: t) (by simp)]
    simp only [List.length_cons]
    push_cast
    ring

lemma reachAux (s : Cell) (rows cols : ℕ) (visited : Cell → Bool)
    (mc : Cell → Option ℚ)
    (hlb : ∀ y v, mc y = some v → ((manh s y : ℤ) : ℚ) ≤ v)
    (hvis : ∀ x, visited x = true → inBounds rows cols x ∧
      ∀ d ∈ dirs, inBounds rows cols (x.1 + d.1, x.2 + d.2) →
        ∃ v, mc (x.1 + d.1, x.2 + d.2) = some v ∧
          v ≤ ((manh s x : ℤ) : ℚ) + 1) :
    ∀ (n : ℕ) (z y : Cell), (manh z y).toNat = n →
      inBounds rows cols z → inBounds rows cols y → visited y = false →
      mc z = some ((manh s z : ℤ) : ℚ) → onOpt s z y →
      ∃ x, visited x = false ∧ inBounds rows cols x ∧
        mc x = some ((manh s x : ℤ) : ℚ) ∧ onOpt s x y := by
  intro n
  induction n using Nat.strong_induction_on with
  | _ n ihn =>
    intro z y hn hzb hyb hyv hmcz hopt
    cases hvz : visited z with
    | false => exact ⟨z, hvz, hzb, hmcz, hopt⟩
    | true =>
      have hzy : z ≠ y := by
        intro h
        rw [h, hyv] at hvz
        exact Bool.false_ne_true hvz
      obtain ⟨d, hd, hopt', hsz, hzy', hbnds⟩ := opt_step s z y hopt hzy
      have hz'b : inBounds rows cols (z.1 + d.1, z.2 + d.2) :=
        hbnds rows cols hzb hyb
      obtain ⟨v, hv, hvle⟩ := (hvis z hvz).2 d hd hz'b
      have hvge := hlb (z.1 + d.1, z.2 + d.2) v hv
      have hveq : v = ((manh s (z.1 + d.1, z.2 + d.2) : ℤ) : ℚ) := by
        rw [hsz] at hvge ⊢
        push_cast at hvge hvle ⊢
        linarith
      have hpos : 0 < manh z y := by
        rcases lt_or_eq_of_le (manh_nonneg z y) with h | h
        · exact h
        · exact absurd ((manh_eq_zero_iff z y).mp h.symm) hzy
      have hn' : (manh (z.1 + d.1, z.2 + d.2) y).toNat < n := by
        rw [hzy']
        omega
      exact ihn _ hn' (z.1 + d.1, z.2 + d.2) y rfl hz'b hyb hyv
        (hveq ▸ hv) hopt'

lemma frontierEx (s : Cell) (rows cols : ℕ) (queue : List Entry)
    (visited : Cell → Bool) (mc : Cell → Option ℚ)
    (hlb : ∀ y v, mc y = some v → ((manh s y : ℤ) : ℚ) ≤ v)
    (hq : ∀ y v, visited y = false → mc y = some v →
      ∃ f p, (f, v, y, p) ∈ queue)
    (hvis : ∀ x, visited x = true → inBounds rows cols x ∧
      ∀ d ∈ dirs, inBounds rows cols (x.1 + d.1, x.2 + d.2) →
        ∃ v, mc (x.1 + d.1, x.2 + d.2) = some v ∧
          v ≤ ((manh s x : ℤ) : ℚ) + 1)
    (hmcs : mc s = some 0) (hsb : inBounds rows cols s)
    (y : Cell) (hyb : inBounds rows cols y) (hyv : visited y = false) :
    ∃ w : Entry, w ∈ queue ∧ visited w.2.2.1 = false ∧
      inBounds rows cols w.2.2.1 ∧
      w.2.1 = ((manh s w.2.2.1 : ℤ) : ℚ) ∧ onOpt s w.2.2.1 y := by
  obtain ⟨x, hxv, hxb, hxmc, hxopt⟩ := reachAux s rows cols visited mc hlb
    hvis (manh s y).toNat s y rfl hsb hyb hyv
    (by rw [manh_self]; simpa using hmcs)
    (by unfold onOpt; rw [manh_self]; ring)
  obtain ⟨f, p, hfp⟩ := hq x _ hxv hxmc
  exact ⟨(f, ((manh s x : ℤ) : ℚ), x, p), hfp, hxv, hxb, rfl, hxopt⟩

lemma cost_lb (s : Cell) (rows cols : ℕ) (map_data : Cell → ℤ)
    (mc : Cell → Option ℚ) (e : Entry)
    (hE : EntryInv s rows cols map_data (fun _ => 0) 0 mc e) :
    ((manh s e.2.2.1 : ℤ) : ℚ) ≤ e.2.1 := by
  obtain ⟨h1, h2, h3, h4, h5, _, _, _⟩ := hE
  rw [h4, pathCost_zero _ h1]
  have hch := chain_manh_le e.2.2.2 h1 h5
  rw [h2, h3] at hch
  have hcast : ((manh s e.2.2.1 : ℤ) : ℚ) ≤ ((e.2.2.2.length : ℤ) : ℚ) - 1 := by
    push_cast
    exact_mod_cast hch
  push_cast at hcast ⊢
  linarith

lemma pop_cost_opt (s t : Cell) (rows cols : ℕ) (map_data : Cell → ℤ)
    (queue : List Entry) (visited : Cell → Bool) (mc : Cell → Option ℚ)
    (hC3 : C3State s t rows cols map_data queue visited mc)
    (hsb : inBounds rows cols s)
    (e : Entry) (he : e ∈ queue)
    (hmin : ∀ x ∈ queue, entryLT x e = false)
    (hx₀v : visited e.2.2.1 = false) (hx₀b : inBounds rows cols e.2.2.1) :
    e.2.1 = ((manh s e.2.2.1 : ℤ) : ℚ) := by
  obtain ⟨hheap, hstate, hpri, hlb, hq, hvis, hmcs⟩ := hC3
  obtain ⟨w, hwq, hwv, hwb, hwcost, hwopt⟩ := frontierEx s rows cols queue
    visited mc hlb hq (fun x hx => ⟨(hvis x hx).1, (hvis x hx).2.2⟩) hmcs hsb
    e.2.2.1 hx₀b hx₀v
  have hwf : w.1 ≤ ((manh s e.2.2.1 : ℤ) : ℚ) + ((manh e.2.2.1 t : ℤ) : ℚ) := by
    rcases hpri w hwq with hP | hInit
    · rw [hP, hwcost]
      have htr := manh_triangle w.2.2.1 e.2.2.1 t
      have hsum : manh s w.2.2.1 + manh w.2.2.1 e.2.2.1 = manh s e.2.2.1 :=
        hwopt
      have hZ : manh s w.2.2.1 + manh w.2.2.1 t
          ≤ manh s e.2.2.1 + manh e.2.2.1 t := by omega
      exact_mod_cast hZ
    · rw [hInit]
      show (0 : ℚ) ≤ _
      have h1 := manh_nonneg s e.2.2.1
      have h2 := manh_nonneg e.2.2.1 t
      have : (0 : ℤ) ≤ manh s e.2.2.1 + manh e.2.2.1 t := by omega
      exact_mod_cast this
  have hef : e.1 ≤ w.1 := entryLT_false_fst_le (hmin w hwq)
  have hlow := cost_lb s rows cols map_data mc e (hstate e he)
  rcases hpri e he with hPe | hIe
  · rw [hPe] at hef
    have hup : e.2.1 ≤ ((manh s e.2.2.1 : ℤ) : ℚ) := by linarith
    linarith
  · rw [hIe]
    show (0 : ℚ) = ((manh s ((0 : ℚ), (0 : ℚ), s, [s]).2.2.1 : ℤ) : ℚ)
    rw [show ((0 : ℚ), (0 : ℚ), s, [s]).2.2.1 = s from rfl, manh_self]
    simp

lemma astarLoopC3 (s t : Cell) (rows cols : ℕ) (map_data : Cell → ℤ)
    (hnw : ∀ c, inBounds rows cols c → map_data c ≠ 1)
    (hsb : inBounds rows cols s) (htb : inBounds rows cols t) :
    ∀ (fuel : ℕ) (queue : List Entry) (visited : Cell → Bool)
      (mc : Cell → Option ℚ),
      C3State s t rows cols map_data queue visited mc →
      queue.length + 4 * unvis rows cols visited < fuel →
      ∃ p : List Cell,
        astarLoop rows cols map_data (fun _ => 0) 0 t fuel queue visited mc
          = some (some p) ∧ (p.length : ℤ) = manh s t + 1 := by
  intro fuel
  induction fuel with
  | zero =>
    intro queue visited mc _ hmeas
    exact absurd hmeas (by omega)
  | succ fuel ih =>
    intro queue visited mc hC3 hmeas
    obtain ⟨hheap, hstate, hpri, hlb, hq, hvis, hmcs⟩ := hC3
    have hvismk : ∀ x, visited x = true → inBounds rows cols x ∧
        ∀ d ∈ dirs, inBounds rows cols (x.1 + d.1, x.2 + d.2) →
          ∃ v, mc (x.1 + d.1, x.2 + d.2) = some v ∧
            v ≤ ((manh s x : ℤ) : ℚ) + 1 :=
      fun x hx => ⟨(hvis x hx).1, (hvis x hx).2.2⟩
    have htv : visited t = false := by
      cases htv' : visited t with
      | false => rfl
      | true => exact absurd rfl (hvis t htv').2.1
    obtain ⟨w₀, hw₀q, _, _, _, _⟩ := frontierEx s rows cols queue visited mc
      hlb hq hvismk hmcs hsb t htb htv
    have hqne : queue ≠ [] := by
      intro h
      rw [h] at hw₀q
      exact (List.not_mem_nil w₀) hw₀q
    obtain ⟨e, q', hpop⟩ := heappop_some entryLT queue hqne
    obtain ⟨hmin, hperm, hq'heap⟩ := heappop_full entryLT entryLT_irrefl
      (fun a b c h1 h2 => entryLT_trans h1 h2) (fun a b h => entryLT_asymm h)
      (fun a b c h1 h2 => entryLT_negtrans h1 h2) queue e q' hheap hpop
    have heq : e ∈ queue := hperm.mem_iff.mpr (List.mem_cons_self _ _)
    have hq'sub : ∀ x ∈ q', x ∈ queue :=
      fun x hx => hperm.mem_iff.mpr (List.mem_cons_of_mem _ hx)
    have hq'len : queue.length = q'.length + 1 := by
      have hl := hperm.length_eq
      simpa using hl
    have hEe := hstate e heq
    have hx₀b : inBounds rows cols e.2.2.1 := entry_pos_inBounds hEe hsb
    simp only [astarLoop]
    rw [hpop]
    dsimp only
    by_cases hgoal : e.2.2.1 = t
    · rw [if_pos hgoal]
      refine ⟨e.2.2.2, rfl, ?_⟩
      have hx₀v : visited e.2.2.1 = false := by rw [hgoal]; exact htv
      have hcopt : e.2.1 = ((manh s e.2.2.1 : ℤ) : ℚ) :=
        pop_cost_opt s t rows cols map_data queue visited mc
          ⟨hheap, hstate, hpri, hlb, hq, hvis, hmcs⟩ hsb e heq hmin hx₀v hx₀b
      obtain ⟨h1, h2, h3, h4, _, _, _, _⟩ := hEe
      rw [h4, pathCost_zero _ h1] at hcopt
      rw [hgoal] at hcopt
      have hqq : ((e.2.2.2.length : ℤ) : ℚ) = ((manh s t + 1 : ℤ) : ℚ) := by
        push_cast at hcopt ⊢
        linarith
      exact_mod_cast hqq
    · rw [if_neg hgoal]
      by_cases hvstd : visited e.2.2.1 = true
      · rw [if_pos hvstd]
        refine ih q' visited mc ⟨hq'heap, fun x hx => hstate x (hq'sub x hx),
          fun x hx => hpri x (hq'sub x hx), hlb, ?_, hvis, hmcs⟩ (by omega)
        intro y v hyv hmc
        obtain ⟨f, p, hfp⟩ := hq y v hyv hmc
        rcases List.mem_cons.mp (hperm.mem_iff.mp hfp) with heq2 | hq'mem
        · exfalso
          have hye : y = e.2.2.1 := by rw [← heq2]
          rw [← hye] at hvstd
          rw [hyv] at hvstd
          exact Bool.false_ne_true hvstd
        · exact ⟨f, p, hq'mem⟩
      · rw [if_neg hvstd]
        have hx₀v : visited e.2.2.1 = false := Bool.eq_false_iff.mpr hvstd
        have hcopt : e.2.1 = ((manh s e.2.2.1 : ℤ) : ℚ) :=
          pop_cost_opt s t rows cols map_data queue visited mc
            ⟨hheap, hstate, hpri, hlb, hq, hvis, hmcs⟩ hsb e heq hmin hx₀v hx₀b
        obtain ⟨f1, f2, f3, f4, f5, f6, f7, f8⟩ := foldC3 t rows cols map_data
          e.2.1 e.2.2.2 e.2.2.1 dirs (fun d hd => hd) (q', mc) hq'heap
          (dirs.foldl (neighborStep rows cols map_data (fun _ => 0) 0 t e.2.1
            e.2.2.2 e.2.2.1) (q', mc)) rfl
        have hstate' := foldl_neighborStep_pres s rows cols map_data
          (fun _ => 0) 0 t (fun _ => le_rfl) le_rfl e.1 e.2.1 e.2.2.1 e.2.2.2
          dirs (fun d hd => hd) (q', mc) hEe
          (fun x hx => hstate x (hq'sub x hx))
        have hlb' : ∀ y v, (dirs.foldl (neighborStep rows cols map_data
            (fun _ => 0) 0 t e.2.1 e.2.2.2 e.2.2.1) (q', mc)).2 y = some v →
            ((manh s y : ℤ) : ℚ) ≤ v := by
          intro y v hv
          rcases f5 y v hv with hold | ⟨rfl, hadj⟩
          · exact hlb y v hold
          · have htr := manh_triangle s e.2.2.1 y
            rw [manh_of_stepAdj hadj] at htr
            rw [hcopt]
            have : ((manh s y : ℤ) : ℚ) ≤ ((manh s e.2.2.1 + 1 : ℤ) : ℚ) := by
              exact_mod_cast htr
            push_cast at this ⊢
            linarith
        refine ih _ _ _ ⟨f1, hstate', ?_, hlb', ?_, ?_, ?_⟩ ?_
        · -- priorities
          intro z hz
          rcases f4 z hz with hzq | ⟨_, _, hz1, hz2, _⟩
          · exact hpri z (hq'sub z hzq)
          · refine Or.inl ?_
            unfold EntryPri
            rw [hz1, hz2]
        · -- INV_Q
          intro y v hyv' hv
          dsimp only at hyv'
          have hyne : y ≠ e.2.2.1 := by
            intro h
            rw [h] at hyv'
            rw [if_pos rfl] at hyv'
            exact Bool.false_ne_true hyv'.symm
          have hyv0 : visited y = false := by
            rw [if_neg hyne] at hyv'
            exact hyv'
          rcases f6 y v hv with hex | hold
          · exact hex
          · obtain ⟨f, p, hfp⟩ := hq y v hyv0 hold
            rcases List.mem_cons.mp (hperm.mem_iff.mp hfp) with heq2 | hq'mem
            · exfalso
              apply hyne
              rw [← heq2]
            · exact ⟨f, p, f3 _ hq'mem⟩
        · -- INV_V
          intro x hx
          dsimp only at hx
          by_cases hxx : x = e.2.2.1
          · subst hxx
            refine ⟨hx₀b, hgoal, ?_⟩
            intro d hd hbnd
            obtain ⟨v, hv, hvle⟩ := f7 d hd hbnd (hnw _ hbnd)
            refine ⟨v, hv, ?_⟩
            rw [hcopt] at hvle
            exact hvle
          · rw [if_neg hxx] at hx
            obtain ⟨b1, b2, b3⟩ := hvis x hx
            refine ⟨b1, b2, ?_⟩
            intro d hd hbnd
            obtain ⟨v₀, hv₀, hv₀le⟩ := b3 d hd hbnd
            obtain ⟨v', hv', hv'le⟩ := f2 _ v₀ hv₀
            exact ⟨v', hv', le_trans hv'le hv₀le⟩
        · -- mc start
          obtain ⟨v', hv', hv'le⟩ := f2 s 0 hmcs
          have hge := hlb' s v' hv'
          rw [manh_self] at hge
          have hv'0 : v' = 0 := le_antisymm hv'le (by exact_mod_cast hge)
          rw [hv'0] at hv'
          exact hv'
        · -- measure
          have hdlen : dirs.length = 4 := rfl
          dsimp only at f8
          rw [hdlen] at f8
          have hud := unvis_decrease rows cols visited e.2.2.1 hx₀b hx₀v
          omega

lemma unvis_le (rows cols : ℕ) (visited : Cell → Bool) :
    unvis rows cols visited ≤ rows * cols := by
  unfold unvis
  have h1 : (Finset.Icc (0 : ℤ) ((rows : ℤ) - 1)).card = rows := by
    rw [Int.card_Icc]
    omega
  have h2 : (Finset.Icc (0 : ℤ) ((cols : ℤ) - 1)).card = cols := by
    rw [Int.card_Icc]
    omega
  calc (((Finset.Icc (0 : ℤ) ((rows : ℤ) - 1)) ×ˢ
        (Finset.Icc (0 : ℤ) ((cols : ℤ) - 1))).filter
          (fun c => visited c = false)).card
      ≤ ((Finset.Icc (0 : ℤ) ((rows : ℤ) - 1)) ×ˢ
        (Finset.Icc (0 : ℤ) ((cols : ℤ) - 1))).card :=
        Finset.card_filter_le _ _
    _ = rows * cols := by rw [Finset.card_product, h1, h2]

lemma run_astarC3 (s t : Cell) (rows cols : ℕ) (map_data : Cell → ℤ)
    (hnw : ∀ c, inBounds rows cols c → map_data c ≠ 1)
    (hsb : inBounds rows cols s) (htb : inBounds rows cols t)
    (fuel : ℕ) (hfuel : 4 * (rows * cols) + 2 ≤ fuel) :
    ∃ p : List Cell,
      run_astar fuel s t rows cols map_data (fun _ => 0) 0 = some (some p) ∧
        (p.length : ℤ) = manh s t + 1 := by
  apply astarLoopC3 s t rows cols map_data hnw hsb htb fuel
    [(0, 0, s, [s])] (fun _ => false) (fun c => if c = s then some 0 else none)
    ?_ ?_
  · refine ⟨?_, ?_, ?_, ?_, ?_, ?_, by dsimp only; rw [if_pos rfl]⟩
    · intro i hi hilen
      simp only [List.length_cons, List.length_nil] at hilen
      omega
    · intro e he
      simp only [List.mem_singleton] at he
      subst he
      refine ⟨by simp, rfl, rfl, rfl, by simp, by simp, by simp, ?_⟩
      intro p hp hpre
      have hps := pref_of_singleton hp hpre
      subst hps
      refine ⟨0, by simp [pyLast], ?_⟩
      rw [show pathCost (fun _ => 0) 0 [s] = 0 from rfl]
    · intro e he
      simp only [List.mem_singleton] at he
      exact Or.inr he
    · intro y v hv
      dsimp only at hv
      by_cases hy : y = s
      · subst hy
        rw [if_pos rfl] at hv
        simp only [Option.some.injEq] at hv
        rw [manh_self, ← hv]
        simp
      · rw [if_neg hy] at hv
        exact absurd hv (by simp)
    · intro y v _ hv
      dsimp only at hv
      by_cases hy : y = s
      · rw [if_pos hy] at hv
        simp only [Option.some.injEq] at hv
        refine ⟨0, [s], ?_⟩
        rw [← hv, hy]
        simp
      · rw [if_neg hy] at hv
        exact absurd hv (by simp)
    · intro x hx
      exact absurd hx (by simp)
  · have hu := unvis_le rows cols (fun _ => false)
    simp only [List.length_cons, List.length_nil]
    linarith

/-- Claim C3: on a grid with no wall cells, for in-bounds cells `a` and
`b`, `find_optimal_route(a, b, None, map_data, None, 0)` (no waypoint, no
dose map, weight `0`) returns a path whose number of cells is the
Manhattan distance between `a` and `b` plus one.  The fuel lower bound
`4 * rows * cols + 2` makes the fuelled embedding of the unbounded
Python `while` loop run to completion. -/
theorem find_optimal_route_manhattan (fuel rows cols : ℕ)
    (map_data : Cell → ℤ) (a b : Cell)
    (hnw : ∀ c, inBounds rows cols c → map_data c ≠ 1)
    (hab : inBounds rows cols a) (hbb : inBounds rows cols b)
    (hfuel : 4 * (rows * cols) + 2 ≤ fuel) :
    ∃ p : List Cell,
      find_optimal_route fuel a b none rows cols map_data none 0
        = some (some p) ∧ (p.length : ℤ) = manh a b + 1 := by
  obtain ⟨p, hp, hlen⟩ := run_astarC3 a b rows cols map_data hnw hab hbb
    fuel hfuel
  exact ⟨p, hp, hlen⟩

/-- Witness for C3: on the wall-free 2×2 grid with `a = (0, 0)` and
`b = (1, 1)` and fuel `18`, the call returns a path of
`manhattan((0,0),(1,1)) + 1 = 3` cells. -/
theorem find_optimal_route_manhattan_witness :
    ∃ p : List Cell,
      find_optimal_route 18 (0, 0) (1, 1) none 2 2 (fun _ => 0) none 0
        = some (some p) ∧ (p.length : ℤ) = manh (0, 0) (1, 1) + 1 :=
  find_optimal_route_manhattan 18 2 2 (fun _ => 0) (0, 0) (1, 1)
    (fun _ _ => by show (0 : ℤ) ≠ 1; decide)
    (by unfold inBounds; decide) (by unfold inBounds; decide) (by decide)

/-- Claim C4: whenever `run_astar` returns a path (not `None`), the path
is non-empty, starts at `start`, ends at `goal`, consists of pairwise
distinct cells, every consecutive pair is 4-connected (differs by exactly
one unit in exactly one axis), and every cell except possibly the start
is in bounds and is not a wall (`map_data ≠ 1`).  The non-negativity
hypotheses on the dose map and the weight are the spec's input domain. -/
theorem run_astar_path_ok (fuel : ℕ) (rows cols : ℕ) (map_data : Cell → ℤ)
    (dose_map : Cell → ℚ) (weight : ℚ) (start goal : Cell) (path : List Cell)
    (hd : ∀ c, 0 ≤ dose_map c) (hw : 0 ≤ weight)
    (h : run_astar fuel start goal rows cols map_data dose_map weight
        = some (some path)) :
    path ≠ [] ∧ pyHead path = start ∧ pyLast path = goal ∧ path.Nodup ∧
      List.Chain' stepAdj path ∧
      ∀ c ∈ path.tail, inBounds rows cols c ∧ map_data c ≠ 1 :=
  run_astar_sound fuel start goal rows cols map_data dose_map weight path hd hw h

attribute [local semireducible] Rat.add Rat.mul Rat.sub Rat.inv in
/-- Witness for C4: on the wall-free 2×2 zero-dose grid the search from
`(0, 0)` to `(1, 1)` returns `[(0, 0), (0, 1), (1, 1)]`, and the claimed
properties hold of it. -/
theorem run_astar_path_ok_witness :
    ([((0 : ℤ), (0 : ℤ)), (0, 1), (1, 1)] : List Cell) ≠ [] ∧
      pyHead ([((0 : ℤ), (0 : ℤ)), (0, 1), (1, 1)] : List Cell) = (0, 0) ∧
      pyLast ([((0 : ℤ), (0 : ℤ)), (0, 1), (1, 1)] : List Cell) = (1, 1) ∧
      ([((0 : ℤ), (0 : ℤ)), (0, 1), (1, 1)] : List Cell).Nodup ∧
      List.Chain' stepAdj ([((0 : ℤ), (0 : ℤ)), (0, 1), (1, 1)] : List Cell) ∧
      ∀ c ∈ ([((0 : ℤ), (0 : ℤ)), (0, 1), (1, 1)] : List Cell).tail,
        inBounds 2 2 c ∧ (fun _ : Cell => (0 : ℤ)) c ≠ 1 :=
  run_astar_path_ok 50 2 2 (fun _ => 0) (fun _ => 0) 0 (0, 0) (1, 1)
    [(0, 0), (0, 1), (1, 1)] (fun _ => le_rfl) le_rfl (by decide)

/-- Claim C2: with a waypoint, `find_optimal_route` runs the two legs
start→waypoint and waypoint→goal; if either leg reports no path the whole
call returns `None` with no partial result, and if both legs return paths
the result is exactly `path1 + path2[1:]`, in which the waypoint occurs
exactly once.  The non-negativity hypotheses on the dose map and the
weight are the spec's input domain. -/
theorem find_optimal_route_waypoint_junction (fuel : ℕ) (rows cols : ℕ)
    (map_data : Cell → ℤ) (dose_map : Cell → ℚ) (weight : ℚ) (s g wpt : Cell)
    (hd : ∀ c, 0 ≤ dose_map c) (hw : 0 ≤ weight) :
    (run_astar fuel s wpt rows cols map_data dose_map weight = some none →
      find_optimal_route fuel s g (some wpt) rows cols map_data
        (some dose_map) weight = some none) ∧
    (∀ p1, run_astar fuel s wpt rows cols map_data dose_map weight
        = some (some p1) →
      run_astar fuel wpt g rows cols map_data dose_map weight = some none →
      find_optimal_route fuel s g (some wpt) rows cols map_data
        (some dose_map) weight = some none) ∧
    (∀ p1 p2, run_astar fuel s wpt rows cols map_data dose_map weight
        = some (some p1) →
      run_astar fuel wpt g rows cols map_data dose_map weight
        = some (some p2) →
      find_optimal_route fuel s g (some wpt) rows cols map_data
          (some dose_map) weight = some (some (p1 ++ p2.tail)) ∧
        @List.count Cell instBEqOfDecidableEq wpt (p1 ++ p2.tail) = 1) := by
  refine ⟨?_, ?_, ?_⟩
  · intro h1
    simp only [find_optimal_route]
    rw [h1]
  · intro p1 h1 h2
    obtain ⟨hne1, _, _, _, _, _⟩ := run_astar_sound fuel s wpt rows cols
      map_data dose_map weight p1 hd hw h1
    simp only [find_optimal_route]
    rw [h1]
    dsimp only
    rw [if_neg hne1, h2]
  · intro p1 p2 h1 h2
    obtain ⟨hne1, _, hlast1, hnd1, _, _⟩ := run_astar_sound fuel s wpt rows
      cols map_data dose_map weight p1 hd hw h1
    obtain ⟨hne2, hhd2, _, hnd2, _, _⟩ := run_astar_sound fuel wpt g rows
      cols map_data dose_map weight p2 hd hw h2
    constructor
    · simp only [find_optimal_route]
      rw [h1]
      dsimp only
      rw [if_neg hne1, h2]
      dsimp only
      rw [if_neg hne2]
    · cases p2 with
      | nil => exact absurd rfl hne2
      | cons a t =>
        have ha : a = wpt := hhd2
        have hwmem : wpt ∈ p1 := by
          rw [← hlast1]; exact pyLast_mem p1 hne1
        have hc1 := List.count_eq_one_of_mem hnd1 hwmem
        have hnotin : wpt ∉ t := by
          rw [← ha]; exact (List.nodup_cons.mp hnd2).1
        have hlaw : @LawfulBEq Cell instBEqOfDecidableEq :=
          @LawfulBEq.mk Cell instBEqOfDecidableEq (fun h => of_decide_eq_true h)
            (fun {a} => of_decide_eq_self_eq_true a)
        have hc0 : @List.count Cell instBEqOfDecidableEq wpt t = 0 :=
          (@List.count_eq_zero Cell instBEqOfDecidableEq hlaw wpt t).mpr hnotin
        rw [show (a :: t).tail = t from rfl,
          @List.count_append Cell instBEqOfDecidableEq wpt p1 t, hc1, hc0]

attribute [local semireducible] Rat.add Rat.mul Rat.sub Rat.inv in
/-- Witness for C2: on the wall-free 2×2 zero-dose grid with start
`(0, 0)`, waypoint `(1, 1)` and goal `(1, 0)`, the legs return
`[(0, 0), (0, 1), (1, 1)]` and `[(1, 1), (1, 0)]`, and the whole call
returns their junction with the waypoint occurring exactly once. -/
theorem find_optimal_route_waypoint_junction_witness :
    find_optimal_route 50 (0, 0) (1, 0) (some (1, 1)) 2 2 (fun _ => 0)
        (some fun _ => 0) 0
      = some (some (([((0 : ℤ), (0 : ℤ)), (0, 1), (1, 1)] : List Cell)
          ++ ([((1 : ℤ), (1 : ℤ)), (1, 0)] : List Cell).tail)) ∧
    @List.count Cell instBEqOfDecidableEq (1, 1)
        (([((0 : ℤ), (0 : ℤ)), (0, 1), (1, 1)] : List Cell)
          ++ ([((1 : ℤ), (1 : ℤ)), (1, 0)] : List Cell).tail) = 1 :=
  (find_optimal_route_waypoint_junction 50 2 2 (fun _ => 0) (fun _ => 0) 0
      (0, 0) (1, 0) (1, 1) (fun _ => le_rfl) le_rfl).2.2
    [(0, 0), (0, 1), (1, 1)] [(1, 1), (1, 0)] (by decide) (by decide)

end PhitsMapEdit
